import Mathlib

/-!
Verification of the diagnostic-text parser of the cbor-diag library.

The Rust source (src/parse/diag.rs) is a nom 5 combinator grammar.  We embed it
shallowly: a parser is a function from the remaining input (a list of
characters) to an optional pair of a result and the rest of the input;
`none` models a nom error (all errors in this grammar are backtrackable at the
points that matter, and labels only decorate error messages).

Modelling decisions, justified against the source:
* nom `multispace0` consumes exactly spaces, tabs, carriage returns and line
  feeds; this is `isMS` below.  The `WHITESPACE` constant of the source
  (tab, LF, vertical tab, CR, space) is `isWS5`; it is used by the
  binary-to-text codecs and by the literal-body recognizers, not by `ws`.
* `data_encoding` codecs built with an `ignore` set decode by skipping every
  ignored character and strictly decoding the rest; we model each codec as
  strict decoding of the whitespace-filtered body.
* `f64::from_str` never fails on the shape matched by `recognize_float`
  (overflow gives infinity), so a float value is modelled as the recognized
  literal itself; `Infinity`, `-Infinity` and `NaN` are separate values.
  No claim depends on numeric properties of the float value.
* Rust `String` values are lists of characters; `into_bytes`/`from_utf8` are
  modelled by explicit UTF-8 encoding and (validating) decoding on `Nat` bytes.
* The recursion of `data_item` through containers and tags is modelled with
  fuel; every recursive call strictly consumes input, so fuel `length + 1`
  computes the same result as any larger fuel (proved below), and
  `parse_diag` uses exactly that fuel.
-/

namespace CD

/-- Characters consumed by nom `multispace0`: the layout skipper `ws`. -/
def isMS (c : Char) : Bool := c = ' ' || c = '\t' || c = '\r' || c = '\n'

/-- The `WHITESPACE` constant of the source: tab, LF, vertical tab, CR, space
(the string literal repeats LF, which adds nothing as a set). -/
def isWS5 (c : Char) : Bool :=
  c = '\t' || c = '\n' || c = Char.ofNat 11 || c = '\r' || c = ' '

/-- `IntegerWidth` of the source crate. -/
inductive IntegerWidth
  | zero
  | eight
  | sixteen
  | thirtyTwo
  | sixtyFour
  | unknown
deriving DecidableEq, Repr

/-- `FloatWidth` of the source crate (no 8-bit variant exists). -/
inductive FloatWidth
  | sixteen
  | thirtyTwo
  | sixtyFour
  | unknown
deriving DecidableEq, Repr

/-- The value of a parsed float literal.  `num` keeps the recognized decimal
literal; the three token forms are distinguished values. -/
inductive FloatVal
  | num (lit : List Char)
  | inf
  | negInf
  | nan
deriving DecidableEq, Repr

/-- `ByteString` of the source crate; bytes are `Nat` values below 256. -/
structure ByteString where
  data : List Nat
  bitwidth : IntegerWidth
deriving DecidableEq, Repr

/-- `TextString` of the source crate. -/
structure TextString where
  data : List Char
  bitwidth : IntegerWidth
deriving DecidableEq, Repr

/-- `DataItem` of the source crate. -/
inductive DataItem
  | integer (value : Nat) (bitwidth : IntegerWidth)
  | negative (value : Nat) (bitwidth : IntegerWidth)
  | byteString (bs : ByteString)
  | indefiniteByteString (chunks : List ByteString)
  | textString (ts : TextString)
  | indefiniteTextString (chunks : List TextString)
  | array (data : List DataItem) (bitwidth : Option IntegerWidth)
  | mapItem (data : List (DataItem × DataItem)) (bitwidth : Option IntegerWidth)
  | tagItem (tag : Nat) (bitwidth : IntegerWidth) (value : DataItem)
  | float (value : FloatVal) (bitwidth : FloatWidth)
  | simpleItem (value : Nat)
deriving Repr

/-- A nom parser over character lists. -/
def Parser (α : Type) : Type := List Char → Option (α × List Char)

/-- nom `map`. -/
def pmap {α β : Type} (f : α → β) (p : Parser α) : Parser β := fun x =>
  match p x with
  | some (a, r) => some (f a, r)
  | none => none

/-- nom `alt` of two alternatives. -/
def palt {α : Type} (p q : Parser α) : Parser α := fun x =>
  match p x with
  | some res => some res
  | none => q x

/-- nom `tag`. -/
def ptag (t : List Char) : Parser (List Char) := fun x =>
  if t.isPrefixOf x then some (t, x.drop t.length) else none

/-- nom `digit1`. -/
def pdigit1 : Parser (List Char) := fun x =>
  if x.takeWhile Char.isDigit = [] then none
  else some (x.takeWhile Char.isDigit, x.dropWhile Char.isDigit)

/-- The numeric value of a run of decimal digits. -/
def digitsVal (d : List Char) : Nat :=
  d.foldl (fun a c => a * 10 + (c.toNat - 48)) 0

/-- `u64::from_str` on a digit run: fails exactly on overflow. -/
def u64OfDigits (d : List Char) : Option Nat :=
  if digitsVal d < 2 ^ 64 then some (digitsVal d) else none

/-- `u8::from_str` on a digit run: fails exactly on overflow. -/
def u8OfDigits (d : List Char) : Option Nat :=
  if digitsVal d < 256 then some (digitsVal d) else none

/-- The source `ws`: `map(multispace0, default)`, always succeeds. -/
def ws : Parser Unit := fun x => some ((), x.dropWhile isMS)

/-- The source `wrapws`: `delimited(ws, p, ws)`. -/
def wrapws {α : Type} (p : Parser α) : Parser α := fun x =>
  match p (x.dropWhile isMS) with
  | some (a, r) => some (a, r.dropWhile isMS)
  | none => none

/-- The source `opt_comma_tag`: `alt((tag(t), tuple((tag(","), ws, tag(t)))))`. -/
def opt_comma_tag (t : List Char) : Parser (List Char) := fun x =>
  match ptag t x with
  | some res => some res
  | none =>
    match ptag [','] x with
    | some (_, r1) => ptag t (r1.dropWhile isMS)
    | none => none

/-- The source `encoding`: an underscore, then digits below 4 as `u64`. -/
def encoding : Parser Nat := fun x =>
  match ptag ['_'] x with
  | none => none
  | some (_, r) =>
    match pdigit1 r with
    | none => none
    | some (d, r2) =>
      match u64OfDigits d with
      | none => none
      | some e => if e < 4 then some (e, r2) else none

/-- The source `integer`: digits as `u64` with an optional width suffix. -/
def integer : Parser (Nat × IntegerWidth) := fun x =>
  match pdigit1 x with
  | none => none
  | some (d, r) =>
    match u64OfDigits d with
    | none => none
    | some v =>
      match encoding r with
      | some (e, r2) =>
        some ((v, if e = 0 then .eight else if e = 1 then .sixteen
                  else if e = 2 then .thirtyTwo else .sixtyFour), r2)
      | none => some ((v, .unknown), r)

/-- The source `positive`. -/
def positive : Parser DataItem := fun x =>
  match integer x with
  | some ((v, w), r) =>
    some (.integer v (if w = IntegerWidth.unknown ∧ v ≤ 23 then .zero else w), r)
  | none => none

/-- The source `negative`: a minus sign, then `integer` verified positive,
stored offset by one. -/
def negative : Parser DataItem := fun x =>
  match ptag ['-'] x with
  | none => none
  | some (_, r) =>
    match integer r with
    | some ((v, w), r2) =>
      if 0 < v then
        some (.negative (v - 1) (if w = IntegerWidth.unknown ∧ v ≤ 24 then .zero else w), r2)
      else none
    | none => none

/-! ### Binary-to-text codecs

Each `data_encoding` codec with an `ignore` set decodes by skipping ignored
characters and strictly decoding the remainder. -/

/-- Remove the codec-ignored whitespace (the `WHITESPACE` set). -/
def filterWS (s : List Char) : List Char := s.filter (fun c => !isWS5 c)

/-- Value of one base16 symbol (lower-case permissive: both cases accepted). -/
def hexVal (c : Char) : Option Nat :=
  if '0' ≤ c ∧ c ≤ '9' then some (c.toNat - 48)
  else if 'a' ≤ c ∧ c ≤ 'f' then some (c.toNat - 87)
  else if 'A' ≤ c ∧ c ≤ 'F' then some (c.toNat - 55)
  else none

/-- Value of one base32 symbol. -/
def b32Val (c : Char) : Option Nat :=
  if 'A' ≤ c ∧ c ≤ 'Z' then some (c.toNat - 65)
  else if '2' ≤ c ∧ c ≤ '7' then some (c.toNat - 50 + 26)
  else none

/-- Value of one base32hex symbol. -/
def b32hexVal (c : Char) : Option Nat :=
  if '0' ≤ c ∧ c ≤ '9' then some (c.toNat - 48)
  else if 'A' ≤ c ∧ c ≤ 'V' then some (c.toNat - 65 + 10)
  else none

/-- Value of one standard base64 symbol. -/
def b64Val (c : Char) : Option Nat :=
  if 'A' ≤ c ∧ c ≤ 'Z' then some (c.toNat - 65)
  else if 'a' ≤ c ∧ c ≤ 'z' then some (c.toNat - 97 + 26)
  else if '0' ≤ c ∧ c ≤ '9' then some (c.toNat - 48 + 52)
  else if c = '+' then some 62
  else if c = '/' then some 63
  else none

/-- Value of one base64url symbol. -/
def b64urlVal (c : Char) : Option Nat :=
  if 'A' ≤ c ∧ c ≤ 'Z' then some (c.toNat - 65)
  else if 'a' ≤ c ∧ c ≤ 'z' then some (c.toNat - 97 + 26)
  else if '0' ≤ c ∧ c ≤ '9' then some (c.toNat - 48 + 52)
  else if c = '-' then some 62
  else if c = '_' then some 63
  else none

/-- Map every symbol to its value, failing on a foreign character. -/
def decodeSyms (symVal : Char → Option Nat) : List Char → Option (List Nat)
  | [] => some []
  | c :: r =>
    match symVal c with
    | none => none
    | some v =>
      match decodeSyms symVal r with
      | none => none
      | some vs => some (v :: vs)

/-- The `n` big-endian bytes of `v`. -/
def bytesOf : Nat → Nat → List Nat
  | 0, _ => []
  | n + 1, v => bytesOf n (v / 256) ++ [v % 256]

/-- Pack symbol values of `bits` bits each into whole bytes, requiring the
trailing partial bits to be zero (canonical encoding check). -/
def symsToBytes (bits : Nat) (vals : List Nat) : Option (List Nat) :=
  let total := vals.foldl (fun a v => a * 2 ^ bits + v) 0
  let nbits := vals.length * bits
  if total % 2 ^ (nbits % 8) = 0 then
    some (bytesOf (nbits / 8) (total / 2 ^ (nbits % 8)))
  else none

/-- Strict decoding without a padding character: the length of the input
modulo the block size must be acceptable. -/
def nopadDecode (bits block : Nat) (validLast : Nat → Bool)
    (symVal : Char → Option Nat) (s : List Char) : Option (List Nat) :=
  if validLast (s.length % block) then
    match decodeSyms symVal s with
    | some vs => symsToBytes bits vs
    | none => none
  else none

/-- Strict decoding with `=` padding: full blocks, padding only at the end and
only inside the last block, with an acceptable count of data symbols there. -/
def padDecode (bits block : Nat) (validLast : Nat → Bool)
    (symVal : Char → Option Nat) (s : List Char) : Option (List Nat) :=
  if s.length % block ≠ 0 then none
  else
    let dat := s.takeWhile (fun c => c ≠ '=')
    let pad := s.dropWhile (fun c => c ≠ '=')
    if pad.all (fun c => c = '=') then
      if pad.length = 0 then
        match decodeSyms symVal dat with
        | some vs => symsToBytes bits vs
        | none => none
      else if pad.length < block ∧ validLast (block - pad.length) then
        match decodeSyms symVal dat with
        | some vs => symsToBytes bits vs
        | none => none
      else none
    else none

/-- The `BASE16` codec (lower-case permissive, whitespace ignored). -/
def base16Decode (s : List Char) : Option (List Nat) :=
  nopadDecode 4 2 (fun r => r = 0) hexVal (filterWS s)

/-- The `BASE32` codec (padded, whitespace ignored). -/
def base32Decode (s : List Char) : Option (List Nat) :=
  padDecode 5 8 (fun r => r = 2 || r = 4 || r = 5 || r = 7) b32Val (filterWS s)

/-- The `BASE32HEX` codec (padded, whitespace ignored). -/
def base32hexDecode (s : List Char) : Option (List Nat) :=
  padDecode 5 8 (fun r => r = 2 || r = 4 || r = 5 || r = 7) b32hexVal (filterWS s)

/-- The `BASE64` codec (padded, whitespace ignored). -/
def base64Decode (s : List Char) : Option (List Nat) :=
  padDecode 6 4 (fun r => r = 2 || r = 3) b64Val (filterWS s)

/-- The `BASE64URL_NOPAD` codec (unpadded, whitespace ignored). -/
def base64urlDecode (s : List Char) : Option (List Nat) :=
  nopadDecode 6 4 (fun r => r = 0 || r = 2 || r = 3) b64urlVal (filterWS s)

/-! ### UTF-8 -/

/-- UTF-8 bytes of one character. -/
def utf8Encode (c : Char) : List Nat :=
  let n := c.toNat
  if n < 128 then [n]
  else if n < 2048 then [192 + n / 64, 128 + n % 64]
  else if n < 65536 then [224 + n / 4096, 128 + n / 64 % 64, 128 + n % 64]
  else [240 + n / 262144, 128 + n / 4096 % 64, 128 + n / 64 % 64, 128 + n % 64]

/-- Is this byte a UTF-8 continuation byte? -/
def isCont (b : Nat) : Bool := 128 ≤ b && b < 192

/-- Decode one UTF-8 scalar from the head of a byte list (strict validation:
no overlong forms, no surrogates, at most U+10FFFF). -/
def utf8Step : List Nat → Option (Char × List Nat)
  | [] => none
  | b :: r =>
    if b < 128 then some (Char.ofNat b, r)
    else if b < 194 then none
    else if b < 224 then
      match r with
      | b2 :: r2 =>
        if isCont b2 then
          let n := (b - 192) * 64 + (b2 - 128)
          if n < 55296 then some (Char.ofNat n, r2) else none
        else none
      | [] => none
    else if b < 240 then
      match r with
      | b2 :: b3 :: r3 =>
        if isCont b2 && isCont b3 then
          let n := (b - 224) * 4096 + (b2 - 128) * 64 + (b3 - 128)
          if 2048 ≤ n ∧ (n < 55296 ∨ (57343 < n ∧ n < 1114112)) then
            some (Char.ofNat n, r3)
          else none
        else none
      | _ => none
    else if b < 245 then
      match r with
      | b2 :: b3 :: b4 :: r4 =>
        if isCont b2 && isCont b3 && isCont b4 then
          let n := (b - 240) * 262144 + (b2 - 128) * 4096 + (b3 - 128) * 64 + (b4 - 128)
          if 65536 ≤ n ∧ n < 1114112 then
            some (Char.ofNat n, r4)
          else none
        else none
      | _ => none
    else none

/-- Decode a UTF-8 byte list, with fuel bounded by the length. -/
def utf8DecodeAux : Nat → List Nat → Option (List Char)
  | _, [] => some []
  | 0, _ :: _ => none
  | f + 1, b :: r0 =>
    match utf8Step (b :: r0) with
    | none => none
    | some (c, r) =>
      if r.length < r0.length + 1 then
        match utf8DecodeAux f r with
        | some cs => some (c :: cs)
        | none => none
      else none

/-- `String::from_utf8`: validating UTF-8 decoding. -/
def utf8Decode (l : List Nat) : Option (List Char) := utf8DecodeAux l.length l

/-! ### String literals -/

/-- The `escaped_transform(none_of({backslash, q}), backslash, alt((backslash, q)))`
loop: consume ordinary characters, transform the two recognized escapes, and
stop (without consuming) at `q`, at a lone backslash, or at a bad escape.
Together with the surrounding `opt(...)`/`unwrap_or_default` and closing-quote
check of the source this computes the same composite result as nom. -/
def escTrans (q : Char) : List Char → List Char × List Char
  | [] => ([], [])
  | [a] =>
    if a = '\\' ∨ a = q then ([], [a])
    else ([a], [])
  | a :: b :: r =>
    if a = q then ([], a :: b :: r)
    else if a = '\\' then
      if b = '\\' ∨ b = q then
        let (o, rem) := escTrans q r
        (b :: o, rem)
      else ([], a :: b :: r)
    else
      let (o, rem) := escTrans q (b :: r)
      (a :: o, rem)

/-- nom `InputTakeAtPosition::split_at_position` against the complement of a
character class: take the longest run of class members (never fails). -/
def pspan (p : Char → Bool) : Parser (List Char) := fun x =>
  some (x.takeWhile p, x.dropWhile p)

/-- Body class of `base16_digit0`. -/
def isBase16Digit (c : Char) : Bool :=
  ('0' ≤ c && c ≤ '9') || ('A' ≤ c && c ≤ 'F') || ('a' ≤ c && c ≤ 'f') || isWS5 c

/-- Body class of `base32_digit0`. -/
def isBase32Digit (c : Char) : Bool :=
  ('A' ≤ c && c ≤ 'Z') || ('2' ≤ c && c ≤ '7') || c = '=' || isWS5 c

/-- Body class of `base32hex_digit0`. -/
def isBase32hexDigit (c : Char) : Bool :=
  ('0' ≤ c && c ≤ '9') || ('A' ≤ c && c ≤ 'V') || c = '=' || isWS5 c

/-- Body class of `base64url_digit0`. -/
def isBase64urlDigit (c : Char) : Bool :=
  c.isAlphanum || c = '-' || c = '_' || isWS5 c

/-- Body class of `base64_digit0`. -/
def isBase64Digit (c : Char) : Bool :=
  c.isAlphanum || c = '+' || c = '/' || c = '=' || isWS5 c

/-- One encoded byte-string form: the marker, a quoted body recognized by
`munch`, decoded by `dec` (`map_res` fails the alternative on a decode error). -/
def encForm (pre : List Char) (munch : Char → Bool)
    (dec : List Char → Option (List Nat)) : Parser (List Nat) := fun x =>
  match ptag pre x with
  | none => none
  | some (_, r1) =>
    match ptag ['\''] r1 with
    | none => none
    | some (_, r2) =>
      match ptag ['\''] (r2.dropWhile munch) with
      | none => none
      | some (_, r4) =>
        match dec (r2.takeWhile munch) with
        | some bs => some (bs, r4)
        | none => none

/-- The raw quoted byte-string form (escapes for backslash and quote only);
`String::into_bytes` is UTF-8 encoding. -/
def rawByteForm : Parser (List Nat) := fun x =>
  match ptag ['\''] x with
  | none => none
  | some (_, r1) =>
    match ptag ['\''] (escTrans '\'' r1).2 with
    | none => none
    | some (_, r2) => some (((escTrans '\'' r1).1.map utf8Encode).flatten, r2)

/-- The source `definite_bytestring`: the five encoded forms then the raw
form, in source order, wrapped in layout skipping. -/
def definite_bytestring : Parser (List Nat) :=
  wrapws (palt (encForm ['h'] isBase16Digit base16Decode)
    (palt (encForm ['b', '3', '2'] isBase32Digit base32Decode)
      (palt (encForm ['h', '3', '2'] isBase32hexDigit base32hexDecode)
        (palt (encForm ['b', '6', '4'] isBase64urlDigit base64urlDecode)
          (palt (encForm ['b', '6', '4'] isBase64Digit base64Decode)
            rawByteForm)))))

/-! ### Repetition combinators (nom `many0`, `many1`, `separated_list`),
with fuel; a successful inner parse that consumes nothing is an error,
exactly nom's infinite-loop guard. -/

/-- Body of nom `many0`. -/
def manyAux {α : Type} (p : Parser α) : Nat → List Char → Option (List α × List Char)
  | 0, x => some ([], x)
  | f + 1, x =>
    match p x with
    | none => some ([], x)
    | some (a, r) =>
      if r.length < x.length then
        match manyAux p f r with
        | some (as, r2) => some (a :: as, r2)
        | none => none
      else none

/-- nom `many0`. -/
def pmany0 {α : Type} (p : Parser α) : Parser (List α) := fun x =>
  manyAux p (x.length + 1) x

/-- nom `many1`. -/
def pmany1 {α : Type} (p : Parser α) : Parser (List α) := fun x =>
  match pmany0 p x with
  | some ([], _) => none
  | some (a :: as, r) => some (a :: as, r)
  | none => none

/-- Loop body of nom `separated_list`: try the separator then an element,
rolling back the separator when the element fails. -/
def sepAux {α : Type} (sep : List Char) (p : Parser α) :
    Nat → List Char → Option (List α × List Char)
  | 0, x => some ([], x)
  | f + 1, x =>
    match ptag sep x with
    | none => some ([], x)
    | some (_, r1) =>
      match p r1 with
      | none => some ([], x)
      | some (a, r2) =>
        if r2.length < x.length then
          match sepAux sep p f r2 with
          | some (as, r3) => some (a :: as, r3)
          | none => none
        else none

/-- nom `separated_list`. -/
def separated_list {α : Type} (sep : List Char) (p : Parser α) : Parser (List α) := fun x =>
  match p x with
  | none => some ([], x)
  | some (a, r) =>
    if r.length < x.length then
      match sepAux sep p (r.length + 1) r with
      | some (as, r2) => some (a :: as, r2)
      | none => none
    else none

/-- The source `concatenated_definite_bytestring`. -/
def concatenated_definite_bytestring : Parser ByteString :=
  pmap (fun ds => { data := ds.flatten, bitwidth := IntegerWidth.unknown })
    (pmany1 definite_bytestring)

/-- The source `indefinite_bytestring`. -/
def indefinite_bytestring : Parser DataItem := fun x =>
  match ptag ['(', '_'] x with
  | none => none
  | some (_, r1) =>
    match separated_list [','] concatenated_definite_bytestring r1 with
    | none => none
    | some (chunks, r2) =>
      match opt_comma_tag [')'] r2 with
      | some (_, r3) => some (.indefiniteByteString chunks, r3)
      | none => none

/-- The source `bytestring`. -/
def bytestring : Parser DataItem :=
  palt (pmap DataItem.byteString concatenated_definite_bytestring) indefinite_bytestring

/-- The source `definite_textstring`. -/
def definite_textstring : Parser (List Char) :=
  wrapws (fun x =>
    match ptag ['"'] x with
    | none => none
    | some (_, r1) =>
      match ptag ['"'] (escTrans '"' r1).2 with
      | none => none
      | some (_, r2) => some ((escTrans '"' r1).1, r2))

/-- One extra piece of a concatenated text string: a definite byte string, or
another definite text string taken as its UTF-8 bytes. -/
def textPiece : Parser (List Nat) :=
  palt definite_bytestring
    (pmap (fun s => (s.map utf8Encode).flatten) definite_textstring)

/-- The source `concatenated_definite_textstring`: a first text literal, then
further text or byte literals whose concatenated bytes must be valid UTF-8. -/
def concatenated_definite_textstring : Parser TextString := fun x =>
  match definite_textstring x with
  | none => none
  | some (first, r1) =>
    match pmany0 textPiece r1 with
    | none => none
    | some (pieces, r2) =>
      match utf8Decode pieces.flatten with
      | some rest => some ({ data := first ++ rest, bitwidth := IntegerWidth.unknown }, r2)
      | none => none

/-- The source `indefinite_textstring`. -/
def indefinite_textstring : Parser DataItem := fun x =>
  match ptag ['(', '_'] x with
  | none => none
  | some (_, r1) =>
    match separated_list [','] concatenated_definite_textstring r1 with
    | none => none
    | some (chunks, r2) =>
      match opt_comma_tag [')'] r2 with
      | some (_, r3) => some (.indefiniteTextString chunks, r3)
      | none => none

/-- The source `textstring`. -/
def textstring : Parser DataItem :=
  palt (pmap DataItem.textString concatenated_definite_textstring) indefinite_textstring

/-! ### Containers and tags (parameterized by the recursive item parser) -/

/-- The source `definite_array`. -/
def definite_array (item : Parser DataItem) : Parser DataItem := fun x =>
  match wrapws (ptag ['[']) x with
  | none => none
  | some (_, r1) =>
    match separated_list [','] item r1 with
    | none => none
    | some (elems, r2) =>
      match opt_comma_tag [']'] r2 with
      | some (_, r3) => some (.array elems (some .unknown), r3)
      | none => none

/-- The source `indefinite_array`. -/
def indefinite_array (item : Parser DataItem) : Parser DataItem := fun x =>
  match wrapws (ptag ['[', '_']) x with
  | none => none
  | some (_, r1) =>
    match separated_list [','] item r1 with
    | none => none
    | some (elems, r2) =>
      match opt_comma_tag [']'] r2 with
      | some (_, r3) => some (.array elems none, r3)
      | none => none

/-- The source `array`. -/
def array (item : Parser DataItem) : Parser DataItem :=
  palt (definite_array item) (indefinite_array item)

/-- nom `separated_pair(item, tag(":"), item)`. -/
def pairP (item : Parser DataItem) : Parser (DataItem × DataItem) := fun x =>
  match item x with
  | none => none
  | some (k, r1) =>
    match ptag [':'] r1 with
    | none => none
    | some (_, r2) =>
      match item r2 with
      | none => none
      | some (v, r3) => some ((k, v), r3)

/-- The source `definite_map`. -/
def definite_map (item : Parser DataItem) : Parser DataItem := fun x =>
  match wrapws (ptag ['{']) x with
  | none => none
  | some (_, r1) =>
    match separated_list [','] (pairP item) r1 with
    | none => none
    | some (entries, r2) =>
      match opt_comma_tag ['}'] r2 with
      | some (_, r3) => some (.mapItem entries (some .unknown), r3)
      | none => none

/-- The source `indefinite_map`. -/
def indefinite_map (item : Parser DataItem) : Parser DataItem := fun x =>
  match wrapws (ptag ['{', '_']) x with
  | none => none
  | some (_, r1) =>
    match separated_list [','] (pairP item) r1 with
    | none => none
    | some (entries, r2) =>
      match opt_comma_tag ['}'] r2 with
      | some (_, r3) => some (.mapItem entries none, r3)
      | none => none

/-- The source `data_map`. -/
def data_map (item : Parser DataItem) : Parser DataItem :=
  palt (definite_map item) (indefinite_map item)

/-- The source `tagged`: `integer`, then a parenthesized nested item. -/
def tagged (item : Parser DataItem) : Parser DataItem := fun x =>
  match integer x with
  | none => none
  | some ((t, w), r1) =>
    match ptag ['('] r1 with
    | none => none
    | some (_, r2) =>
      match item r2 with
      | none => none
      | some (v, r3) =>
        match ptag [')'] r3 with
        | none => none
        | some (_, r4) =>
          some (.tagItem t (if w = IntegerWidth.unknown ∧ t ≤ 23 then .zero else w) v, r4)

/-! ### Floats and simple values -/

/-- nom `opt(alt((char(plus), char(minus))))`: the optional sign of a float
literal or of its exponent. -/
def signStep (x : List Char) : List Char × List Char :=
  match x with
  | c :: r => if c = '+' ∨ c = '-' then ([c], r) else ([], x)
  | [] => ([], x)

/-- The part of `recognize_float` after the optional leading sign `sg1`:
digits, point, digits, optional exponent; returns the recognized span. -/
def floatTail (sg1 : List Char) (y : List Char) : Option (List Char × List Char) :=
  match pdigit1 y with
  | none => none
  | some (d1, r2) =>
    match ptag ['.'] r2 with
    | none => none
    | some (_, r3) =>
      match pdigit1 r3 with
      | none => none
      | some (d2, r4) =>
        match r4 with
        | e :: r5 =>
          if e = 'e' ∨ e = 'E' then
            let er : List Char × List Char := signStep r5
            match pdigit1 er.2 with
            | none => some (sg1 ++ d1 ++ '.' :: d2, r4)
            | some (d3, r7) => some (sg1 ++ d1 ++ '.' :: d2 ++ e :: (er.1 ++ d3), r7)
          else some (sg1 ++ d1 ++ '.' :: d2, r4)
        | [] => some (sg1 ++ d1 ++ '.' :: d2, [])

/-- The source `recognize_float`: optional sign, digits, a mandatory point and
digits, and an optional exponent; returns the recognized span. -/
def recognize_float : Parser (List Char) := fun x =>
  floatTail (signStep x).1 (signStep x).2

/-- The source `float_value`: a recognized decimal (on which `f64::from_str`
always succeeds) or one of the three named tokens. -/
def float_value : Parser FloatVal := fun x =>
  match recognize_float x with
  | some (s, r) => some (.num s, r)
  | none =>
    match ptag ['I', 'n', 'f', 'i', 'n', 'i', 't', 'y'] x with
    | some (_, r) => some (.inf, r)
    | none =>
      match ptag ['-', 'I', 'n', 'f', 'i', 'n', 'i', 't', 'y'] x with
      | some (_, r) => some (.negInf, r)
      | none =>
        match ptag ['N', 'a', 'N'] x with
        | some (_, r) => some (.nan, r)
        | none => none

/-- The source `float`: a float value with an optional width suffix verified
nonzero (so `_0` is left unconsumed, like any other failing suffix). -/
def float : Parser DataItem := fun x =>
  match float_value x with
  | none => none
  | some (v, r1) =>
    match encoding r1 with
    | some (e, r2) =>
      if 0 < e then
        some (.float v (if e = 1 then .sixteen else if e = 2 then .thirtyTwo
                        else .sixtyFour), r2)
      else some (.float v .unknown, r1)
    | none => some (.float v .unknown, r1)

/-- The source `simple`: four keyword literals and the general
`simple(N)` form with `N` below 256. -/
def simple : Parser DataItem := fun x =>
  match ptag ['f', 'a', 'l', 's', 'e'] x with
  | some (_, r) => some (.simpleItem 20, r)
  | none =>
    match ptag ['t', 'r', 'u', 'e'] x with
    | some (_, r) => some (.simpleItem 21, r)
    | none =>
      match ptag ['n', 'u', 'l', 'l'] x with
      | some (_, r) => some (.simpleItem 22, r)
      | none =>
        match ptag ['u', 'n', 'd', 'e', 'f', 'i', 'n', 'e', 'd'] x with
        | some (_, r) => some (.simpleItem 23, r)
        | none =>
          match ptag ['s', 'i', 'm', 'p', 'l', 'e'] x with
          | none => none
          | some (_, r1) =>
            match ptag ['('] r1 with
            | none => none
            | some (_, r2) =>
              match pdigit1 r2 with
              | none => none
              | some (d, r3) =>
                match ptag [')'] r3 with
                | none => none
                | some (_, r4) =>
                  match u8OfDigits d with
                  | some v => some (.simpleItem v, r4)
                  | none => none

/-! ### The dispatcher and the entry point -/

/-- The source `data_item` with fuel: the ordered alternation of the nine
branches, wrapped in layout skipping; containers and tags recurse with one
unit of fuel less (each recursion strictly consumes input). -/
def dataItemF : Nat → Parser DataItem
  | 0 => fun _ => none
  | f + 1 =>
    wrapws (palt float
      (palt (tagged (dataItemF f))
        (palt positive
          (palt negative
            (palt bytestring
              (palt textstring
                (palt (array (dataItemF f))
                  (palt (data_map (dataItemF f)) simple))))))))

/-- The source `data_item`: fuel `length + 1` always suffices (see
`dataItemF_fuel` below). -/
def data_item : Parser DataItem := fun x => dataItemF (x.length + 1) x

/-- The two error shapes of `parse_diag`. -/
inductive ParseErr
  | parseFailure
  | remainingText (rest : List Char)
deriving DecidableEq, Repr

/-- The source `parse_diag`: one dispatcher run over the whole input; an
incomplete consumption is the trailing-text error. -/
def parse_diag (s : List Char) : Except ParseErr DataItem :=
  match data_item s with
  | none => .error .parseFailure
  | some (v, []) => .ok v
  | some (_, c :: cs) => .error (.remainingText (c :: cs))

/-! ### Character-run conventions -/

/-- A nonempty run of decimal digits. -/
def DigitRun (d : List Char) : Prop := d ≠ [] ∧ ∀ a ∈ d, a.isDigit = true

/-- The input does not begin with a decimal digit. -/
def NotDigitStart (r : List Char) : Prop := ∀ a ∈ r.head?, a.isDigit = false

/-! ### Basic lemmas about runs, tags and layout -/

theorem ne_of_digit {a b : Char} (h : a.isDigit = true) (hb : b.isDigit = false) :
    a ≠ b := by
  intro e
  rw [e, hb] at h
  exact Bool.noConfusion h

theorem isMS_false_of_digit {a : Char} (h : a.isDigit = true) : isMS a = false := by
  have h1 : a ≠ ' ' := ne_of_digit h (by decide)
  have h2 : a ≠ '\t' := ne_of_digit h (by decide)
  have h3 : a ≠ '\r' := ne_of_digit h (by decide)
  have h4 : a ≠ '\n' := ne_of_digit h (by decide)
  simp [isMS, h1, h2, h3, h4]

theorem isMS_false_of_ne {a : Char} (h1 : a ≠ ' ') (h2 : a ≠ '\t') (h3 : a ≠ '\r')
    (h4 : a ≠ '\n') : isMS a = false := by
  simp [isMS, h1, h2, h3, h4]

theorem dropWhile_cons_false {p : Char → Bool} {a : Char} (t : List Char)
    (h : p a = false) : (a :: t).dropWhile p = a :: t := by
  simp [List.dropWhile_cons, h]

theorem takeWhile_append_all {p : Char → Bool} {d : List Char} (r : List Char)
    (h : ∀ a ∈ d, p a = true) : (d ++ r).takeWhile p = d ++ r.takeWhile p := by
  induction d with
  | nil => simp
  | cons a t ih =>
    have ha : p a = true := h a (List.mem_cons_self a t)
    simp only [List.cons_append, List.takeWhile_cons, ha, if_true]
    rw [ih (fun b hb => h b (List.mem_cons_of_mem a hb))]

theorem dropWhile_append_all {p : Char → Bool} {d : List Char} (r : List Char)
    (h : ∀ a ∈ d, p a = true) : (d ++ r).dropWhile p = r.dropWhile p := by
  induction d with
  | nil => simp
  | cons a t ih =>
    have ha : p a = true := h a (List.mem_cons_self a t)
    simp only [List.cons_append, List.dropWhile_cons, ha, if_true]
    exact ih (fun b hb => h b (List.mem_cons_of_mem a hb))

theorem takeWhile_head_false {p : Char → Bool} {r : List Char}
    (h : ∀ a ∈ r.head?, p a = false) : r.takeWhile p = [] := by
  cases r with
  | nil => rfl
  | cons a t => simp [List.takeWhile_cons, h a (by simp)]

theorem dropWhile_head_false {p : Char → Bool} {r : List Char}
    (h : ∀ a ∈ r.head?, p a = false) : r.dropWhile p = r := by
  cases r with
  | nil => rfl
  | cons a t => simp [List.dropWhile_cons, h a (by simp)]

theorem takeWhile_run {p : Char → Bool} {d r : List Char} (hd : ∀ a ∈ d, p a = true)
    (hr : ∀ a ∈ r.head?, p a = false) : (d ++ r).takeWhile p = d := by
  rw [takeWhile_append_all r hd, takeWhile_head_false hr, List.append_nil]

theorem dropWhile_run {p : Char → Bool} {d r : List Char} (hd : ∀ a ∈ d, p a = true)
    (hr : ∀ a ∈ r.head?, p a = false) : (d ++ r).dropWhile p = r := by
  rw [dropWhile_append_all r hd, dropWhile_head_false hr]

theorem isPrefixOf_append (t r : List Char) : t.isPrefixOf (t ++ r) = true := by
  induction t with
  | nil => simp [List.isPrefixOf]
  | cons a t ih => simp [List.isPrefixOf, ih]

theorem ptag_run_tag (t r : List Char) : ptag t (t ++ r) = some (t, r) := by
  simp [ptag, isPrefixOf_append]

theorem ptag_ne_head {a b : Char} (t x : List Char) (h : a ≠ b) :
    ptag (a :: t) (b :: x) = none := by
  simp [ptag, List.isPrefixOf, h]

theorem ptag_cons_nil {a : Char} (t : List Char) : ptag (a :: t) [] = none := by
  simp [ptag, List.isPrefixOf]

theorem ptag_head_false {a : Char} {t x : List Char}
    (h : ∀ b ∈ x.head?, a ≠ b) : ptag (a :: t) x = none := by
  cases x with
  | nil => exact ptag_cons_nil t
  | cons b bs => exact ptag_ne_head t bs (h b (by simp))

theorem pdigit1_run {d r : List Char} (hd : DigitRun d) (hr : NotDigitStart r) :
    pdigit1 (d ++ r) = some (d, r) := by
  obtain ⟨hne, hall⟩ := hd
  unfold pdigit1
  rw [takeWhile_run hall hr, dropWhile_run hall hr, if_neg hne]

theorem pdigit1_none {r : List Char} (hr : NotDigitStart r) : pdigit1 r = none := by
  unfold pdigit1
  simp only [takeWhile_head_false hr, if_pos rfl]
  rfl

theorem notDigitStart_nil : NotDigitStart [] := by
  intro a ha
  simp at ha

theorem notDigitStart_cons {a : Char} (t : List Char) (h : a.isDigit = false) :
    NotDigitStart (a :: t) := by
  intro b hb
  simp at hb
  rw [← hb]
  exact h

/-! ### Run lemmas for the numeric grammar -/

theorem digitsVal_zeros {z : List Char} (h : ∀ a ∈ z, a = '0') : digitsVal z = 0 := by
  unfold digitsVal
  induction z with
  | nil => rfl
  | cons a t ih =>
    have ha := h a (List.mem_cons_self a t)
    subst ha
    simpa using ih (fun b hb => h b (List.mem_cons_of_mem _ hb))

theorem encoding_head_ne {r : List Char} (h : ∀ a ∈ r.head?, a ≠ '_') :
    encoding r = none := by
  unfold encoding
  rw [ptag_head_false (fun b hb => Ne.symm (h b hb))]

theorem encoding_run {e r : List Char} (he : DigitRun e) (hr : NotDigitStart r)
    (hv : digitsVal e < 4) : encoding ('_' :: (e ++ r)) = some (digitsVal e, r) := by
  unfold encoding
  have h1 : ptag ['_'] ('_' :: (e ++ r)) = some (['_'], e ++ r) := ptag_run_tag ['_'] (e ++ r)
  have h2 : digitsVal e < 2 ^ 64 := lt_trans hv (by norm_num)
  simp only [h1, pdigit1_run he hr, u64OfDigits, if_pos h2, if_pos hv]

theorem encoding_fail_big {e r : List Char} (he : DigitRun e) (hr : NotDigitStart r)
    (hv : 4 ≤ digitsVal e) : encoding ('_' :: (e ++ r)) = none := by
  unfold encoding
  have h1 : ptag ['_'] ('_' :: (e ++ r)) = some (['_'], e ++ r) := ptag_run_tag ['_'] (e ++ r)
  by_cases h2 : digitsVal e < 2 ^ 64
  · simp only [h1, pdigit1_run he hr, u64OfDigits, if_pos h2, if_neg (Nat.not_lt.mpr hv)]
  · simp only [h1, pdigit1_run he hr, u64OfDigits, if_neg h2]

theorem integer_run_nosuffix {d r : List Char} (hd : DigitRun d) (hr : NotDigitStart r)
    (hu : ∀ a ∈ r.head?, a ≠ '_') (hv : digitsVal d < 2 ^ 64) :
    integer (d ++ r) = some ((digitsVal d, .unknown), r) := by
  unfold integer
  simp only [pdigit1_run hd hr, u64OfDigits, if_pos hv, encoding_head_ne hu]

/-- The width selected by a valid suffix value (0 to 3). -/
def widthOfEnc (e : Nat) : IntegerWidth :=
  if e = 0 then .eight else if e = 1 then .sixteen
  else if e = 2 then .thirtyTwo else .sixtyFour

theorem integer_run_suffix {d e r : List Char} (hd : DigitRun d) (he : DigitRun e)
    (hr : NotDigitStart r) (hv : digitsVal d < 2 ^ 64) (hev : digitsVal e < 4) :
    integer (d ++ '_' :: (e ++ r)) = some ((digitsVal d, widthOfEnc (digitsVal e)), r) := by
  unfold integer
  have hnd : NotDigitStart ('_' :: (e ++ r)) := notDigitStart_cons (e ++ r) (by decide)
  simp only [pdigit1_run hd hnd, u64OfDigits, if_pos hv, encoding_run he hr hev, widthOfEnc]

theorem integer_fail_overflow {d r : List Char} (hd : DigitRun d) (hr : NotDigitStart r)
    (hv : 2 ^ 64 ≤ digitsVal d) : integer (d ++ r) = none := by
  unfold integer
  simp only [pdigit1_run hd hr, u64OfDigits, if_neg (Nat.not_lt.mpr hv)]

theorem integer_fail_head {x : List Char} (hx : NotDigitStart x) : integer x = none := by
  unfold integer
  simp only [pdigit1_none hx]

theorem widthOfEnc_ne_unknown (e : Nat) : widthOfEnc e ≠ IntegerWidth.unknown := by
  unfold widthOfEnc
  by_cases h0 : e = 0
  · simp [h0]
  · by_cases h1 : e = 1
    · simp [h0, h1]
    · by_cases h2 : e = 2
      · simp [h0, h1, h2]
      · simp [h0, h1, h2]

theorem positive_run_nosuffix {d r : List Char} (hd : DigitRun d) (hr : NotDigitStart r)
    (hu : ∀ a ∈ r.head?, a ≠ '_') (hv : digitsVal d < 2 ^ 64) :
    positive (d ++ r) =
      some (.integer (digitsVal d)
        (if digitsVal d ≤ 23 then .zero else .unknown), r) := by
  unfold positive
  simp only [integer_run_nosuffix hd hr hu hv]
  by_cases h : digitsVal d ≤ 23
  · simp [h]
  · simp [h]

theorem positive_run_suffix {d e r : List Char} (hd : DigitRun d) (he : DigitRun e)
    (hr : NotDigitStart r) (hv : digitsVal d < 2 ^ 64) (hev : digitsVal e < 4) :
    positive (d ++ '_' :: (e ++ r)) =
      some (.integer (digitsVal d) (widthOfEnc (digitsVal e)), r) := by
  unfold positive
  simp only [integer_run_suffix hd he hr hv hev]
  simp [widthOfEnc_ne_unknown (digitsVal e)]

theorem positive_fail_head {x : List Char} (hx : NotDigitStart x) : positive x = none := by
  unfold positive
  simp only [integer_fail_head hx]

theorem negative_run_nosuffix {d r : List Char} (hd : DigitRun d) (hr : NotDigitStart r)
    (hu : ∀ a ∈ r.head?, a ≠ '_') (hv : digitsVal d < 2 ^ 64) (hpos : 0 < digitsVal d) :
    negative ('-' :: (d ++ r)) =
      some (.negative (digitsVal d - 1)
        (if digitsVal d ≤ 24 then .zero else .unknown), r) := by
  unfold negative
  have h1 : ptag ['-'] ('-' :: (d ++ r)) = some (['-'], d ++ r) := ptag_run_tag ['-'] (d ++ r)
  simp only [h1, integer_run_nosuffix hd hr hu hv, if_pos hpos]
  by_cases h : digitsVal d ≤ 24
  · simp [h]
  · simp [h]

theorem negative_fail_of_zero {y : List Char}
    (h : ∀ v w r2, integer y = some ((v, w), r2) → v = 0) :
    negative ('-' :: y) = none := by
  unfold negative
  have h1 : ptag ['-'] ('-' :: y) = some (['-'], y) := ptag_run_tag ['-'] y
  simp only [h1]
  cases hi : integer y with
  | none => rfl
  | some vr =>
    obtain ⟨⟨v, w⟩, r2⟩ := vr
    have hz := h v w r2 hi
    subst hz
    simp

theorem negative_fail_head {x : List Char} (hx : ∀ a ∈ x.head?, a ≠ '-') :
    negative x = none := by
  unfold negative
  simp only [ptag_head_false (fun b hb => Ne.symm (hx b hb))]

/-- Whatever `negative` produces records a strictly positive magnitude,
stored offset by one. -/
theorem negative_nonzero {x : List Char} {it : DataItem} {r : List Char}
    (h : negative x = some (it, r)) : ∃ m w, 1 ≤ m ∧ it = .negative (m - 1) w := by
  unfold negative at h
  split at h
  · exact absurd h (by simp)
  · split at h
    · rename_i v w r2 heq
      split at h
      · rename_i hpos
        refine ⟨v, (if w = IntegerWidth.unknown ∧ v ≤ 24 then IntegerWidth.zero else w),
          hpos, ?_⟩
        rw [Option.some.injEq, Prod.mk.injEq] at h
        exact h.1.symm
      · exact absurd h (by simp)
    · exact absurd h (by simp)

/-! ### Failure lemmas for the float branch -/

theorem signStep_sign {c : Char} (r : List Char) (h : c = '+' ∨ c = '-') :
    signStep (c :: r) = ([c], r) := by
  simp only [signStep]
  rw [if_pos h]

theorem signStep_nosign {c : Char} (r : List Char) (h : ¬(c = '+' ∨ c = '-')) :
    signStep (c :: r) = ([], c :: r) := by
  simp only [signStep]
  rw [if_neg h]

theorem signStep_nil : signStep [] = ([], []) := rfl

theorem recognize_float_digits_nodot {d r : List Char} (hd : DigitRun d)
    (hr : NotDigitStart r) (hdot : ∀ a ∈ r.head?, a ≠ '.') :
    recognize_float (d ++ r) = none := by
  obtain ⟨hne, hall⟩ := hd
  cases d with
  | nil => exact absurd rfl hne
  | cons a t =>
    have ha : a.isDigit = true := hall a (List.mem_cons_self a t)
    have hplus : ¬(a = '+' ∨ a = '-') := by
      rintro (rfl | rfl) <;> exact absurd ha (by decide)
    have hp : pdigit1 ((a :: t) ++ r) = some (a :: t, r) := pdigit1_run ⟨hne, hall⟩ hr
    rw [List.cons_append] at hp
    unfold recognize_float floatTail
    simp only [List.cons_append, signStep_nosign _ hplus, hp,
      ptag_head_false (fun b hb => Ne.symm (hdot b hb))]

theorem recognize_float_head {x : List Char}
    (hx : NotDigitStart x) (hsg : ∀ a ∈ x.head?, a ≠ '+' ∧ a ≠ '-') :
    recognize_float x = none := by
  unfold recognize_float floatTail
  cases x with
  | nil => simp [signStep_nil, pdigit1_none notDigitStart_nil]
  | cons a t =>
    have hplus : ¬(a = '+' ∨ a = '-') := by
      have := hsg a (by simp)
      rintro (rfl | rfl)
      · exact this.1 rfl
      · exact this.2 rfl
    simp only [signStep_nosign _ hplus, pdigit1_none hx]

theorem float_fail_digits {d r : List Char} (hd : DigitRun d) (hr : NotDigitStart r)
    (hdot : ∀ a ∈ r.head?, a ≠ '.') : float (d ++ r) = none := by
  have h0 := recognize_float_digits_nodot hd hr hdot
  obtain ⟨hne, hall⟩ := hd
  cases d with
  | nil => exact absurd rfl hne
  | cons a t =>
    have ha : a.isDigit = true := hall a (List.mem_cons_self a t)
    have hI : a ≠ 'I' := ne_of_digit ha (by decide)
    have hm : a ≠ '-' := ne_of_digit ha (by decide)
    have hN : a ≠ 'N' := ne_of_digit ha (by decide)
    have g1 : ptag ['I', 'n', 'f', 'i', 'n', 'i', 't', 'y'] (a :: (t ++ r)) = none :=
      ptag_ne_head _ _ (Ne.symm hI)
    have g2 : ptag ['-', 'I', 'n', 'f', 'i', 'n', 'i', 't', 'y'] (a :: (t ++ r)) = none :=
      ptag_ne_head _ _ (Ne.symm hm)
    have g3 : ptag ['N', 'a', 'N'] (a :: (t ++ r)) = none :=
      ptag_ne_head _ _ (Ne.symm hN)
    simp only [List.cons_append] at h0 ⊢
    unfold float float_value
    simp only [h0, g1, g2, g3]

/-- The float branch fails when the head is not a digit and not one of the
characters that can begin a float (sign, `I` of `Infinity`, `N` of `NaN`). -/
theorem float_fail_head {a : Char} {t : List Char} (ha : a.isDigit = false)
    (h1 : a ≠ '+') (h2 : a ≠ '-') (h3 : a ≠ 'I') (h4 : a ≠ 'N') :
    float (a :: t) = none := by
  have h0 : recognize_float (a :: t) = none := by
    apply recognize_float_head (notDigitStart_cons t ha)
    intro b hb
    simp at hb
    rw [← hb]
    exact ⟨h1, h2⟩
  have g1 : ptag ['I', 'n', 'f', 'i', 'n', 'i', 't', 'y'] (a :: t) = none :=
    ptag_ne_head _ _ (Ne.symm h3)
  have g2 : ptag ['-', 'I', 'n', 'f', 'i', 'n', 'i', 't', 'y'] (a :: t) = none :=
    ptag_ne_head _ _ (Ne.symm h2)
  have g3 : ptag ['N', 'a', 'N'] (a :: t) = none :=
    ptag_ne_head _ _ (Ne.symm h4)
  unfold float float_value
  simp only [h0, g1, g2, g3]

/-! ### Failure lemmas for the tagged branch -/

theorem tagged_fail_integer {item : Parser DataItem} {x : List Char}
    (h : integer x = none) : tagged item x = none := by
  unfold tagged
  simp only [h]

theorem tagged_fail_noparen {item : Parser DataItem} {x : List Char} {v : Nat}
    {w : IntegerWidth} {r : List Char} (hi : integer x = some ((v, w), r))
    (hp : ∀ a ∈ r.head?, a ≠ '(') : tagged item x = none := by
  unfold tagged
  simp only [hi, ptag_head_false (fun b hb => Ne.symm (hp b hb))]

/-! ### Head-failure lemmas for string, container and simple branches -/

theorem definite_bytestring_fail_head {a : Char} {t : List Char} (hms : isMS a = false)
    (h1 : a ≠ 'h') (h2 : a ≠ 'b') (h3 : a ≠ '\'') :
    definite_bytestring (a :: t) = none := by
  have gh : ∀ tl : List Char, ptag ('h' :: tl) (a :: t) = none :=
    fun tl => ptag_ne_head tl t (Ne.symm h1)
  have gb : ∀ tl : List Char, ptag ('b' :: tl) (a :: t) = none :=
    fun tl => ptag_ne_head tl t (Ne.symm h2)
  have gq : ∀ tl : List Char, ptag ('\'' :: tl) (a :: t) = none :=
    fun tl => ptag_ne_head tl t (Ne.symm h3)
  unfold definite_bytestring wrapws
  rw [dropWhile_cons_false t hms]
  simp only [palt, encForm, rawByteForm, gh, gb, gq]

theorem bytestring_fail_head {a : Char} {t : List Char} (hms : isMS a = false)
    (h1 : a ≠ 'h') (h2 : a ≠ 'b') (h3 : a ≠ '\'') (h4 : a ≠ '(') :
    bytestring (a :: t) = none := by
  have hdb : definite_bytestring (a :: t) = none :=
    definite_bytestring_fail_head hms h1 h2 h3
  have g4 : ptag ['(', '_'] (a :: t) = none := ptag_ne_head _ _ (Ne.symm h4)
  unfold bytestring concatenated_definite_bytestring indefinite_bytestring pmap pmany1 pmany0 palt
  simp only [manyAux, hdb, g4]

theorem definite_textstring_fail_head {a : Char} {t : List Char} (hms : isMS a = false)
    (h1 : a ≠ '"') : definite_textstring (a :: t) = none := by
  have g1 : ptag ['"'] (a :: t) = none := ptag_ne_head _ _ (Ne.symm h1)
  unfold definite_textstring wrapws
  rw [dropWhile_cons_false t hms]
  simp only [g1]

theorem textstring_fail_head {a : Char} {t : List Char} (hms : isMS a = false)
    (h1 : a ≠ '"') (h4 : a ≠ '(') : textstring (a :: t) = none := by
  have hdt : definite_textstring (a :: t) = none := definite_textstring_fail_head hms h1
  have g4 : ptag ['(', '_'] (a :: t) = none := ptag_ne_head _ _ (Ne.symm h4)
  unfold textstring concatenated_definite_textstring indefinite_textstring pmap palt
  simp only [hdt, g4]

theorem array_fail_head {item : Parser DataItem} {a : Char} {t : List Char}
    (hms : isMS a = false) (h1 : a ≠ '[') : array item (a :: t) = none := by
  have g1 : ptag ['['] (a :: t) = none := ptag_ne_head _ _ (Ne.symm h1)
  have g2 : ptag ['[', '_'] (a :: t) = none := ptag_ne_head _ _ (Ne.symm h1)
  unfold array definite_array indefinite_array wrapws palt
  simp only [dropWhile_cons_false t hms, g1, g2]

theorem map_fail_head {item : Parser DataItem} {a : Char} {t : List Char}
    (hms : isMS a = false) (h1 : a ≠ '{') : data_map item (a :: t) = none := by
  have g1 : ptag ['{'] (a :: t) = none := ptag_ne_head _ _ (Ne.symm h1)
  have g2 : ptag ['{', '_'] (a :: t) = none := ptag_ne_head _ _ (Ne.symm h1)
  unfold data_map definite_map indefinite_map wrapws palt
  simp only [dropWhile_cons_false t hms, g1, g2]

theorem simple_fail_head {a : Char} {t : List Char} (h1 : a ≠ 'f') (h2 : a ≠ 't')
    (h3 : a ≠ 'n') (h4 : a ≠ 'u') (h5 : a ≠ 's') : simple (a :: t) = none := by
  have g1 : ptag ['f', 'a', 'l', 's', 'e'] (a :: t) = none := ptag_ne_head _ _ (Ne.symm h1)
  have g2 : ptag ['t', 'r', 'u', 'e'] (a :: t) = none := ptag_ne_head _ _ (Ne.symm h2)
  have g3 : ptag ['n', 'u', 'l', 'l'] (a :: t) = none := ptag_ne_head _ _ (Ne.symm h3)
  have g4 : ptag ['u', 'n', 'd', 'e', 'f', 'i', 'n', 'e', 'd'] (a :: t) = none :=
    ptag_ne_head _ _ (Ne.symm h4)
  have g5 : ptag ['s', 'i', 'm', 'p', 'l', 'e'] (a :: t) = none := ptag_ne_head _ _ (Ne.symm h5)
  unfold simple
  simp only [g1, g2, g3, g4, g5]

/-! ### Dispatcher composition lemmas -/

theorem dataItemF_via_float {f : Nat} {x : List Char} {v : DataItem} {r : List Char}
    (hms : x.dropWhile isMS = x) (hf : float x = some (v, r)) :
    dataItemF (f + 1) x = some (v, r.dropWhile isMS) := by
  unfold dataItemF wrapws palt
  simp only [hms, hf]

/-- `dataItemF_via_float` with the fuel argument explicit. -/
theorem dataItemF_via_floatF (f : Nat) {x : List Char} {v : DataItem} {r : List Char}
    (hms : x.dropWhile isMS = x) (hf : float x = some (v, r)) :
    dataItemF (f + 1) x = some (v, r.dropWhile isMS) := dataItemF_via_float hms hf

theorem dataItemF_via_tagged {f : Nat} {x : List Char} {v : DataItem} {r : List Char}
    (hms : x.dropWhile isMS = x) (h1 : float x = none)
    (ht : tagged (dataItemF f) x = some (v, r)) :
    dataItemF (f + 1) x = some (v, r.dropWhile isMS) := by
  unfold dataItemF wrapws palt
  simp only [hms, h1, ht]

theorem dataItemF_via_positive {f : Nat} {x : List Char} {v : DataItem} {r : List Char}
    (hms : x.dropWhile isMS = x) (h1 : float x = none)
    (h2 : tagged (dataItemF f) x = none) (hp : positive x = some (v, r)) :
    dataItemF (f + 1) x = some (v, r.dropWhile isMS) := by
  unfold dataItemF wrapws palt
  simp only [hms, h1, h2, hp]

theorem dataItemF_via_negative {f : Nat} {x : List Char} {v : DataItem} {r : List Char}
    (hms : x.dropWhile isMS = x) (h1 : float x = none)
    (h2 : tagged (dataItemF f) x = none) (h3 : positive x = none)
    (hn : negative x = some (v, r)) :
    dataItemF (f + 1) x = some (v, r.dropWhile isMS) := by
  unfold dataItemF wrapws palt
  simp only [hms, h1, h2, h3, hn]

theorem dataItemF_via_bytestring {f : Nat} {x : List Char} {v : DataItem} {r : List Char}
    (hms : x.dropWhile isMS = x) (h1 : float x = none)
    (h2 : tagged (dataItemF f) x = none) (h3 : positive x = none)
    (h4 : negative x = none) (hb : bytestring x = some (v, r)) :
    dataItemF (f + 1) x = some (v, r.dropWhile isMS) := by
  unfold dataItemF wrapws palt
  simp only [hms, h1, h2, h3, h4, hb]

theorem head_none_nil {P : Char → Prop} : ∀ a ∈ ([] : List Char).head?, P a := by
  intro a ha
  simp at ha

theorem ptag_ne_second {c a b : Char} (tl x : List Char) (h : a ≠ b) :
    ptag (c :: a :: tl) (c :: b :: x) = none := by
  simp [ptag, List.isPrefixOf, h]

theorem positive_fail_of_integer {x : List Char} (h : integer x = none) :
    positive x = none := by
  unfold positive
  simp only [h]

theorem negative_fail_of_integer {y : List Char} (h : integer y = none) :
    negative ('-' :: y) = none := by
  unfold negative
  have h1 : ptag ['-'] ('-' :: y) = some (['-'], y) := ptag_run_tag ['-'] y
  simp only [h1, h]

theorem recognize_float_neg_digits_nodot {d r : List Char} (hd : DigitRun d)
    (hr : NotDigitStart r) (hdot : ∀ a ∈ r.head?, a ≠ '.') :
    recognize_float ('-' :: (d ++ r)) = none := by
  have hsg : ('-' = '+' ∨ '-' = '-') := Or.inr rfl
  unfold recognize_float floatTail
  simp only [signStep_sign _ hsg, pdigit1_run hd hr,
    ptag_head_false (fun b hb => Ne.symm (hdot b hb))]

theorem float_fail_neg_digits {d r : List Char} (hd : DigitRun d) (hr : NotDigitStart r)
    (hdot : ∀ a ∈ r.head?, a ≠ '.') : float ('-' :: (d ++ r)) = none := by
  have h0 := recognize_float_neg_digits_nodot hd hr hdot
  obtain ⟨hne, hall⟩ := hd
  cases d with
  | nil => exact absurd rfl hne
  | cons a t =>
    have ha : a.isDigit = true := hall a (List.mem_cons_self a t)
    have g1 : ptag ['I', 'n', 'f', 'i', 'n', 'i', 't', 'y'] ('-' :: ((a :: t) ++ r)) = none := by
      rw [List.cons_append]
      exact ptag_ne_head _ _ (by decide)
    have g2 : ptag ['-', 'I', 'n', 'f', 'i', 'n', 'i', 't', 'y'] ('-' :: ((a :: t) ++ r)) = none := by
      rw [List.cons_append]
      exact ptag_ne_second _ _ (Ne.symm (ne_of_digit ha (by decide)))
    have g3 : ptag ['N', 'a', 'N'] ('-' :: ((a :: t) ++ r)) = none := by
      rw [List.cons_append]
      exact ptag_ne_head _ _ (by decide)
    unfold float float_value
    simp only [h0, g1, g2, g3]

theorem dataItemF_none_all {f : Nat} {x : List Char}
    (h1 : float (x.dropWhile isMS) = none)
    (h2 : tagged (dataItemF f) (x.dropWhile isMS) = none)
    (h3 : positive (x.dropWhile isMS) = none)
    (h4 : negative (x.dropWhile isMS) = none)
    (h5 : bytestring (x.dropWhile isMS) = none)
    (h6 : textstring (x.dropWhile isMS) = none)
    (h7 : array (dataItemF f) (x.dropWhile isMS) = none)
    (h8 : data_map (dataItemF f) (x.dropWhile isMS) = none)
    (h9 : simple (x.dropWhile isMS) = none) :
    dataItemF (f + 1) x = none := by
  unfold dataItemF wrapws palt
  simp only [h1, h2, h3, h4, h5, h6, h7, h8, h9]

/-! ### Entry-point glue -/

theorem parse_diag_ok {s : List Char} {v : DataItem} (h : data_item s = some (v, [])) :
    parse_diag s = .ok v := by
  unfold parse_diag
  rw [h]

theorem parse_diag_err_rem {s : List Char} {v : DataItem} {c : Char} {cs : List Char}
    (h : data_item s = some (v, c :: cs)) :
    parse_diag s = .error (.remainingText (c :: cs)) := by
  unfold parse_diag
  rw [h]

theorem parse_diag_err_fail {s : List Char} (h : data_item s = none) :
    parse_diag s = .error .parseFailure := by
  unfold parse_diag
  rw [h]

theorem strip_digitrun {d r : List Char} (hd : DigitRun d) :
    (d ++ r).dropWhile isMS = d ++ r := by
  obtain ⟨hne, hall⟩ := hd
  cases d with
  | nil => exact absurd rfl hne
  | cons a t =>
    rw [List.cons_append]
    exact dropWhile_cons_false _ (isMS_false_of_digit (hall a (List.mem_cons_self a t)))

theorem head_cons_prop {P : Char → Prop} {a : Char} (t : List Char) (h : P a) :
    ∀ b ∈ (a :: t).head?, P b := by
  intro b hb
  simp at hb
  subst hb
  exact h

theorem pdigit1_eq {x d rd : List Char} (hp : pdigit1 x = some (d, rd)) :
    d = x.takeWhile Char.isDigit ∧ rd = x.dropWhile Char.isDigit := by
  unfold pdigit1 at hp
  split at hp
  · exact absurd hp (by simp)
  · rw [Option.some.injEq, Prod.mk.injEq] at hp
    exact ⟨hp.1.symm, hp.2.symm⟩

/-- Whatever `integer` returns, the value is exactly the numeric value of the
leading digit run (never reduced or truncated). -/
theorem integer_value {x : List Char} {v : Nat} {w : IntegerWidth} {r : List Char}
    (h : integer x = some ((v, w), r)) :
    v = digitsVal (x.takeWhile Char.isDigit) ∧ digitsVal (x.takeWhile Char.isDigit) < 2 ^ 64 := by
  unfold integer at h
  cases hp : pdigit1 x with
  | none => rw [hp] at h; exact absurd h (by simp)
  | some dr =>
    obtain ⟨d, rd⟩ := dr
    obtain ⟨hd, -⟩ := pdigit1_eq hp
    subst hd
    simp only [hp] at h
    cases hu : u64OfDigits (x.takeWhile Char.isDigit) with
    | none => simp only [hu] at h; exact absurd h (by simp)
    | some vv =>
      simp only [hu] at h
      unfold u64OfDigits at hu
      split at hu
      · rename_i hlt
        rw [Option.some.injEq] at hu
        subst hu
        cases he : encoding rd with
        | some er =>
          obtain ⟨e, r2⟩ := er
          simp only [he, Option.some.injEq, Prod.mk.injEq] at h
          exact ⟨h.1.1.symm, hlt⟩
        | none =>
          simp only [he, Option.some.injEq, Prod.mk.injEq] at h
          exact ⟨h.1.1.symm, hlt⟩
      · exact absurd hu (by simp)

/-! ### Parse-level lemmas for integer-shaped inputs -/

theorem parse_digits_nosuffix {d : List Char} (hd : DigitRun d) (hv : digitsVal d < 2 ^ 64) :
    parse_diag d = .ok (.integer (digitsVal d)
      (if digitsVal d ≤ 23 then .zero else .unknown)) := by
  have hms : d.dropWhile isMS = d := by
    have h := @strip_digitrun d [] hd
    rwa [List.append_nil] at h
  have hfl : float d = none := by
    have h := float_fail_digits hd notDigitStart_nil head_none_nil
    rwa [List.append_nil] at h
  have hig : integer d = some ((digitsVal d, .unknown), []) := by
    have h := integer_run_nosuffix hd notDigitStart_nil head_none_nil hv
    rwa [List.append_nil] at h
  have htg : tagged (dataItemF d.length) d = none := tagged_fail_noparen hig head_none_nil
  have hpos : positive d = some (.integer (digitsVal d)
      (if digitsVal d ≤ 23 then .zero else .unknown), []) := by
    have h := positive_run_nosuffix hd notDigitStart_nil head_none_nil hv
    rwa [List.append_nil] at h
  exact parse_diag_ok (dataItemF_via_positive hms hfl htg hpos)

theorem parse_digits_suffix {d e : List Char} (hd : DigitRun d) (he : DigitRun e)
    (hv : digitsVal d < 2 ^ 64) (hev : digitsVal e < 4) :
    parse_diag (d ++ '_' :: e) =
      .ok (.integer (digitsVal d) (widthOfEnc (digitsVal e))) := by
  have hms : (d ++ '_' :: e).dropWhile isMS = d ++ '_' :: e := strip_digitrun hd
  have hnd : NotDigitStart ('_' :: e) := notDigitStart_cons e (by decide)
  have hfl : float (d ++ '_' :: e) = none :=
    float_fail_digits hd hnd (head_cons_prop e (by decide))
  have hig : integer (d ++ '_' :: e) = some ((digitsVal d, widthOfEnc (digitsVal e)), []) := by
    have h := integer_run_suffix hd he notDigitStart_nil hv hev
    rwa [List.append_nil] at h
  have htg : tagged (dataItemF (d ++ '_' :: e).length) (d ++ '_' :: e) = none :=
    tagged_fail_noparen hig head_none_nil
  have hpos : positive (d ++ '_' :: e) =
      some (.integer (digitsVal d) (widthOfEnc (digitsVal e)), []) := by
    have h := positive_run_suffix hd he notDigitStart_nil hv hev
    rwa [List.append_nil] at h
  exact parse_diag_ok (dataItemF_via_positive hms hfl htg hpos)

theorem parse_digits_badsuffix {d e : List Char} (hd : DigitRun d) (he : DigitRun e)
    (hv : digitsVal d < 2 ^ 64) (hev : 4 ≤ digitsVal e) :
    parse_diag (d ++ '_' :: e) = .error (.remainingText ('_' :: e)) := by
  have hms : (d ++ '_' :: e).dropWhile isMS = d ++ '_' :: e := strip_digitrun hd
  have hnd : NotDigitStart ('_' :: e) := notDigitStart_cons e (by decide)
  have hfl : float (d ++ '_' :: e) = none :=
    float_fail_digits hd hnd (head_cons_prop e (by decide))
  have henc : encoding ('_' :: e) = none := by
    have h := encoding_fail_big he notDigitStart_nil hev
    rwa [List.append_nil] at h
  have hig : integer (d ++ '_' :: e) = some ((digitsVal d, .unknown), '_' :: e) := by
    unfold integer
    simp only [pdigit1_run hd hnd, u64OfDigits, if_pos hv, henc]
  have htg : tagged (dataItemF (d ++ '_' :: e).length) (d ++ '_' :: e) = none :=
    tagged_fail_noparen hig (head_cons_prop e (by decide))
  have hpos : positive (d ++ '_' :: e) = some (.integer (digitsVal d)
      (if digitsVal d ≤ 23 then .zero else .unknown), '_' :: e) := by
    unfold positive
    simp only [hig]
    by_cases h : digitsVal d ≤ 23
    · simp [h]
    · simp [h]
  have hdi := dataItemF_via_positive hms hfl htg hpos
  rw [dropWhile_cons_false e (by decide)] at hdi
  exact parse_diag_err_rem hdi

/-! ### Claim theorems: C1, C2, C3, C4, C10 -/

/-- C1: `parse_diag` either returns one complete item with the input fully
consumed, or an error; a dispatcher success on a proper head with nonempty
trailing text becomes the trailing-input error, as on `1 2`, even though `1`
alone parses. -/
theorem claim_C1 :
    (∀ s : List Char, (∃ v, parse_diag s = .ok v ∧ data_item s = some (v, [])) ∨
      ∃ e, parse_diag s = .error e) ∧
    (∀ s v rest, data_item s = some (v, rest) → rest ≠ [] →
      parse_diag s = .error (.remainingText rest)) ∧
    data_item ['1', ' ', '2'] = some (.integer 1 .zero, ['2']) ∧
    parse_diag ['1', ' ', '2'] = .error (.remainingText ['2']) ∧
    parse_diag ['1'] = .ok (.integer 1 .zero) := by
  refine ⟨?_, ?_, by rfl, by rfl, by rfl⟩
  · intro s
    cases h : data_item s with
    | none => exact Or.inr ⟨_, parse_diag_err_fail h⟩
    | some vr =>
      obtain ⟨v, r⟩ := vr
      cases r with
      | nil => exact Or.inl ⟨v, parse_diag_ok h, rfl⟩
      | cons c cs => exact Or.inr ⟨_, parse_diag_err_rem h⟩
  · intro s v rest h hne
    cases rest with
    | nil => exact absurd rfl hne
    | cons c cs => exact parse_diag_err_rem h

/-- C2: an unsuffixed decimal integer gets width `Zero` when its value is at
most 23 and `Unknown` from 24 on; explicit suffixes `_0` to `_3` force the
widths 8, 16, 32 and 64 bits regardless of the value; a suffix whose number is
4 or more is rejected (as unconsumed trailing input). -/
theorem claim_C2 (d : List Char) (hd : DigitRun d) (hv : digitsVal d < 2 ^ 64) :
    parse_diag d = .ok (.integer (digitsVal d)
        (if digitsVal d ≤ 23 then .zero else .unknown)) ∧
    parse_diag (d ++ ['_', '0']) = .ok (.integer (digitsVal d) .eight) ∧
    parse_diag (d ++ ['_', '1']) = .ok (.integer (digitsVal d) .sixteen) ∧
    parse_diag (d ++ ['_', '2']) = .ok (.integer (digitsVal d) .thirtyTwo) ∧
    parse_diag (d ++ ['_', '3']) = .ok (.integer (digitsVal d) .sixtyFour) ∧
    ∀ e, DigitRun e → 4 ≤ digitsVal e →
      parse_diag (d ++ '_' :: e) = .error (.remainingText ('_' :: e)) := by
  refine ⟨parse_digits_nosuffix hd hv, ?_, ?_, ?_, ?_, fun e he hev =>
    parse_digits_badsuffix hd he hv hev⟩
  · have h := @parse_digits_suffix d ['0'] hd ⟨by decide, by decide⟩ hv (by decide)
    rwa [show widthOfEnc (digitsVal ['0']) = IntegerWidth.eight from by decide] at h
  · have h := @parse_digits_suffix d ['1'] hd ⟨by decide, by decide⟩ hv (by decide)
    rwa [show widthOfEnc (digitsVal ['1']) = IntegerWidth.sixteen from by decide] at h
  · have h := @parse_digits_suffix d ['2'] hd ⟨by decide, by decide⟩ hv (by decide)
    rwa [show widthOfEnc (digitsVal ['2']) = IntegerWidth.thirtyTwo from by decide] at h
  · have h := @parse_digits_suffix d ['3'] hd ⟨by decide, by decide⟩ hv (by decide)
    rwa [show widthOfEnc (digitsVal ['3']) = IntegerWidth.sixtyFour from by decide] at h

theorem claim_C2_witness :
    parse_diag ['2', '5'] = .ok (.integer 25 .unknown) ∧
    parse_diag ['7'] = .ok (.integer 7 .zero) ∧
    parse_diag ['2', '5', '_', '0'] = .ok (.integer 25 .eight) ∧
    parse_diag ['2', '5', '_', '4'] = .error (.remainingText ['_', '4']) := by
  have e25 : digitsVal ['2', '5'] = 25 := by decide
  have e7 : digitsVal ['7'] = 7 := by decide
  have h25 := claim_C2 ['2', '5'] ⟨by decide, by decide⟩ (by decide)
  have h7 := claim_C2 ['7'] ⟨by decide, by decide⟩ (by decide)
  rw [e25] at h25
  rw [e7] at h7
  refine ⟨?_, ?_, ?_, ?_⟩
  · simpa using h25.1
  · simpa using h7.1
  · simpa using h25.2.1
  · simpa using h25.2.2.2.2.2 ['4'] ⟨by decide, by decide⟩ (by decide)

/-- C3: a negative literal with magnitude `m` parses to `Negative` storing
`m - 1`; with no suffix the width is `Zero` when `m` is at most 24 and
`Unknown` from 25 on. -/
theorem claim_C3 (d : List Char) (hd : DigitRun d) (hv : digitsVal d < 2 ^ 64)
    (hpos : 0 < digitsVal d) :
    parse_diag ('-' :: d) = .ok (.negative (digitsVal d - 1)
      (if digitsVal d ≤ 24 then .zero else .unknown)) := by
  have hms : ('-' :: d).dropWhile isMS = '-' :: d := dropWhile_cons_false d (by decide)
  have hfl : float ('-' :: d) = none := by
    have h := float_fail_neg_digits hd notDigitStart_nil head_none_nil
    rwa [List.append_nil] at h
  have hnds : NotDigitStart ('-' :: d) := notDigitStart_cons d (by decide)
  have htg : tagged (dataItemF ('-' :: d).length) ('-' :: d) = none :=
    tagged_fail_integer (integer_fail_head hnds)
  have hps : positive ('-' :: d) = none := positive_fail_head hnds
  have hng : negative ('-' :: d) = some (.negative (digitsVal d - 1)
      (if digitsVal d ≤ 24 then .zero else .unknown), []) := by
    have h := negative_run_nosuffix hd notDigitStart_nil head_none_nil hv hpos
    rwa [List.append_nil] at h
  exact parse_diag_ok (dataItemF_via_negative hms hfl htg hps hng)

theorem claim_C3_witness :
    parse_diag ['-', '2', '4'] = .ok (.negative 23 .zero) ∧
    parse_diag ['-', '2', '5'] = .ok (.negative 24 .unknown) := by
  have e24 : digitsVal ['2', '4'] = 24 := by decide
  have e25 : digitsVal ['2', '5'] = 25 := by decide
  have h24 := claim_C3 ['2', '4'] ⟨by decide, by decide⟩ (by decide) (by decide)
  have h25 := claim_C3 ['2', '5'] ⟨by decide, by decide⟩ (by decide) (by decide)
  rw [e24] at h24
  rw [e25] at h25
  exact ⟨by simpa using h24, by simpa using h25⟩

/-! ### All-branch failure glue -/

theorem parse_neg_fail {y : List Char}
    (hfl : float ('-' :: y) = none) (hng : negative ('-' :: y) = none) :
    parse_diag ('-' :: y) = .error .parseFailure := by
  have hms : ('-' :: y).dropWhile isMS = '-' :: y := dropWhile_cons_false y (by decide)
  have hnds : NotDigitStart ('-' :: y) := notDigitStart_cons y (by decide)
  apply parse_diag_err_fail
  unfold data_item
  apply dataItemF_none_all <;> rw [hms]
  · exact hfl
  · exact tagged_fail_integer (integer_fail_head hnds)
  · exact positive_fail_head hnds
  · exact hng
  · exact bytestring_fail_head (by decide) (by decide) (by decide) (by decide) (by decide)
  · exact textstring_fail_head (by decide) (by decide) (by decide)
  · exact array_fail_head (by decide) (by decide)
  · exact map_fail_head (by decide) (by decide)
  · exact simple_fail_head (by decide) (by decide) (by decide) (by decide) (by decide)

theorem parse_digits_fail {d r : List Char} (hd : DigitRun d) (hr : NotDigitStart r)
    (hdot : ∀ a ∈ r.head?, a ≠ '.') (hint : integer (d ++ r) = none) :
    parse_diag (d ++ r) = .error .parseFailure := by
  have hfl := float_fail_digits hd hr hdot
  obtain ⟨hne, hall⟩ := hd
  cases d with
  | nil => exact absurd rfl hne
  | cons a t =>
    have ha : a.isDigit = true := hall a (List.mem_cons_self a t)
    have hms : isMS a = false := isMS_false_of_digit ha
    have hstrip : ((a :: t) ++ r).dropWhile isMS = (a :: t) ++ r := by
      rw [List.cons_append]
      exact dropWhile_cons_false _ hms
    apply parse_diag_err_fail
    unfold data_item
    apply dataItemF_none_all <;> rw [hstrip]
    · exact hfl
    · exact tagged_fail_integer hint
    · exact positive_fail_of_integer hint
    · rw [List.cons_append]
      exact negative_fail_head (head_cons_prop _ (ne_of_digit ha (by decide)))
    · rw [List.cons_append]
      exact bytestring_fail_head hms (ne_of_digit ha (by decide)) (ne_of_digit ha (by decide))
        (ne_of_digit ha (by decide)) (ne_of_digit ha (by decide))
    · rw [List.cons_append]
      exact textstring_fail_head hms (ne_of_digit ha (by decide)) (ne_of_digit ha (by decide))
    · rw [List.cons_append]
      exact array_fail_head hms (ne_of_digit ha (by decide))
    · rw [List.cons_append]
      exact map_fail_head hms (ne_of_digit ha (by decide))
    · rw [List.cons_append]
      exact simple_fail_head (ne_of_digit ha (by decide)) (ne_of_digit ha (by decide))
        (ne_of_digit ha (by decide)) (ne_of_digit ha (by decide)) (ne_of_digit ha (by decide))

/-- C4: a zero magnitude after the minus sign is rejected, with or without a
width suffix, and `negative` can only ever build an item from a strictly
positive magnitude (stored offset by one). -/
theorem claim_C4 :
    (∀ z sfx : List Char, z ≠ [] → (∀ a ∈ z, a = '0') →
      (sfx = [] ∨ sfx = ['_', '0'] ∨ sfx = ['_', '1'] ∨ sfx = ['_', '2'] ∨ sfx = ['_', '3']) →
      parse_diag ('-' :: (z ++ sfx)) = .error .parseFailure) ∧
    (∀ x it r, negative x = some (it, r) → ∃ m w, 1 ≤ m ∧ it = .negative (m - 1) w) := by
  constructor
  · intro z sfx hz hall hsfx
    have hdz : DigitRun z := ⟨hz, fun a ha => by rw [hall a ha]; decide⟩
    have hvz : digitsVal z = 0 := digitsVal_zeros hall
    have hnd : NotDigitStart sfx := by
      rcases hsfx with rfl | rfl | rfl | rfl | rfl
      · exact notDigitStart_nil
      all_goals exact notDigitStart_cons _ (by decide)
    have hdot : ∀ a ∈ sfx.head?, a ≠ '.' := by
      rcases hsfx with rfl | rfl | rfl | rfl | rfl
      · exact head_none_nil
      all_goals exact head_cons_prop _ (by decide)
    apply parse_neg_fail
    · exact float_fail_neg_digits hdz hnd hdot
    · apply negative_fail_of_zero
      intro v w r2 h
      have hval := (integer_value h).1
      rw [takeWhile_run hdz.2 hnd] at hval
      rw [hval, hvz]
  · intro x it r h
    exact negative_nonzero h

theorem claim_C4_witness :
    parse_diag ['-', '0'] = .error .parseFailure ∧
    parse_diag ['-', '0', '0', '_', '1'] = .error .parseFailure := by
  have h1 := claim_C4.1 ['0'] [] (by decide) (by decide) (Or.inl rfl)
  have h2 := claim_C4.1 ['0', '0'] ['_', '1'] (by decide) (by decide)
    (Or.inr (Or.inr (Or.inl rfl)))
  exact ⟨by simpa using h1, by simpa using h2⟩

/-- C10: a decimal literal beyond the 64-bit range makes the integer grammar
fail wherever an unsigned integer is expected, and `parse_diag` errors instead
of wrapping or truncating the value. -/
theorem claim_C10 (d : List Char) (hd : DigitRun d) (hv : 2 ^ 64 ≤ digitsVal d) :
    integer d = none ∧
    parse_diag d = .error .parseFailure ∧
    parse_diag ('-' :: d) = .error .parseFailure ∧
    parse_diag (d ++ ['(', '1', ')']) = .error .parseFailure ∧
    (∀ g, DigitRun g → digitsVal g < 2 ^ 64 →
      parse_diag (g ++ '_' :: d) = .error (.remainingText ('_' :: d))) := by
  have hint : integer d = none := by
    have h := integer_fail_overflow hd notDigitStart_nil hv
    rwa [List.append_nil] at h
  refine ⟨hint, ?_, ?_, ?_, ?_⟩
  · have h := parse_digits_fail hd notDigitStart_nil head_none_nil
      (by rwa [List.append_nil])
    rwa [List.append_nil] at h
  · apply parse_neg_fail
    · have h := float_fail_neg_digits hd notDigitStart_nil head_none_nil
      rwa [List.append_nil] at h
    · exact negative_fail_of_integer hint
  · exact parse_digits_fail hd (notDigitStart_cons _ (by decide))
      (head_cons_prop _ (by decide))
      (integer_fail_overflow hd (notDigitStart_cons _ (by decide)) hv)
  · intro g hg hvg
    exact parse_digits_badsuffix hg hd hvg (le_trans (by norm_num) hv)

theorem claim_C10_witness :
    integer ['1', '8', '4', '4', '6', '7', '4', '4', '0', '7', '3', '7', '0', '9',
      '5', '5', '1', '6', '1', '6'] = none ∧
    parse_diag ['1', '8', '4', '4', '6', '7', '4', '4', '0', '7', '3', '7', '0', '9',
      '5', '5', '1', '6', '1', '6'] = .error .parseFailure ∧
    parse_diag ('-' :: ['1', '8', '4', '4', '6', '7', '4', '4', '0', '7', '3', '7', '0', '9',
      '5', '5', '1', '6', '1', '6']) = .error .parseFailure ∧
    parse_diag (['7'] ++ '_' :: ['1', '8', '4', '4', '6', '7', '4', '4', '0', '7', '3', '7',
      '0', '9', '5', '5', '1', '6', '1', '6']) =
      .error (.remainingText ('_' :: ['1', '8', '4', '4', '6', '7', '4', '4', '0', '7', '3',
        '7', '0', '9', '5', '5', '1', '6', '1', '6'])) := by
  have h := claim_C10 ['1', '8', '4', '4', '6', '7', '4', '4', '0', '7', '3', '7', '0', '9',
    '5', '5', '1', '6', '1', '6'] ⟨by decide, by decide⟩ (by decide)
  exact ⟨h.1, h.2.1, h.2.2.1, h.2.2.2.2 ['7'] ⟨by decide, by decide⟩ (by decide)⟩

/-! ### The shapes of decimal float literals -/

/-- An optional sign, as recognized by `recognize_float`. -/
def SignOpt (sg : List Char) : Prop := sg = [] ∨ sg = ['+'] ∨ sg = ['-']

/-- An optional exponent part. -/
def ExpOpt (ex : List Char) : Prop :=
  ex = [] ∨ ∃ e esg d3, (e = 'e' ∨ e = 'E') ∧ SignOpt esg ∧ DigitRun d3 ∧
    ex = e :: (esg ++ d3)

/-- The text of a decimal float literal. -/
def floatLit (sg d1 d2 ex : List Char) : List Char := sg ++ d1 ++ '.' :: (d2 ++ ex)

theorem signStep_digits {d r : List Char} (hd : DigitRun d) :
    signStep (d ++ r) = ([], d ++ r) := by
  obtain ⟨hne, hall⟩ := hd
  cases d with
  | nil => exact absurd rfl hne
  | cons a t =>
    have ha : a.isDigit = true := hall a (List.mem_cons_self a t)
    rw [List.cons_append]
    exact signStep_nosign _ (by rintro (rfl | rfl) <;> exact absurd ha (by decide))

theorem floatTail_run (sg1 : List Char) {d1 d2 ex r : List Char} (h1 : DigitRun d1)
    (h2 : DigitRun d2) (hex : ExpOpt ex) (hr : NotDigitStart r)
    (he : ∀ a ∈ r.head?, a ≠ 'e' ∧ a ≠ 'E') :
    floatTail sg1 (d1 ++ '.' :: (d2 ++ (ex ++ r))) =
      some (sg1 ++ d1 ++ '.' :: (d2 ++ ex), r) := by
  have hnd1 : NotDigitStart ('.' :: (d2 ++ (ex ++ r))) := notDigitStart_cons _ (by decide)
  have hdot : ptag ['.'] ('.' :: (d2 ++ (ex ++ r))) = some (['.'], d2 ++ (ex ++ r)) :=
    ptag_run_tag ['.'] _
  have hndex : NotDigitStart (ex ++ r) := by
    rcases hex with rfl | ⟨e, esg, d3, hE, hesg, hd3, rfl⟩
    · simpa using hr
    · rw [List.cons_append]
      exact notDigitStart_cons _ (by rcases hE with rfl | rfl <;> decide)
  unfold floatTail
  simp only [pdigit1_run h1 hnd1, hdot, pdigit1_run h2 hndex]
  rcases hex with rfl | ⟨e, esg, d3, hE, hesg, hd3, rfl⟩
  · simp only [List.nil_append]
    cases r with
    | nil => simp
    | cons c r5 =>
      have hcE : ¬(c = 'e' ∨ c = 'E') := by
        have h := he c (by simp)
        rintro (rfl | rfl)
        · exact h.1 rfl
        · exact h.2 rfl
      simp [if_neg hcE]
  · rw [List.cons_append]
    simp only [if_pos hE]
    have hstep : signStep ((esg ++ d3) ++ r) = (esg, d3 ++ r) := by
      rcases hesg with rfl | rfl | rfl
      · rw [List.nil_append]
        exact signStep_digits hd3
      · rw [List.cons_append, List.nil_append]
        exact signStep_sign _ (Or.inl rfl)
      · rw [List.cons_append, List.nil_append]
        exact signStep_sign _ (Or.inr rfl)
    simp only [hstep, pdigit1_run hd3 hr]
    simp

theorem recognize_float_run {sg d1 d2 ex r : List Char} (hsg : SignOpt sg)
    (h1 : DigitRun d1) (h2 : DigitRun d2) (hex : ExpOpt ex) (hr : NotDigitStart r)
    (he : ∀ a ∈ r.head?, a ≠ 'e' ∧ a ≠ 'E') :
    recognize_float (floatLit sg d1 d2 ex ++ r) = some (floatLit sg d1 d2 ex, r) := by
  have htail := fun (sg0 : List Char) => @floatTail_run sg0 d1 d2 ex r
  have hinput : ∀ sg0 : List Char, floatLit sg0 d1 d2 ex ++ r =
      sg0 ++ (d1 ++ '.' :: (d2 ++ (ex ++ r))) := by
    intro sg0
    simp [floatLit]
  unfold recognize_float
  rcases hsg with rfl | rfl | rfl
  · rw [hinput [], List.nil_append, signStep_digits h1]
    have h := htail [] h1 h2 hex hr he
    rw [h]
    simp [floatLit]
  · rw [hinput ['+'], List.cons_append, List.nil_append,
      signStep_sign _ (Or.inl rfl)]
    have h := htail ['+'] h1 h2 hex hr he
    rw [h]
    simp [floatLit]
  · rw [hinput ['-'], List.cons_append, List.nil_append,
      signStep_sign _ (Or.inr rfl)]
    have h := htail ['-'] h1 h2 hex hr he
    rw [h]
    simp [floatLit]

theorem float_value_decimal {sg d1 d2 ex r : List Char} (hsg : SignOpt sg)
    (h1 : DigitRun d1) (h2 : DigitRun d2) (hex : ExpOpt ex) (hr : NotDigitStart r)
    (he : ∀ a ∈ r.head?, a ≠ 'e' ∧ a ≠ 'E') :
    float_value (floatLit sg d1 d2 ex ++ r) = some (.num (floatLit sg d1 d2 ex), r) := by
  unfold float_value
  simp only [recognize_float_run hsg h1 h2 hex hr he]

theorem float_value_inf (r : List Char) :
    float_value (['I', 'n', 'f', 'i', 'n', 'i', 't', 'y'] ++ r) = some (.inf, r) := by
  unfold float_value
  simp only [List.cons_append, List.nil_append]
  have hnd : NotDigitStart ('I' :: 'n' :: 'f' :: 'i' :: 'n' :: 'i' :: 't' :: 'y' :: r) :=
    notDigitStart_cons _ (by decide)
  have hsg : ∀ a ∈ ('I' :: 'n' :: 'f' :: 'i' :: 'n' :: 'i' :: 't' :: 'y' :: r).head?,
      a ≠ '+' ∧ a ≠ '-' := head_cons_prop _ (by decide)
  have hrec := recognize_float_head hnd hsg
  have g := ptag_run_tag ['I', 'n', 'f', 'i', 'n', 'i', 't', 'y'] r
  simp only [List.cons_append, List.nil_append] at g
  simp only [hrec, g]

theorem float_value_neginf (r : List Char) :
    float_value (['-', 'I', 'n', 'f', 'i', 'n', 'i', 't', 'y'] ++ r) = some (.negInf, r) := by
  unfold float_value
  simp only [List.cons_append, List.nil_append]
  have hnd : NotDigitStart ('I' :: 'n' :: 'f' :: 'i' :: 'n' :: 'i' :: 't' :: 'y' :: r) :=
    notDigitStart_cons _ (by decide)
  have hrec : recognize_float
      ('-' :: 'I' :: 'n' :: 'f' :: 'i' :: 'n' :: 'i' :: 't' :: 'y' :: r) = none := by
    unfold recognize_float floatTail
    simp only [signStep_sign _ (Or.inr rfl), pdigit1_none hnd]
  have g1 : ptag ['I', 'n', 'f', 'i', 'n', 'i', 't', 'y']
      ('-' :: 'I' :: 'n' :: 'f' :: 'i' :: 'n' :: 'i' :: 't' :: 'y' :: r) = none :=
    ptag_ne_head _ _ (by decide)
  have g2 := ptag_run_tag ['-', 'I', 'n', 'f', 'i', 'n', 'i', 't', 'y'] r
  simp only [List.cons_append, List.nil_append] at g2
  simp only [hrec, g1, g2]

theorem float_value_nan (r : List Char) :
    float_value (['N', 'a', 'N'] ++ r) = some (.nan, r) := by
  unfold float_value
  simp only [List.cons_append, List.nil_append]
  have hnd : NotDigitStart ('N' :: 'a' :: 'N' :: r) := notDigitStart_cons _ (by decide)
  have hsg : ∀ a ∈ ('N' :: 'a' :: 'N' :: r).head?, a ≠ '+' ∧ a ≠ '-' :=
    head_cons_prop _ (by decide)
  have hrec := recognize_float_head hnd hsg
  have g1 : ptag ['I', 'n', 'f', 'i', 'n', 'i', 't', 'y'] ('N' :: 'a' :: 'N' :: r) = none :=
    ptag_ne_head _ _ (by decide)
  have g2 : ptag ['-', 'I', 'n', 'f', 'i', 'n', 'i', 't', 'y'] ('N' :: 'a' :: 'N' :: r) = none :=
    ptag_ne_head _ _ (by decide)
  have g3 := ptag_run_tag ['N', 'a', 'N'] r
  simp only [List.cons_append, List.nil_append] at g3
  simp only [hrec, g1, g2, g3]

/-- The five suffix behaviours shared by every float literal form `lit`. -/
theorem parse_float_lit {lit : List Char} {val : FloatVal}
    (hfv : ∀ r, r = [] ∨ r = ['_', '0'] ∨ r = ['_', '1'] ∨ r = ['_', '2'] ∨ r = ['_', '3'] →
      float_value (lit ++ r) = some (val, r))
    (hhead : ∃ a t, lit = a :: t ∧ isMS a = false) :
    parse_diag lit = .ok (.float val .unknown) ∧
    parse_diag (lit ++ ['_', '1']) = .ok (.float val .sixteen) ∧
    parse_diag (lit ++ ['_', '2']) = .ok (.float val .thirtyTwo) ∧
    parse_diag (lit ++ ['_', '3']) = .ok (.float val .sixtyFour) ∧
    parse_diag (lit ++ ['_', '0']) = .error (.remainingText ['_', '0']) := by
  obtain ⟨a, t, hlit, hms⟩ := hhead
  have hstrip : ∀ r : List Char, (lit ++ r).dropWhile isMS = lit ++ r := by
    intro r
    rw [hlit, List.cons_append]
    exact dropWhile_cons_false _ hms
  have hstrip0 : lit.dropWhile isMS = lit := by
    have h := hstrip []
    rwa [List.append_nil] at h
  refine ⟨?_, ?_, ?_, ?_, ?_⟩
  · have h := hfv [] (Or.inl rfl)
    rw [List.append_nil] at h
    have hfl : float lit = some (.float val .unknown, []) := by
      unfold float
      simp only [h, encoding_head_ne head_none_nil]
    exact parse_diag_ok (dataItemF_via_floatF lit.length hstrip0 hfl)
  · have h := hfv ['_', '1'] (Or.inr (Or.inr (Or.inl rfl)))
    have hfl : float (lit ++ ['_', '1']) = some (.float val .sixteen, []) := by
      unfold float
      simp only [h, show encoding ['_', '1'] = some (1, []) from rfl]
      norm_num
    exact parse_diag_ok (dataItemF_via_floatF (lit ++ ['_', '1']).length (hstrip _) hfl)
  · have h := hfv ['_', '2'] (Or.inr (Or.inr (Or.inr (Or.inl rfl))))
    have hfl : float (lit ++ ['_', '2']) = some (.float val .thirtyTwo, []) := by
      unfold float
      simp only [h, show encoding ['_', '2'] = some (2, []) from rfl]
      norm_num
    exact parse_diag_ok (dataItemF_via_floatF (lit ++ ['_', '2']).length (hstrip _) hfl)
  · have h := hfv ['_', '3'] (Or.inr (Or.inr (Or.inr (Or.inr rfl))))
    have hfl : float (lit ++ ['_', '3']) = some (.float val .sixtyFour, []) := by
      unfold float
      simp only [h, show encoding ['_', '3'] = some (3, []) from rfl]
      norm_num
    exact parse_diag_ok (dataItemF_via_floatF (lit ++ ['_', '3']).length (hstrip _) hfl)
  · have h := hfv ['_', '0'] (Or.inr (Or.inl rfl))
    have hfl : float (lit ++ ['_', '0']) = some (.float val .unknown, ['_', '0']) := by
      unfold float
      simp only [h, show encoding ['_', '0'] = some (0, []) from rfl]
      norm_num
    have hdi := dataItemF_via_floatF (lit ++ ['_', '0']).length (hstrip _) hfl
    rw [show (['_', '0'] : List Char).dropWhile isMS = ['_', '0'] from rfl] at hdi
    exact parse_diag_err_rem hdi

/-- C5: every float literal (decimal or one of the three named tokens) takes
width 16, 32 or 64 bits from an explicit suffix `_1`, `_2` or `_3`, has width
`Unknown` without a suffix, and is rejected with suffix `_0` (which is left as
trailing input); no 8-bit float is ever produced. -/
theorem claim_C5 :
    (∀ sg d1 d2 ex, SignOpt sg → DigitRun d1 → DigitRun d2 → ExpOpt ex →
      parse_diag (floatLit sg d1 d2 ex) =
        .ok (.float (.num (floatLit sg d1 d2 ex)) .unknown) ∧
      parse_diag (floatLit sg d1 d2 ex ++ ['_', '1']) =
        .ok (.float (.num (floatLit sg d1 d2 ex)) .sixteen) ∧
      parse_diag (floatLit sg d1 d2 ex ++ ['_', '2']) =
        .ok (.float (.num (floatLit sg d1 d2 ex)) .thirtyTwo) ∧
      parse_diag (floatLit sg d1 d2 ex ++ ['_', '3']) =
        .ok (.float (.num (floatLit sg d1 d2 ex)) .sixtyFour) ∧
      parse_diag (floatLit sg d1 d2 ex ++ ['_', '0']) =
        .error (.remainingText ['_', '0'])) ∧
    (parse_diag ['I', 'n', 'f', 'i', 'n', 'i', 't', 'y'] = .ok (.float .inf .unknown) ∧
      parse_diag (['I', 'n', 'f', 'i', 'n', 'i', 't', 'y'] ++ ['_', '1']) =
        .ok (.float .inf .sixteen) ∧
      parse_diag (['I', 'n', 'f', 'i', 'n', 'i', 't', 'y'] ++ ['_', '2']) =
        .ok (.float .inf .thirtyTwo) ∧
      parse_diag (['I', 'n', 'f', 'i', 'n', 'i', 't', 'y'] ++ ['_', '3']) =
        .ok (.float .inf .sixtyFour) ∧
      parse_diag (['I', 'n', 'f', 'i', 'n', 'i', 't', 'y'] ++ ['_', '0']) =
        .error (.remainingText ['_', '0'])) ∧
    (parse_diag ['-', 'I', 'n', 'f', 'i', 'n', 'i', 't', 'y'] = .ok (.float .negInf .unknown) ∧
      parse_diag (['-', 'I', 'n', 'f', 'i', 'n', 'i', 't', 'y'] ++ ['_', '1']) =
        .ok (.float .negInf .sixteen) ∧
      parse_diag (['-', 'I', 'n', 'f', 'i', 'n', 'i', 't', 'y'] ++ ['_', '2']) =
        .ok (.float .negInf .thirtyTwo) ∧
      parse_diag (['-', 'I', 'n', 'f', 'i', 'n', 'i', 't', 'y'] ++ ['_', '3']) =
        .ok (.float .negInf .sixtyFour) ∧
      parse_diag (['-', 'I', 'n', 'f', 'i', 'n', 'i', 't', 'y'] ++ ['_', '0']) =
        .error (.remainingText ['_', '0'])) ∧
    (parse_diag ['N', 'a', 'N'] = .ok (.float .nan .unknown) ∧
      parse_diag (['N', 'a', 'N'] ++ ['_', '1']) = .ok (.float .nan .sixteen) ∧
      parse_diag (['N', 'a', 'N'] ++ ['_', '2']) = .ok (.float .nan .thirtyTwo) ∧
      parse_diag (['N', 'a', 'N'] ++ ['_', '3']) = .ok (.float .nan .sixtyFour) ∧
      parse_diag (['N', 'a', 'N'] ++ ['_', '0']) = .error (.remainingText ['_', '0'])) := by
  refine ⟨?_, ?_, ?_, ?_⟩
  · intro sg d1 d2 ex hsg h1 h2 hex
    apply parse_float_lit
    · intro r hmem
      apply float_value_decimal hsg h1 h2 hex
      · rcases hmem with rfl | rfl | rfl | rfl | rfl
        · exact notDigitStart_nil
        all_goals exact notDigitStart_cons _ (by decide)
      · rcases hmem with rfl | rfl | rfl | rfl | rfl
        · exact head_none_nil
        all_goals exact head_cons_prop _ (by decide)
    · rcases hsg with rfl | rfl | rfl
      · obtain ⟨hne, hall⟩ := h1
        cases d1 with
        | nil => exact absurd rfl hne
        | cons a t =>
          refine ⟨a, t ++ '.' :: (d2 ++ ex), ?_,
            isMS_false_of_digit (hall a (List.mem_cons_self a t))⟩
          simp [floatLit]
      · refine ⟨'+', d1 ++ '.' :: (d2 ++ ex), ?_, by decide⟩
        simp [floatLit]
      · refine ⟨'-', d1 ++ '.' :: (d2 ++ ex), ?_, by decide⟩
        simp [floatLit]
  · exact parse_float_lit (fun r _ => float_value_inf r) ⟨'I', _, rfl, by decide⟩
  · exact parse_float_lit (fun r _ => float_value_neginf r) ⟨'-', _, rfl, by decide⟩
  · exact parse_float_lit (fun r _ => float_value_nan r) ⟨'N', _, rfl, by decide⟩

theorem claim_C5_witness :
    parse_diag ['0', '.', '5'] = .ok (.float (.num ['0', '.', '5']) .unknown) ∧
    parse_diag ['1', '.', '5', '_', '2'] = .ok (.float (.num ['1', '.', '5']) .thirtyTwo) ∧
    parse_diag ['1', '.', '5', '_', '0'] = .error (.remainingText ['_', '0']) ∧
    parse_diag ['N', 'a', 'N', '_', '1'] = .ok (.float .nan .sixteen) := by
  have h05 := (claim_C5.1 [] ['0'] ['5'] [] (Or.inl rfl) ⟨by decide, by decide⟩
    ⟨by decide, by decide⟩ (Or.inl rfl)).1
  have h15 := claim_C5.1 [] ['1'] ['5'] [] (Or.inl rfl) ⟨by decide, by decide⟩
    ⟨by decide, by decide⟩ (Or.inl rfl)
  have hnan := (claim_C5.2.2.2).2.1
  refine ⟨?_, ?_, ?_, ?_⟩
  · simpa [floatLit] using h05
  · simpa [floatLit] using h15.2.2.1
  · simpa [floatLit] using h15.2.2.2.2
  · simpa using hnan

/-! ### Encoded byte-string literal forms -/

theorem eq_append_of_isPrefixOf : ∀ {t x : List Char}, t.isPrefixOf x = true →
    x = t ++ x.drop t.length := by
  intro t
  induction t with
  | nil => intro x _; simp
  | cons a t ih =>
    intro x h
    cases x with
    | nil => simp [List.isPrefixOf] at h
    | cons b x' =>
      simp only [List.isPrefixOf, Bool.and_eq_true, beq_iff_eq] at h
      obtain ⟨hab, h2⟩ := h
      subst hab
      simpa [List.drop] using ih h2

theorem ptag_inv {t x u r : List Char} (h : ptag t x = some (u, r)) :
    u = t ∧ x = t ++ r := by
  unfold ptag at h
  split at h
  · rename_i hpre
    rw [Option.some.injEq, Prod.mk.injEq] at h
    refine ⟨h.1.symm, ?_⟩
    rw [← h.2]
    exact eq_append_of_isPrefixOf hpre
  · exact absurd h (by simp)

theorem mem_takeWhile_pred {p : Char → Bool} : ∀ {l : List Char} {a : Char},
    a ∈ l.takeWhile p → p a = true := by
  intro l
  induction l with
  | nil => intro a ha; simp at ha
  | cons b t ih =>
    intro a ha
    rw [List.takeWhile_cons] at ha
    by_cases hb : p b
    · rw [if_pos hb] at ha
      rcases List.mem_cons.mp ha with rfl | ha2
      · exact hb
      · exact ih ha2
    · rw [if_neg hb] at ha
      simp at ha

/-- Run an encoded form over its exact literal shape. -/
theorem encForm_run {pre : List Char} {munch : Char → Bool}
    {dec : List Char → Option (List Nat)} {t r : List Char}
    (ht : ∀ c ∈ t, munch c = true) (hq : munch '\'' = false) :
    encForm pre munch dec (pre ++ '\'' :: (t ++ '\'' :: r)) =
      match dec t with
      | some bs => some (bs, r)
      | none => none := by
  have h0 : ptag pre (pre ++ '\'' :: (t ++ '\'' :: r)) =
      some (pre, '\'' :: (t ++ '\'' :: r)) := ptag_run_tag pre _
  have h1 : ptag ['\''] ('\'' :: (t ++ '\'' :: r)) = some (['\''], t ++ '\'' :: r) :=
    ptag_run_tag ['\''] _
  have hqh : ∀ a ∈ ('\'' :: r).head?, munch a = false := head_cons_prop r hq
  have h2 : (t ++ '\'' :: r).takeWhile munch = t := takeWhile_run ht hqh
  have h3 : (t ++ '\'' :: r).dropWhile munch = '\'' :: r := dropWhile_run ht hqh
  have h4 : ptag ['\''] ('\'' :: r) = some (['\''], r) := ptag_run_tag ['\''] r
  unfold encForm
  simp only [h0, h1, h2, h3, h4]

/-- An encoded form fails when the body reaches a character outside the
recognizer class before the closing quote. -/
theorem encForm_fail_stop {pre : List Char} {munch : Char → Bool}
    {dec : List Char → Option (List Nat)} {t1 t2 r : List Char} {c0 : Char}
    (ht1 : ∀ c ∈ t1, munch c = true) (hc0 : munch c0 = false) (hc0q : c0 ≠ '\'') :
    encForm pre munch dec (pre ++ '\'' :: (t1 ++ c0 :: (t2 ++ '\'' :: r))) = none := by
  have h0 : ptag pre (pre ++ '\'' :: (t1 ++ c0 :: (t2 ++ '\'' :: r))) =
      some (pre, '\'' :: (t1 ++ c0 :: (t2 ++ '\'' :: r))) := ptag_run_tag pre _
  have h1 : ptag ['\''] ('\'' :: (t1 ++ c0 :: (t2 ++ '\'' :: r))) =
      some (['\''], t1 ++ c0 :: (t2 ++ '\'' :: r)) := ptag_run_tag ['\''] _
  have hstop : ∀ a ∈ (c0 :: (t2 ++ '\'' :: r)).head?, munch a = false := head_cons_prop _ hc0
  have h3 : (t1 ++ c0 :: (t2 ++ '\'' :: r)).dropWhile munch = c0 :: (t2 ++ '\'' :: r) :=
    dropWhile_run ht1 hstop
  have h4 : ptag ['\''] (c0 :: (t2 ++ '\'' :: r)) = none :=
    ptag_ne_head _ _ (Ne.symm hc0q)
  unfold encForm
  simp only [h0, h1, h3, h4]

/-! ### Whitespace filtering facts -/

theorem mem_filterWS {c : Char} {t : List Char} :
    c ∈ filterWS t ↔ c ∈ t ∧ isWS5 c = false := by
  simp [filterWS, List.mem_filter]

theorem filterWS_idem (t : List Char) : filterWS (filterWS t) = filterWS t := by
  unfold filterWS
  induction t with
  | nil => rfl
  | cons a s ih =>
    by_cases h : isWS5 a
    · simp only [List.filter_cons, h, Bool.not_true, ite_false]
      exact ih
    · simp only [List.filter_cons, eq_false_of_ne_true (by simpa using h), Bool.not_false,
        ite_true]
      rw [ih]

theorem all_filterWS {p : Char → Bool} (hws : ∀ c, isWS5 c = true → p c = true)
    (t : List Char) : t.all p = (filterWS t).all p := by
  unfold filterWS
  induction t with
  | nil => rfl
  | cons a s ih =>
    by_cases h : isWS5 a
    · simp only [List.filter_cons, h, Bool.not_true, ite_false, List.all_cons, hws a h,
        Bool.true_and]
      exact ih
    · simp only [List.filter_cons, eq_false_of_ne_true (by simpa using h), Bool.not_false,
        ite_true, List.all_cons]
      rw [ih]

/-! ### The four encoded byte-string literal kinds -/

/-- The four binary-to-text literal kinds of the grammar. -/
inductive BKind
  | b16
  | b32k
  | b32h
  | b64k
deriving DecidableEq, Repr

/-- The marker before the opening quote. -/
def bkPre : BKind → List Char
  | .b16 => ['h']
  | .b32k => ['b', '3', '2']
  | .b32h => ['h', '3', '2']
  | .b64k => ['b', '6', '4']

/-- The non-whitespace characters tolerated inside the body. -/
def bkAlph : BKind → Char → Bool
  | .b16 => fun c => ('0' ≤ c && c ≤ '9') || ('A' ≤ c && c ≤ 'F') || ('a' ≤ c && c ≤ 'f')
  | .b32k => fun c => ('A' ≤ c && c ≤ 'Z') || ('2' ≤ c && c ≤ '7') || c = '='
  | .b32h => fun c => ('0' ≤ c && c ≤ '9') || ('A' ≤ c && c ≤ 'V') || c = '='
  | .b64k => fun c => c.isAlphanum || c = '+' || c = '/' || c = '=' || c = '-' || c = '_'

/-- The text of an encoded byte-string literal with body `t`. -/
def bkLit (k : BKind) (t : List Char) : List Char := bkPre k ++ '\'' :: (t ++ ['\''])

theorem b16_class {c : Char} (h : bkAlph .b16 c = true ∨ isWS5 c = true) :
    isBase16Digit c = true := by
  unfold bkAlph at h
  unfold isBase16Digit
  simp only [Bool.or_eq_true] at h ⊢
  tauto

theorem b32_class {c : Char} (h : bkAlph .b32k c = true ∨ isWS5 c = true) :
    isBase32Digit c = true := by
  unfold bkAlph at h
  unfold isBase32Digit
  simp only [Bool.or_eq_true, decide_eq_true_eq] at h ⊢
  tauto

theorem b32h_class {c : Char} (h : bkAlph .b32h c = true ∨ isWS5 c = true) :
    isBase32hexDigit c = true := by
  unfold bkAlph at h
  unfold isBase32hexDigit
  simp only [Bool.or_eq_true, decide_eq_true_eq] at h ⊢
  tauto

theorem b64_class {c : Char} (h : bkAlph .b64k c = true ∨ isWS5 c = true) :
    isBase64urlDigit c = true ∨ isBase64Digit c = true := by
  unfold bkAlph at h
  unfold isBase64urlDigit isBase64Digit
  simp only [Bool.or_eq_true, decide_eq_true_eq] at h ⊢
  tauto

theorem encForm_fail_tag {pre x : List Char} (munch : Char → Bool)
    (dec : List Char → Option (List Nat)) (h : ptag pre x = none) :
    encForm pre munch dec x = none := by
  unfold encForm
  simp only [h]

theorem rawByteForm_fail_tag {x : List Char} (h : ptag ['\''] x = none) :
    rawByteForm x = none := by
  unfold rawByteForm
  simp only [h]

theorem encForm_fail_quote {pre x r2 : List Char} (munch : Char → Bool)
    (dec : List Char → Option (List Nat)) (h0 : ptag pre x = some (pre, r2))
    (h : ptag ['\''] r2 = none) : encForm pre munch dec x = none := by
  unfold encForm
  simp only [h0, h]

theorem dbs_b16 {t : List Char} (ht : ∀ c ∈ t, isBase16Digit c = true) :
    definite_bytestring (bkLit .b16 t) =
      match base16Decode t with
      | some bs => some (bs, [])
      | none => none := by
  have hb : bkLit .b16 t = 'h' :: '\'' :: (t ++ ['\'']) := rfl
  have hrun : encForm ['h'] isBase16Digit base16Decode ('h' :: '\'' :: (t ++ ['\''])) =
      match base16Decode t with
      | some bs => some (bs, [])
      | none => none :=
    encForm_run ht (by decide)
  have g2 : encForm ['b', '3', '2'] isBase32Digit base32Decode
      ('h' :: '\'' :: (t ++ ['\''])) = none :=
    encForm_fail_tag _ _ (ptag_ne_head _ _ (by decide))
  have g3 : encForm ['h', '3', '2'] isBase32hexDigit base32hexDecode
      ('h' :: '\'' :: (t ++ ['\''])) = none :=
    encForm_fail_tag _ _ (ptag_ne_second _ _ (by decide))
  have g4 : encForm ['b', '6', '4'] isBase64urlDigit base64urlDecode
      ('h' :: '\'' :: (t ++ ['\''])) = none :=
    encForm_fail_tag _ _ (ptag_ne_head _ _ (by decide))
  have g5 : encForm ['b', '6', '4'] isBase64Digit base64Decode
      ('h' :: '\'' :: (t ++ ['\''])) = none :=
    encForm_fail_tag _ _ (ptag_ne_head _ _ (by decide))
  have hstrip : ('h' :: '\'' :: (t ++ ['\''])).dropWhile isMS =
      'h' :: '\'' :: (t ++ ['\'']) := dropWhile_cons_false _ (by decide)
  have graw : rawByteForm ('h' :: '\'' :: (t ++ ['\''])) = none :=
    rawByteForm_fail_tag (ptag_ne_head _ _ (by decide))
  rw [hb]
  unfold definite_bytestring wrapws palt
  rw [hstrip]
  cases hdec : base16Decode t with
  | none => simp only [hrun, hdec, g2, g3, g4, g5, graw]
  | some bs => simp only [hrun, hdec]; rfl

theorem dbs_b32 {t : List Char} (ht : ∀ c ∈ t, isBase32Digit c = true) :
    definite_bytestring (bkLit .b32k t) =
      match base32Decode t with
      | some bs => some (bs, [])
      | none => none := by
  have hb : bkLit .b32k t = 'b' :: '3' :: '2' :: '\'' :: (t ++ ['\'']) := rfl
  have hrun : encForm ['b', '3', '2'] isBase32Digit base32Decode
      ('b' :: '3' :: '2' :: '\'' :: (t ++ ['\''])) =
      match base32Decode t with
      | some bs => some (bs, [])
      | none => none :=
    encForm_run ht (by decide)
  have g1 : encForm ['h'] isBase16Digit base16Decode
      ('b' :: '3' :: '2' :: '\'' :: (t ++ ['\''])) = none :=
    encForm_fail_tag _ _ (ptag_ne_head _ _ (by decide))
  have g3 : encForm ['h', '3', '2'] isBase32hexDigit base32hexDecode
      ('b' :: '3' :: '2' :: '\'' :: (t ++ ['\''])) = none :=
    encForm_fail_tag _ _ (ptag_ne_head _ _ (by decide))
  have g4 : encForm ['b', '6', '4'] isBase64urlDigit base64urlDecode
      ('b' :: '3' :: '2' :: '\'' :: (t ++ ['\''])) = none :=
    encForm_fail_tag _ _ (ptag_ne_second _ _ (by decide))
  have g5 : encForm ['b', '6', '4'] isBase64Digit base64Decode
      ('b' :: '3' :: '2' :: '\'' :: (t ++ ['\''])) = none :=
    encForm_fail_tag _ _ (ptag_ne_second _ _ (by decide))
  have hstrip : ('b' :: '3' :: '2' :: '\'' :: (t ++ ['\''])).dropWhile isMS =
      'b' :: '3' :: '2' :: '\'' :: (t ++ ['\'']) := dropWhile_cons_false _ (by decide)
  have graw : rawByteForm ('b' :: '3' :: '2' :: '\'' :: (t ++ ['\''])) = none :=
    rawByteForm_fail_tag (ptag_ne_head _ _ (by decide))
  rw [hb]
  unfold definite_bytestring wrapws palt
  rw [hstrip]
  cases hdec : base32Decode t with
  | none => simp only [hrun, hdec, g1, g3, g4, g5, graw]
  | some bs => simp only [hrun, hdec, g1]; rfl

theorem dbs_b32h {t : List Char} (ht : ∀ c ∈ t, isBase32hexDigit c = true) :
    definite_bytestring (bkLit .b32h t) =
      match base32hexDecode t with
      | some bs => some (bs, [])
      | none => none := by
  have hb : bkLit .b32h t = 'h' :: '3' :: '2' :: '\'' :: (t ++ ['\'']) := rfl
  have hrun : encForm ['h', '3', '2'] isBase32hexDigit base32hexDecode
      ('h' :: '3' :: '2' :: '\'' :: (t ++ ['\''])) =
      match base32hexDecode t with
      | some bs => some (bs, [])
      | none => none :=
    encForm_run ht (by decide)
  have g1 : encForm ['h'] isBase16Digit base16Decode
      ('h' :: '3' :: '2' :: '\'' :: (t ++ ['\''])) = none :=
    encForm_fail_quote _ _ (ptag_run_tag ['h'] ('3' :: '2' :: '\'' :: (t ++ ['\''])))
      (ptag_ne_head _ _ (by decide))
  have g2 : encForm ['b', '3', '2'] isBase32Digit base32Decode
      ('h' :: '3' :: '2' :: '\'' :: (t ++ ['\''])) = none :=
    encForm_fail_tag _ _ (ptag_ne_head _ _ (by decide))
  have g4 : encForm ['b', '6', '4'] isBase64urlDigit base64urlDecode
      ('h' :: '3' :: '2' :: '\'' :: (t ++ ['\''])) = none :=
    encForm_fail_tag _ _ (ptag_ne_head _ _ (by decide))
  have g5 : encForm ['b', '6', '4'] isBase64Digit base64Decode
      ('h' :: '3' :: '2' :: '\'' :: (t ++ ['\''])) = none :=
    encForm_fail_tag _ _ (ptag_ne_head _ _ (by decide))
  have hstrip : ('h' :: '3' :: '2' :: '\'' :: (t ++ ['\''])).dropWhile isMS =
      'h' :: '3' :: '2' :: '\'' :: (t ++ ['\'']) := dropWhile_cons_false _ (by decide)
  have graw : rawByteForm ('h' :: '3' :: '2' :: '\'' :: (t ++ ['\''])) = none :=
    rawByteForm_fail_tag (ptag_ne_head _ _ (by decide))
  rw [hb]
  unfold definite_bytestring wrapws palt
  rw [hstrip]
  cases hdec : base32hexDecode t with
  | none => simp only [hrun, hdec, g1, g2, g4, g5, graw]
  | some bs => simp only [hrun, hdec, g1, g2]; rfl

theorem exists_first_not {p : Char → Bool} : ∀ {t : List Char}, ¬ t.all p = true →
    ∃ t1 c0 t2, t = t1 ++ c0 :: t2 ∧ (∀ c ∈ t1, p c = true) ∧ p c0 = false := by
  intro t
  induction t with
  | nil => intro h; simp at h
  | cons a s ih =>
    intro h
    by_cases ha : p a = true
    · have hs : ¬ s.all p = true := by
        intro hs
        exact h (by simp [List.all_cons, ha, hs])
      obtain ⟨t1, c0, t2, heq, h1, h2⟩ := ih hs
      exact ⟨a :: t1, c0, t2, by rw [heq]; rfl, by
        intro c hc
        rcases List.mem_cons.mp hc with rfl | hc2
        · exact ha
        · exact h1 c hc2, h2⟩
    · exact ⟨[], a, s, rfl, by intro c hc; simp at hc,
        eq_false_of_ne_true ha⟩

theorem dbs_b64 {t : List Char} (ht : ∀ c ∈ t, bkAlph .b64k c = true ∨ isWS5 c = true) :
    definite_bytestring (bkLit .b64k t) =
      if t.all isBase64urlDigit then
        match base64urlDecode t with
        | some bs => some (bs, [])
        | none =>
          if t.all isBase64Digit then
            match base64Decode t with
            | some bs => some (bs, [])
            | none => none
          else none
      else if t.all isBase64Digit then
        match base64Decode t with
        | some bs => some (bs, [])
        | none => none
      else none := by
  have hb : bkLit .b64k t = 'b' :: '6' :: '4' :: '\'' :: (t ++ ['\'']) := rfl
  have hquote : ∀ c ∈ t, c ≠ '\'' := by
    intro c hc he
    subst he
    rcases ht _ hc with h | h
    · exact absurd h (by decide)
    · exact absurd h (by decide)
  have g1 : encForm ['h'] isBase16Digit base16Decode
      ('b' :: '6' :: '4' :: '\'' :: (t ++ ['\''])) = none :=
    encForm_fail_tag _ _ (ptag_ne_head _ _ (by decide))
  have g2 : encForm ['b', '3', '2'] isBase32Digit base32Decode
      ('b' :: '6' :: '4' :: '\'' :: (t ++ ['\''])) = none :=
    encForm_fail_tag _ _ (ptag_ne_second _ _ (by decide))
  have g3 : encForm ['h', '3', '2'] isBase32hexDigit base32hexDecode
      ('b' :: '6' :: '4' :: '\'' :: (t ++ ['\''])) = none :=
    encForm_fail_tag _ _ (ptag_ne_head _ _ (by decide))
  have graw : rawByteForm ('b' :: '6' :: '4' :: '\'' :: (t ++ ['\''])) = none :=
    rawByteForm_fail_tag (ptag_ne_head _ _ (by decide))
  have hstrip : ('b' :: '6' :: '4' :: '\'' :: (t ++ ['\''])).dropWhile isMS =
      'b' :: '6' :: '4' :: '\'' :: (t ++ ['\'']) := dropWhile_cons_false _ (by decide)
  have hform4 : encForm ['b', '6', '4'] isBase64urlDigit base64urlDecode
      ('b' :: '6' :: '4' :: '\'' :: (t ++ ['\''])) =
      if t.all isBase64urlDigit then
        match base64urlDecode t with
        | some bs => some (bs, [])
        | none => none
      else none := by
    by_cases hu : t.all isBase64urlDigit = true
    · rw [if_pos hu]
      exact encForm_run
        (fun c hc => List.all_eq_true.mp hu c hc) (by decide)
    · rw [if_neg hu]
      obtain ⟨t1, c0, t2, heq, h1, h2⟩ := exists_first_not hu
      have h64 : encForm ['b', '6', '4'] isBase64urlDigit base64urlDecode
          (['b', '6', '4'] ++ '\'' :: (t1 ++ c0 :: (t2 ++ '\'' :: []))) = none :=
        encForm_fail_stop h1 h2 (hquote c0 (by rw [heq]; simp))
      have hshape : 'b' :: '6' :: '4' :: '\'' :: (t ++ ['\'']) =
          ['b', '6', '4'] ++ '\'' :: (t1 ++ c0 :: (t2 ++ '\'' :: [])) := by
        rw [heq]
        simp
      rw [hshape]
      exact h64
  have hform5 : encForm ['b', '6', '4'] isBase64Digit base64Decode
      ('b' :: '6' :: '4' :: '\'' :: (t ++ ['\''])) =
      if t.all isBase64Digit then
        match base64Decode t with
        | some bs => some (bs, [])
        | none => none
      else none := by
    by_cases hs : t.all isBase64Digit = true
    · rw [if_pos hs]
      exact encForm_run
        (fun c hc => List.all_eq_true.mp hs c hc) (by decide)
    · rw [if_neg hs]
      obtain ⟨t1, c0, t2, heq, h1, h2⟩ := exists_first_not hs
      have h64 : encForm ['b', '6', '4'] isBase64Digit base64Decode
          (['b', '6', '4'] ++ '\'' :: (t1 ++ c0 :: (t2 ++ '\'' :: []))) = none :=
        encForm_fail_stop h1 h2 (hquote c0 (by rw [heq]; simp))
      have hshape : 'b' :: '6' :: '4' :: '\'' :: (t ++ ['\'']) =
          ['b', '6', '4'] ++ '\'' :: (t1 ++ c0 :: (t2 ++ '\'' :: [])) := by
        rw [heq]
        simp
      rw [hshape]
      exact h64
  rw [hb]
  unfold definite_bytestring wrapws palt
  rw [hstrip]
  simp only [g1, g2, g3, hform4, hform5]
  by_cases hu : t.all isBase64urlDigit = true
  · rw [if_pos hu, if_pos hu]
    cases hdu : base64urlDecode t with
    | some bs => rfl
    | none =>
      by_cases hs : t.all isBase64Digit = true
      · rw [if_pos hs]
        cases hds : base64Decode t with
        | some bs => rfl
        | none => simp only [graw]
      · rw [if_neg hs]
        simp only [graw]
  · rw [if_neg hu, if_neg hu]
    by_cases hs : t.all isBase64Digit = true
    · rw [if_pos hs]
      cases hds : base64Decode t with
      | some bs => rfl
      | none => simp only [graw]
    · rw [if_neg hs]
      simp only [graw]

/-- C6: inside a base16, base32, base32hex or base64 literal body, embedded
codec-tolerated whitespace does not change the parse: the literal decodes
exactly as the same literal with all whitespace removed. -/
theorem claim_C6 (k : BKind) (t : List Char)
    (ht : ∀ c ∈ t, bkAlph k c = true ∨ isWS5 c = true) :
    definite_bytestring (bkLit k t) = definite_bytestring (bkLit k (filterWS t)) := by
  have htf : ∀ c ∈ filterWS t, bkAlph k c = true ∨ isWS5 c = true := fun c hc =>
    ht c (mem_filterWS.mp hc).1
  cases k with
  | b16 =>
    rw [dbs_b16 (fun c hc => b16_class (ht c hc)),
      dbs_b16 (fun c hc => b16_class (htf c hc))]
    have h : base16Decode (filterWS t) = base16Decode t := by
      unfold base16Decode
      rw [filterWS_idem]
    rw [h]
  | b32k =>
    rw [dbs_b32 (fun c hc => b32_class (ht c hc)),
      dbs_b32 (fun c hc => b32_class (htf c hc))]
    have h : base32Decode (filterWS t) = base32Decode t := by
      unfold base32Decode
      rw [filterWS_idem]
    rw [h]
  | b32h =>
    rw [dbs_b32h (fun c hc => b32h_class (ht c hc)),
      dbs_b32h (fun c hc => b32h_class (htf c hc))]
    have h : base32hexDecode (filterWS t) = base32hexDecode t := by
      unfold base32hexDecode
      rw [filterWS_idem]
    rw [h]
  | b64k =>
    rw [dbs_b64 ht, dbs_b64 htf]
    have hd1 : base64urlDecode (filterWS t) = base64urlDecode t := by
      unfold base64urlDecode
      rw [filterWS_idem]
    have hd2 : base64Decode (filterWS t) = base64Decode t := by
      unfold base64Decode
      rw [filterWS_idem]
    have ha1 : (filterWS t).all isBase64urlDigit = t.all isBase64urlDigit :=
      (all_filterWS (fun c h => by unfold isBase64urlDigit; simp [h]) t).symm
    have ha2 : (filterWS t).all isBase64Digit = t.all isBase64Digit :=
      (all_filterWS (fun c h => by unfold isBase64Digit; simp [h]) t).symm
    rw [hd1, hd2, ha1, ha2]

theorem claim_C6_witness :
    (∀ c ∈ ('4' :: '8' :: ' ' :: '6' :: '5' :: ' ' :: '6' :: 'c' :: ' ' :: '6' :: 'c' ::
        ' ' :: '6' :: 'f' :: []), bkAlph .b16 c = true ∨ isWS5 c = true) ∧
    definite_bytestring (bkLit .b16 ('4' :: '8' :: ' ' :: '6' :: '5' :: ' ' :: '6' ::
        'c' :: ' ' :: '6' :: 'c' :: ' ' :: '6' :: 'f' :: [])) =
      definite_bytestring (bkLit .b16 (filterWS ('4' :: '8' :: ' ' :: '6' :: '5' :: ' ' ::
        '6' :: 'c' :: ' ' :: '6' :: 'c' :: ' ' :: '6' :: 'f' :: []))) ∧
    definite_bytestring (bkLit .b16 ('4' :: '8' :: ' ' :: '6' :: '5' :: ' ' :: '6' ::
        'c' :: ' ' :: '6' :: 'c' :: ' ' :: '6' :: 'f' :: [])) =
      some ([72, 101, 108, 108, 111], []) := by
  refine ⟨?_, claim_C6 .b16 _ ?_, by rfl⟩
  · decide
  · decide

/-! ### Extension of a successful definite byte-string parse -/

theorem ne_of_pred {p : Char → Bool} {a c : Char} (h : p a = true) (hc : p c = false) :
    a ≠ c := by
  intro e
  rw [e, hc] at h
  exact Bool.noConfusion h

theorem all_of_dropWhile_nil {p : Char → Bool} : ∀ {l : List Char}, l.dropWhile p = [] →
    ∀ c ∈ l, p c = true := by
  intro l
  induction l with
  | nil => intro _ c hc; simp at hc
  | cons a t ih =>
    intro h c hc
    rw [List.dropWhile_cons] at h
    by_cases ha : p a = true
    · rw [if_pos ha] at h
      rcases List.mem_cons.mp hc with rfl | hc2
      · exact ha
      · exact ih h c hc2
    · rw [if_neg (by simpa using ha)] at h
      exact absurd h (by simp)

theorem dropWhile_append_of_ne_nil {p : Char → Bool} {x : List Char} (y : List Char)
    (hne : x.dropWhile p ≠ []) : (x ++ y).dropWhile p = x.dropWhile p ++ y := by
  induction x with
  | nil => simp at hne
  | cons a t ih =>
    by_cases h : p a = true
    · simp only [List.dropWhile_cons, h, if_true] at hne
      simp only [List.cons_append, List.dropWhile_cons, h, if_true]
      exact ih hne
    · have h' : p a = false := by simpa using h
      simp only [List.cons_append, List.dropWhile_cons, h']
      simp

theorem escTrans_append {q : Char} (y : List Char) :
    ∀ n (z o rm : List Char), z.length ≤ n → escTrans q z = (o, rm) →
      rm.head? = some q → escTrans q (z ++ y) = (o, rm ++ y) := by
  intro n
  induction n with
  | zero =>
    intro z o rm hlen h hq
    have hz : z = [] := List.length_eq_zero.mp (Nat.le_zero.mp hlen)
    subst hz
    simp only [escTrans] at h
    rw [Prod.mk.injEq] at h
    obtain ⟨rfl, rfl⟩ := h
    simp at hq
  | succ n ih =>
    intro z o rm hlen h hq
    match z with
    | [] =>
      simp only [escTrans] at h
      rw [Prod.mk.injEq] at h
      obtain ⟨rfl, rfl⟩ := h
      simp at hq
    | [a] =>
      simp only [escTrans] at h
      by_cases hg : a = '\\' ∨ a = q
      · rw [if_pos hg, Prod.mk.injEq] at h
        obtain ⟨rfl, rfl⟩ := h
        have ha : a = q := by simpa using hq
        subst ha
        cases y with
        | nil => simp [escTrans, hg]
        | cons c y2 =>
          show escTrans a (a :: c :: y2) = ([], a :: c :: y2)
          simp [escTrans]
      · rw [if_neg hg, Prod.mk.injEq] at h
        obtain ⟨rfl, rfl⟩ := h
        simp at hq
    | a :: c :: z2 =>
      by_cases hg1 : a = q
      · subst hg1
        simp only [escTrans, if_pos rfl] at h
        have ho : ([] : List Char) = o := congrArg Prod.fst h
        have hrm : a :: c :: z2 = rm := congrArg Prod.snd h
        subst ho
        subst hrm
        show escTrans a (a :: c :: (z2 ++ y)) = ([], a :: c :: z2 ++ y)
        simp [escTrans]
      · by_cases hg2 : a = '\\'
        · subst hg2
          by_cases hg3 : c = '\\' ∨ c = q
          · obtain ⟨o2, rm2, hz2⟩ : ∃ o2 rm2, escTrans q z2 = (o2, rm2) := ⟨_, _, rfl⟩
            simp only [escTrans, if_neg hg1, if_pos rfl, if_pos hg3, hz2] at h
            have ho : c :: o2 = o := congrArg Prod.fst h
            have hrm : rm2 = rm := congrArg Prod.snd h
            subst ho
            subst hrm
            have hlen2 : z2.length ≤ n := by
              simp only [List.length_cons] at hlen
              omega
            have hext := ih z2 o2 rm2 hlen2 hz2 hq
            show escTrans q ('\\' :: c :: (z2 ++ y)) = (c :: o2, rm2 ++ y)
            simp only [escTrans, if_neg hg1, if_pos rfl, if_pos hg3, hext, if_true]
          · simp only [escTrans, if_neg hg1, if_pos rfl, if_neg hg3] at h
            have hrm : '\\' :: c :: z2 = rm := congrArg Prod.snd h
            rw [← hrm, List.head?_cons, Option.some.injEq] at hq
            exact absurd hq hg1
        · obtain ⟨o2, rm2, hz2⟩ : ∃ o2 rm2, escTrans q (c :: z2) = (o2, rm2) := ⟨_, _, rfl⟩
          simp only [escTrans, if_neg hg1, if_neg hg2, hz2] at h
          have ho : a :: o2 = o := congrArg Prod.fst h
          have hrm : rm2 = rm := congrArg Prod.snd h
          subst ho
          subst hrm
          have hlen2 : (c :: z2).length ≤ n := by
            simp only [List.length_cons] at hlen ⊢
            omega
          have hext := ih (c :: z2) o2 rm2 hlen2 hz2 hq
          show escTrans q (a :: c :: (z2 ++ y)) = (a :: o2, rm2 ++ y)
          have hcz : (c :: z2) ++ y = c :: (z2 ++ y) := rfl
          simp only [escTrans, if_neg hg1, if_neg hg2]
          rw [← hcz, hext]

theorem encForm_inv {pre : List Char} {munch : Char → Bool}
    {dec : List Char → Option (List Nat)} {x : List Char} {b : List Nat} {r : List Char}
    (h : encForm pre munch dec x = some (b, r)) :
    ∃ body, x = pre ++ '\'' :: (body ++ '\'' :: r) ∧ (∀ c ∈ body, munch c = true) ∧
      dec body = some b := by
  unfold encForm at h
  cases h0 : ptag pre x with
  | none => simp only [h0] at h; exact Option.noConfusion h
  | some pr =>
    obtain ⟨u0, r1⟩ := pr
    simp only [h0] at h
    obtain ⟨hu0, hx1⟩ := ptag_inv h0
    subst hu0
    cases h1 : ptag ['\''] r1 with
    | none => simp only [h1] at h; exact Option.noConfusion h
    | some qr =>
      obtain ⟨u1, r2⟩ := qr
      simp only [h1] at h
      obtain ⟨hu1, hr1⟩ := ptag_inv h1
      subst hu1
      cases h2 : ptag ['\''] (r2.dropWhile munch) with
      | none => simp only [h2] at h; exact Option.noConfusion h
      | some qr2 =>
        obtain ⟨u2, r4⟩ := qr2
        simp only [h2] at h
        obtain ⟨hu2, hr2⟩ := ptag_inv h2
        subst hu2
        cases h3 : dec (r2.takeWhile munch) with
        | none => simp only [h3] at h; exact Option.noConfusion h
        | some bs =>
          simp only [h3] at h
          have hpair : (bs, r4) = (b, r) := Option.some.inj h
          have hb : bs = b := congrArg Prod.fst hpair
          have hr4 : r4 = r := congrArg Prod.snd hpair
          refine ⟨r2.takeWhile munch, ?_, fun c hc => mem_takeWhile_pred hc,
            by rw [h3, hb]⟩
          have hr2' : r2 = r2.takeWhile munch ++ '\'' :: r := by
            rw [← hr4]
            exact (List.takeWhile_append_dropWhile munch r2).symm.trans
              (by rw [hr2]; rfl)
          rw [hx1, hr1]
          conv_lhs => rw [hr2']
          rfl

theorem encForm_append {pre : List Char} {munch : Char → Bool}
    {dec : List Char → Option (List Nat)} {x : List Char} (y : List Char)
    {b : List Nat} {r : List Char}
    (hq : munch '\'' = false) (h : encForm pre munch dec x = some (b, r)) :
    encForm pre munch dec (x ++ y) = some (b, r ++ y) := by
  obtain ⟨body, rfl, hbody, hdec⟩ := encForm_inv h
  have hrun : encForm pre munch dec (pre ++ '\'' :: (body ++ '\'' :: (r ++ y))) =
      match dec body with
      | some bs => some (bs, r ++ y)
      | none => none := encForm_run hbody hq
  have hshape : (pre ++ '\'' :: (body ++ '\'' :: r)) ++ y =
      pre ++ '\'' :: (body ++ '\'' :: (r ++ y)) := by simp
  rw [hshape, hrun, hdec]

theorem definite_bytestring_nil : definite_bytestring [] = none := rfl

theorem length_dropWhile_le (l : List Char) (p : Char → Bool) :
    (l.dropWhile p).length ≤ l.length := by
  induction l with
  | nil => simp
  | cons a t ih =>
    rw [List.dropWhile_cons]
    by_cases h : p a = true
    · rw [if_pos h]
      exact le_trans ih (by simp)
    · rw [if_neg h]

theorem dropWhile_idem {p : Char → Bool} (x : List Char) :
    (x.dropWhile p).dropWhile p = x.dropWhile p := by
  induction x with
  | nil => rfl
  | cons a t ih =>
    rw [List.dropWhile_cons]
    by_cases h : p a = true
    · rw [if_pos h]
      exact ih
    · rw [if_neg h]
      have h' : p a = false := by simpa using h
      rw [List.dropWhile_cons, h']
      simp

theorem definite_bytestring_strip (x : List Char) :
    definite_bytestring (x.dropWhile isMS) = definite_bytestring x := by
  unfold definite_bytestring wrapws
  rw [dropWhile_idem]

theorem dbs_strip_ne_nil {x : List Char} {b : List Nat} {r : List Char}
    (h : definite_bytestring x = some (b, r)) : x.dropWhile isMS ≠ [] := by
  intro hn
  rw [← definite_bytestring_strip x, hn, definite_bytestring_nil] at h
  exact Option.noConfusion h

theorem rawByteForm_append {x : List Char} (y : List Char) {b : List Nat} {r : List Char}
    (h : rawByteForm x = some (b, r)) :
    rawByteForm (x ++ y) = some (b, r ++ y) := by
  unfold rawByteForm at h ⊢
  cases h0 : ptag ['\''] x with
  | none => simp only [h0] at h; exact Option.noConfusion h
  | some pr =>
    obtain ⟨u1, r1⟩ := pr
    simp only [h0] at h
    obtain ⟨hu1, hx⟩ := ptag_inv h0
    cases h1 : ptag ['\''] (escTrans '\'' r1).2 with
    | none => simp only [h1] at h; exact Option.noConfusion h
    | some qr =>
      obtain ⟨u2, r2⟩ := qr
      simp only [h1] at h
      obtain ⟨hu2, he2⟩ := ptag_inv h1
      have hpair := Option.some.inj h
      have hb : (((escTrans '\'' r1).1.map utf8Encode).flatten) = b :=
        congrArg Prod.fst hpair
      have hr : r2 = r := congrArg Prod.snd hpair
      obtain ⟨o1, rm1, hesc⟩ : ∃ o rm, escTrans '\'' r1 = (o, rm) := ⟨_, _, rfl⟩
      have hrm1 : rm1 = '\'' :: r2 := by
        rw [hesc] at he2
        exact he2
      have hhead : rm1.head? = some '\'' := by rw [hrm1]; rfl
      have hext : escTrans '\'' (r1 ++ y) = (o1, rm1 ++ y) :=
        escTrans_append y r1.length r1 o1 rm1 le_rfl hesc hhead
      have hxy : x ++ y = '\'' :: (r1 ++ y) := by
        rw [hx]
        rfl
      rw [hxy]
      have e2 : ptag ['\''] ('\'' :: (r1 ++ y)) = some (['\''], r1 ++ y) :=
        ptag_run_tag ['\''] (r1 ++ y)
      have e4 : rm1 ++ y = '\'' :: (r2 ++ y) := by rw [hrm1]; rfl
      have e5 : ptag ['\''] ('\'' :: (r2 ++ y)) = some (['\''], r2 ++ y) :=
        ptag_run_tag ['\''] (r2 ++ y)
      simp only [e2, hext, e4, e5]
      have hb' : (o1.map utf8Encode).flatten = b := by rw [hesc] at hb; exact hb
      rw [hb', hr]

theorem rawByteForm_head {x : List Char} {b : List Nat} {r : List Char}
    (h : rawByteForm x = some (b, r)) : ∃ z, x = '\'' :: z := by
  unfold rawByteForm at h
  cases h0 : ptag ['\''] x with
  | none => simp only [h0] at h; exact Option.noConfusion h
  | some pr =>
    obtain ⟨u1, r1⟩ := pr
    obtain ⟨hu1, hx⟩ := ptag_inv h0
    exact ⟨r1, hx⟩

theorem dbs_chain_append {s : List Char} (y : List Char) {b : List Nat} {rb : List Char}
    (hch : palt (encForm ['h'] isBase16Digit base16Decode)
      (palt (encForm ['b', '3', '2'] isBase32Digit base32Decode)
        (palt (encForm ['h', '3', '2'] isBase32hexDigit base32hexDecode)
          (palt (encForm ['b', '6', '4'] isBase64urlDigit base64urlDecode)
            (palt (encForm ['b', '6', '4'] isBase64Digit base64Decode)
              rawByteForm)))) s = some (b, rb)) :
    palt (encForm ['h'] isBase16Digit base16Decode)
      (palt (encForm ['b', '3', '2'] isBase32Digit base32Decode)
        (palt (encForm ['h', '3', '2'] isBase32hexDigit base32hexDecode)
          (palt (encForm ['b', '6', '4'] isBase64urlDigit base64urlDecode)
            (palt (encForm ['b', '6', '4'] isBase64Digit base64Decode)
              rawByteForm)))) (s ++ y) = some (b, rb ++ y) := by
  unfold palt at hch ⊢
  cases h1 : encForm ['h'] isBase16Digit base16Decode s with
  | some p =>
    simp only [h1] at hch
    have hp := Option.some.inj hch
    rw [hp] at h1
    have he := encForm_append y (by decide) h1
    simp only [he]
  | none =>
    simp only [h1] at hch
    cases h2 : encForm ['b', '3', '2'] isBase32Digit base32Decode s with
    | some p =>
      simp only [h2] at hch
      have hp := Option.some.inj hch
      rw [hp] at h2
      have he := encForm_append y (by decide) h2
      obtain ⟨body, hsE, hbody, hdec⟩ := encForm_inv h2
      have e1 : encForm ['h'] isBase16Digit base16Decode (s ++ y) = none := by
        rw [hsE]
        exact encForm_fail_tag _ _ (ptag_ne_head _ _ (by decide))
      simp only [e1, he]
    | none =>
      simp only [h2] at hch
      cases h3 : encForm ['h', '3', '2'] isBase32hexDigit base32hexDecode s with
      | some p =>
        simp only [h3] at hch
        have hp := Option.some.inj hch
        rw [hp] at h3
        have he := encForm_append y (by decide) h3
        obtain ⟨body, hsE, hbody, hdec⟩ := encForm_inv h3
        have e1 : encForm ['h'] isBase16Digit base16Decode (s ++ y) = none := by
          rw [hsE]
          have h0 : ptag ['h'] ((['h', '3', '2'] ++ '\'' :: (body ++ '\'' :: rb)) ++ y) =
              some (['h'], '3' :: '2' :: '\'' :: (body ++ '\'' :: rb) ++ y) :=
            ptag_run_tag ['h'] _
          exact encForm_fail_quote _ _ h0 (ptag_ne_head _ _ (by decide))
        have e2 : encForm ['b', '3', '2'] isBase32Digit base32Decode (s ++ y) = none := by
          rw [hsE]
          exact encForm_fail_tag _ _ (ptag_ne_head _ _ (by decide))
        simp only [e1, e2, he]
      | none =>
        simp only [h3] at hch
        cases h4 : encForm ['b', '6', '4'] isBase64urlDigit base64urlDecode s with
        | some p =>
          simp only [h4] at hch
          have hp := Option.some.inj hch
          rw [hp] at h4
          have he := encForm_append y (by decide) h4
          obtain ⟨body, hsE, hbody, hdec⟩ := encForm_inv h4
          have e1 : encForm ['h'] isBase16Digit base16Decode (s ++ y) = none := by
            rw [hsE]
            exact encForm_fail_tag _ _ (ptag_ne_head _ _ (by decide))
          have e2 : encForm ['b', '3', '2'] isBase32Digit base32Decode (s ++ y) = none := by
            rw [hsE]
            exact encForm_fail_tag _ _ (ptag_ne_second _ _ (by decide))
          have e3 : encForm ['h', '3', '2'] isBase32hexDigit base32hexDecode
              (s ++ y) = none := by
            rw [hsE]
            exact encForm_fail_tag _ _ (ptag_ne_head _ _ (by decide))
          simp only [e1, e2, e3, he]
        | none =>
          simp only [h4] at hch
          cases h5 : encForm ['b', '6', '4'] isBase64Digit base64Decode s with
          | some p =>
            simp only [h5] at hch
            have hp := Option.some.inj hch
            rw [hp] at h5
            have he := encForm_append y (by decide) h5
            obtain ⟨body, hsE, hbody, hdec⟩ := encForm_inv h5
            have e1 : encForm ['h'] isBase16Digit base16Decode (s ++ y) = none := by
              rw [hsE]
              exact encForm_fail_tag _ _ (ptag_ne_head _ _ (by decide))
            have e2 : encForm ['b', '3', '2'] isBase32Digit base32Decode
                (s ++ y) = none := by
              rw [hsE]
              exact encForm_fail_tag _ _ (ptag_ne_second _ _ (by decide))
            have e3 : encForm ['h', '3', '2'] isBase32hexDigit base32hexDecode
                (s ++ y) = none := by
              rw [hsE]
              exact encForm_fail_tag _ _ (ptag_ne_head _ _ (by decide))
            have e4 : encForm ['b', '6', '4'] isBase64urlDigit base64urlDecode
                (s ++ y) = none := by
              by_cases hall : body.all isBase64urlDigit = true
              · have hrun_s : encForm ['b', '6', '4'] isBase64urlDigit base64urlDecode s =
                    match base64urlDecode body with
                    | some bs => some (bs, rb)
                    | none => none := by
                  rw [hsE]
                  exact encForm_run (fun c hc => List.all_eq_true.mp hall c hc) (by decide)
                have hdu : base64urlDecode body = none := by
                  cases hdu0 : base64urlDecode body with
                  | some bs =>
                    rw [hrun_s] at h4
                    simp only [hdu0] at h4
                    exact Option.noConfusion h4
                  | none => rfl
                have hsh : s ++ y =
                    ['b', '6', '4'] ++ '\'' :: (body ++ '\'' :: (rb ++ y)) := by
                  rw [hsE]
                  simp
                rw [hsh]
                have hrun_e : encForm ['b', '6', '4'] isBase64urlDigit base64urlDecode
                    (['b', '6', '4'] ++ '\'' :: (body ++ '\'' :: (rb ++ y))) =
                    match base64urlDecode body with
                    | some bs => some (bs, rb ++ y)
                    | none => none :=
                  encForm_run (fun c hc => List.all_eq_true.mp hall c hc) (by decide)
                rw [hrun_e, hdu]
              · obtain ⟨t1, c0, t2, hbsplit, ht1, hc0⟩ := exists_first_not hall
                have hc0q : c0 ≠ '\'' :=
                  ne_of_pred (hbody c0 (by rw [hbsplit]; simp)) (by decide)
                have hsh : s ++ y =
                    ['b', '6', '4'] ++ '\'' :: (t1 ++ c0 :: (t2 ++ '\'' :: (rb ++ y))) := by
                  rw [hsE, hbsplit]
                  simp
                rw [hsh]
                exact encForm_fail_stop ht1 hc0 hc0q
            simp only [e1, e2, e3, e4, he]
          | none =>
            simp only [h5] at hch
            have he := rawByteForm_append y hch
            obtain ⟨z, hsE⟩ := rawByteForm_head hch
            have e1 : encForm ['h'] isBase16Digit base16Decode (s ++ y) = none := by
              rw [hsE]
              exact encForm_fail_tag _ _ (ptag_ne_head _ _ (by decide))
            have e2 : encForm ['b', '3', '2'] isBase32Digit base32Decode
                (s ++ y) = none := by
              rw [hsE]
              exact encForm_fail_tag _ _ (ptag_ne_head _ _ (by decide))
            have e3 : encForm ['h', '3', '2'] isBase32hexDigit base32hexDecode
                (s ++ y) = none := by
              rw [hsE]
              exact encForm_fail_tag _ _ (ptag_ne_head _ _ (by decide))
            have e4 : encForm ['b', '6', '4'] isBase64urlDigit base64urlDecode
                (s ++ y) = none := by
              rw [hsE]
              exact encForm_fail_tag _ _ (ptag_ne_head _ _ (by decide))
            have e5 : encForm ['b', '6', '4'] isBase64Digit base64Decode
                (s ++ y) = none := by
              rw [hsE]
              exact encForm_fail_tag _ _ (ptag_ne_head _ _ (by decide))
            simp only [e1, e2, e3, e4, e5, he]

/-- A fully consumed definite byte-string literal still parses, with the same
bytes, when more input follows; the layout skipper absorbs what trailed it. -/
theorem definite_bytestring_append {x : List Char} (y : List Char) {b : List Nat}
    (h : definite_bytestring x = some (b, [])) :
    definite_bytestring (x ++ y) = some (b, y.dropWhile isMS) := by
  have hxy : (x ++ y).dropWhile isMS = x.dropWhile isMS ++ y :=
    dropWhile_append_of_ne_nil y (dbs_strip_ne_nil h)
  unfold definite_bytestring wrapws at h ⊢
  rw [hxy]
  cases hch : palt (encForm ['h'] isBase16Digit base16Decode)
      (palt (encForm ['b', '3', '2'] isBase32Digit base32Decode)
        (palt (encForm ['h', '3', '2'] isBase32hexDigit base32hexDecode)
          (palt (encForm ['b', '6', '4'] isBase64urlDigit base64urlDecode)
            (palt (encForm ['b', '6', '4'] isBase64Digit base64Decode)
              rawByteForm)))) (x.dropWhile isMS) with
  | none =>
    simp only [hch] at h
    exact Option.noConfusion h
  | some p =>
    obtain ⟨b0, rb⟩ := p
    simp only [hch] at h
    have hb0 : b0 = b := congrArg Prod.fst (Option.some.inj h)
    have hrb : rb.dropWhile isMS = [] := congrArg Prod.snd (Option.some.inj h)
    have hche := dbs_chain_append y hch
    simp only [hche]
    rw [hb0, dropWhile_append_all y (all_of_dropWhile_nil hrb)]

/-- A successful definite byte-string parse starts (after layout) with `h`,
`b` or a quote. -/
theorem definite_bytestring_head {x : List Char} {b : List Nat} {r : List Char}
    (h : definite_bytestring x = some (b, r)) :
    ∃ t2, x.dropWhile isMS = 'h' :: t2 ∨ x.dropWhile isMS = 'b' :: t2 ∨
      x.dropWhile isMS = '\'' :: t2 := by
  unfold definite_bytestring wrapws palt at h
  cases h1 : encForm ['h'] isBase16Digit base16Decode (x.dropWhile isMS) with
  | some p =>
    obtain ⟨b1, r1⟩ := p
    obtain ⟨body, hsE, _, _⟩ := encForm_inv h1
    exact ⟨_, Or.inl hsE⟩
  | none =>
    simp only [h1] at h
    cases h2 : encForm ['b', '3', '2'] isBase32Digit base32Decode (x.dropWhile isMS) with
    | some p =>
      obtain ⟨b1, r1⟩ := p
      obtain ⟨body, hsE, _, _⟩ := encForm_inv h2
      exact ⟨_, Or.inr (Or.inl hsE)⟩
    | none =>
      simp only [h2] at h
      cases h3 : encForm ['h', '3', '2'] isBase32hexDigit base32hexDecode
          (x.dropWhile isMS) with
      | some p =>
        obtain ⟨b1, r1⟩ := p
        obtain ⟨body, hsE, _, _⟩ := encForm_inv h3
        exact ⟨_, Or.inl hsE⟩
      | none =>
        simp only [h3] at h
        cases h4 : encForm ['b', '6', '4'] isBase64urlDigit base64urlDecode
            (x.dropWhile isMS) with
        | some p =>
          obtain ⟨b1, r1⟩ := p
          obtain ⟨body, hsE, _, _⟩ := encForm_inv h4
          exact ⟨_, Or.inr (Or.inl hsE)⟩
        | none =>
          simp only [h4] at h
          cases h5 : encForm ['b', '6', '4'] isBase64Digit base64Decode
              (x.dropWhile isMS) with
          | some p =>
            obtain ⟨b1, r1⟩ := p
            obtain ⟨body, hsE, _, _⟩ := encForm_inv h5
            exact ⟨_, Or.inr (Or.inl hsE)⟩
          | none =>
            simp only [h5] at h
            cases h6 : rawByteForm (x.dropWhile isMS) with
            | some p =>
              obtain ⟨b1, r1⟩ := p
              obtain ⟨z, hsE⟩ := rawByteForm_head h6
              exact ⟨z, Or.inr (Or.inr hsE)⟩
            | none =>
              simp only [h6] at h
              exact Option.noConfusion h

/-- The `many0` loop over fully consuming definite byte-string literals eats
them all, returning the decoded chunks in order. -/
theorem manyAux_chain {ss : List (List Char)} {bs : List (List Nat)}
    (h : List.Forall₂ (fun s c => definite_bytestring s = some (c, [])) ss bs) :
    ∀ f : Nat, (ss.flatten.dropWhile isMS).length < f →
      manyAux definite_bytestring f (ss.flatten.dropWhile isMS) = some (bs, []) := by
  induction h with
  | nil =>
    intro f hf
    cases f with
    | zero => omega
    | succ f0 =>
      show manyAux definite_bytestring (f0 + 1) [] = some ([], [])
      simp only [manyAux, definite_bytestring_nil]
  | cons hsb htail ih =>
    rename_i s c ss' bs'
    intro f hf
    have hflat : (s :: ss').flatten = s ++ ss'.flatten := rfl
    have hsne : s.dropWhile isMS ≠ [] := dbs_strip_ne_nil hsb
    have hstrip : (s ++ ss'.flatten).dropWhile isMS =
        s.dropWhile isMS ++ ss'.flatten := dropWhile_append_of_ne_nil _ hsne
    have hdb : definite_bytestring (s.dropWhile isMS ++ ss'.flatten) =
        some (c, ss'.flatten.dropWhile isMS) := by
      have h1 : definite_bytestring (s.dropWhile isMS) = some (c, []) := by
        rw [definite_bytestring_strip]
        exact hsb
      exact definite_bytestring_append _ h1
    have hlen1 : 0 < (s.dropWhile isMS).length := List.length_pos.mpr hsne
    have hlen2 : (ss'.flatten.dropWhile isMS).length ≤ ss'.flatten.length :=
      length_dropWhile_le ss'.flatten isMS
    rw [hflat, hstrip] at hf ⊢
    cases f with
    | zero => omega
    | succ f0 =>
      have hguard : (ss'.flatten.dropWhile isMS).length <
          (s.dropWhile isMS ++ ss'.flatten).length := by
        rw [List.length_append]
        omega
      have hrec := ih f0 (by
        rw [List.length_append] at hf
        omega)
      simp only [manyAux, hdb, if_pos hguard, hrec]

/-- Concatenation of adjacent fully consuming definite byte-string literals:
the chunks are joined byte-wise and the result has unknown width. -/
theorem concat_bytestring_chain {ss : List (List Char)} {bs : List (List Nat)}
    (hne : ss ≠ [])
    (h : List.Forall₂ (fun s c => definite_bytestring s = some (c, [])) ss bs) :
    concatenated_definite_bytestring ss.flatten =
      some ({ data := bs.flatten, bitwidth := IntegerWidth.unknown }, []) := by
  cases h with
  | nil => exact absurd rfl hne
  | cons hsb htail =>
    rename_i s c ss' bs'
    have hflat : (s :: ss').flatten = s ++ ss'.flatten := rfl
    have hdb1 : definite_bytestring (s ++ ss'.flatten) =
        some (c, ss'.flatten.dropWhile isMS) := definite_bytestring_append _ hsb
    have hsne : s ≠ [] := by
      intro hz
      rw [hz, definite_bytestring_nil] at hsb
      exact Option.noConfusion hsb
    have hlen1 : 0 < s.length := List.length_pos.mpr hsne
    have hlen2 : (ss'.flatten.dropWhile isMS).length ≤ ss'.flatten.length :=
      length_dropWhile_le ss'.flatten isMS
    have hguard : (ss'.flatten.dropWhile isMS).length < (s ++ ss'.flatten).length := by
      rw [List.length_append]
      omega
    have hrec := manyAux_chain htail (s ++ ss'.flatten).length (by
      rw [List.length_append]
      omega)
    unfold concatenated_definite_bytestring pmap pmany1 pmany0
    rw [hflat]
    simp only [manyAux, hdb1, if_pos hguard, hrec]

/-- One dispatcher step only looks at the input after layout stripping. -/
theorem dataItemF_strip {f : Nat} (x : List Char) :
    dataItemF (f + 1) x = dataItemF (f + 1) (x.dropWhile isMS) := by
  unfold dataItemF wrapws
  rw [dropWhile_idem]

/-- C9: a sequence of one or more adjacent definite byte-string literals,
each of which parses completely on its own, parses as a single byte string
whose data is the byte-wise concatenation of the literals' decoded bytes in
order and whose bitwidth is Unknown. -/
theorem claim_C9 {ss : List (List Char)} {bs : List (List Nat)}
    (hne : ss ≠ [])
    (h : List.Forall₂ (fun s c => definite_bytestring s = some (c, [])) ss bs) :
    parse_diag ss.flatten =
      .ok (.byteString { data := bs.flatten, bitwidth := IntegerWidth.unknown }) := by
  cases h with
  | nil => exact absurd rfl hne
  | cons hsb htail =>
    rename_i s c ss' bs'
    have hflat : (s :: ss').flatten = s ++ ss'.flatten := rfl
    have hsne : s.dropWhile isMS ≠ [] := dbs_strip_ne_nil hsb
    have hstrip : (s ++ ss'.flatten).dropWhile isMS =
        s.dropWhile isMS ++ ss'.flatten := dropWhile_append_of_ne_nil _ hsne
    have hsb' : definite_bytestring (s.dropWhile isMS) = some (c, []) := by
      rw [definite_bytestring_strip]
      exact hsb
    have hforall : List.Forall₂ (fun s c => definite_bytestring s = some (c, []))
        (s.dropWhile isMS :: ss') (c :: bs') := List.Forall₂.cons hsb' htail
    have hcc : concatenated_definite_bytestring (s.dropWhile isMS ++ ss'.flatten) =
        some ({ data := (c :: bs').flatten, bitwidth := IntegerWidth.unknown }, []) := by
      have h0 := concat_bytestring_chain (by simp) hforall
      rw [show (s.dropWhile isMS :: ss').flatten = s.dropWhile isMS ++ ss'.flatten
        from rfl] at h0
      exact h0
    have hbyt : bytestring (s.dropWhile isMS ++ ss'.flatten) =
        some (DataItem.byteString { data := (c :: bs').flatten, bitwidth := IntegerWidth.unknown }, []) := by
      unfold bytestring palt pmap
      simp only [hcc]
    obtain ⟨t2, hh⟩ := definite_bytestring_head hsb
    have hhead : ∃ a, s.dropWhile isMS = a :: t2 ∧ a.isDigit = false ∧ a ≠ '+' ∧
        a ≠ '-' ∧ a ≠ 'I' ∧ a ≠ 'N' := by
      rcases hh with hh | hh | hh
      · exact ⟨'h', hh, by decide, by decide, by decide, by decide, by decide⟩
      · exact ⟨'b', hh, by decide, by decide, by decide, by decide, by decide⟩
      · exact ⟨'\'', hh, by decide, by decide, by decide, by decide, by decide⟩
    obtain ⟨a, hseq, hdg, hplus, hminus, hI, hN⟩ := hhead
    have hx' : (s ++ ss'.flatten).dropWhile isMS = a :: (t2 ++ ss'.flatten) := by
      rw [hstrip, hseq]
      rfl
    have hnds : NotDigitStart (a :: (t2 ++ ss'.flatten)) := notDigitStart_cons _ hdg
    have hfl' : float ((s ++ ss'.flatten).dropWhile isMS) = none := by
      rw [hx']
      exact float_fail_head hdg hplus hminus hI hN
    have htg' : tagged (dataItemF (s ++ ss'.flatten).length)
        ((s ++ ss'.flatten).dropWhile isMS) = none := by
      rw [hx']
      exact tagged_fail_integer (integer_fail_head hnds)
    have hpos' : positive ((s ++ ss'.flatten).dropWhile isMS) = none := by
      rw [hx']
      exact positive_fail_head hnds
    have hng' : negative ((s ++ ss'.flatten).dropWhile isMS) = none := by
      rw [hx']
      exact negative_fail_head (head_cons_prop _ hminus)
    have hbyt' : bytestring ((s ++ ss'.flatten).dropWhile isMS) =
        some (DataItem.byteString { data := (c :: bs').flatten, bitwidth := IntegerWidth.unknown }, []) := by
      rw [hstrip]
      exact hbyt
    have hdi : dataItemF ((s ++ ss'.flatten).length + 1) (s ++ ss'.flatten) =
        some (DataItem.byteString { data := (c :: bs').flatten, bitwidth := IntegerWidth.unknown }, []) := by
      rw [dataItemF_strip]
      exact dataItemF_via_bytestring (dropWhile_idem _) hfl' htg' hpos' hng' hbyt'
    have hdata : data_item (s ++ ss'.flatten) =
        some (DataItem.byteString { data := (c :: bs').flatten, bitwidth := IntegerWidth.unknown }, []) := hdi
    rw [hflat]
    exact parse_diag_ok hdata

/-! ### Consumption: no parser's remainder is longer than its input -/

theorem strip_append (p : Char → Bool) (a y : List Char) :
    (a ++ y).dropWhile p = (a.dropWhile p ++ y).dropWhile p := by
  induction a with
  | nil => rfl
  | cons c t ih =>
    by_cases h : p c = true
    · simp only [List.cons_append, List.dropWhile_cons, h, if_true]
      exact ih
    · have h' : p c = false := by simpa using h
      simp [List.dropWhile_cons, h']

/-- The remainder of a successful parse is no longer than the input. -/
def ParserLe {α : Type} (p : Parser α) : Prop :=
  ∀ z a r, p z = some (a, r) → r.length ≤ z.length

theorem ptag_le {t x u r : List Char} (h : ptag t x = some (u, r)) :
    r.length ≤ x.length := by
  obtain ⟨_, hx⟩ := ptag_inv h
  rw [hx, List.length_append]
  omega

theorem pdigit1_le {x d r : List Char} (h : pdigit1 x = some (d, r)) :
    r.length ≤ x.length := by
  unfold pdigit1 at h
  by_cases h0 : x.takeWhile Char.isDigit = []
  · rw [if_pos h0] at h
    exact Option.noConfusion h
  · rw [if_neg h0] at h
    have hr : x.dropWhile Char.isDigit = r := congrArg Prod.snd (Option.some.inj h)
    rw [← hr]
    exact length_dropWhile_le x Char.isDigit

theorem encoding_le {x : List Char} {e : Nat} {r : List Char}
    (h : encoding x = some (e, r)) : r.length ≤ x.length := by
  unfold encoding at h
  cases h0 : ptag ['_'] x with
  | none => simp only [h0] at h; exact Option.noConfusion h
  | some pr =>
    obtain ⟨u, r1⟩ := pr
    simp only [h0] at h
    cases h1 : pdigit1 r1 with
    | none => simp only [h1] at h; exact Option.noConfusion h
    | some dr =>
      obtain ⟨d, r2⟩ := dr
      simp only [h1] at h
      cases h2 : u64OfDigits d with
      | none => simp only [h2] at h; exact Option.noConfusion h
      | some v =>
        simp only [h2] at h
        by_cases h3 : v < 4
        · rw [if_pos h3] at h
          have hr : r2 = r := congrArg Prod.snd (Option.some.inj h)
          rw [← hr]
          exact le_trans (pdigit1_le h1) (ptag_le h0)
        · rw [if_neg h3] at h
          exact Option.noConfusion h

theorem integer_le {x : List Char} {v : Nat × IntegerWidth} {r : List Char}
    (h : integer x = some (v, r)) : r.length ≤ x.length := by
  unfold integer at h
  cases h0 : pdigit1 x with
  | none => simp only [h0] at h; exact Option.noConfusion h
  | some dr =>
    obtain ⟨d, r1⟩ := dr
    simp only [h0] at h
    cases h1 : u64OfDigits d with
    | none => simp only [h1] at h; exact Option.noConfusion h
    | some n =>
      simp only [h1] at h
      cases h2 : encoding r1 with
      | some er =>
        obtain ⟨e, r2⟩ := er
        simp only [h2] at h
        have hr : r2 = r := congrArg Prod.snd (Option.some.inj h)
        rw [← hr]
        exact le_trans (encoding_le h2) (pdigit1_le h0)
      | none =>
        simp only [h2] at h
        have hr : r1 = r := congrArg Prod.snd (Option.some.inj h)
        rw [← hr]
        exact pdigit1_le h0

theorem escTrans_le {q : Char} : ∀ n (z : List Char), z.length ≤ n →
    (escTrans q z).2.length ≤ z.length := by
  intro n
  induction n with
  | zero =>
    intro z hz
    have hznil : z = [] := List.length_eq_zero.mp (Nat.le_zero.mp hz)
    subst hznil
    simp [escTrans]
  | succ n ih =>
    intro z hz
    match z with
    | [] => simp [escTrans]
    | [a] =>
      by_cases hg : a = '\\' ∨ a = q
      · simp [escTrans, hg]
      · simp [escTrans, hg]
    | a :: c :: r =>
      by_cases h1 : a = q
      · simp [escTrans, h1]
      · by_cases h2 : a = '\\'
        · by_cases h3 : c = '\\' ∨ c = q
          · subst h2
            obtain ⟨o2, rm2, hz2⟩ : ∃ o rm, escTrans q r = (o, rm) := ⟨_, _, rfl⟩
            have hr : r.length ≤ n := by
              simp only [List.length_cons] at hz
              omega
            have hle := ih r hr
            rw [hz2] at hle
            have hle2 : rm2.length ≤ r.length := by simpa using hle
            simp only [escTrans, if_neg h1, if_pos rfl, if_pos h3, hz2, if_true]
            show rm2.length ≤ ('\\' :: c :: r).length
            simp only [List.length_cons]
            omega
          · subst h2
            simp only [escTrans, if_neg h1, if_pos rfl, if_neg h3]
            exact le_refl _
        · obtain ⟨o2, rm2, hz2⟩ : ∃ o rm, escTrans q (c :: r) = (o, rm) := ⟨_, _, rfl⟩
          have hr : (c :: r).length ≤ n := by
            simp only [List.length_cons] at hz ⊢
            omega
          have hle := ih (c :: r) hr
          rw [hz2] at hle
          have hle2 : rm2.length ≤ (c :: r).length := by simpa using hle
          simp only [escTrans, if_neg h1, if_neg h2, hz2]
          show rm2.length ≤ (a :: c :: r).length
          simp only [List.length_cons] at hle2 ⊢
          omega

theorem palt_le {α : Type} {p q : Parser α} (hp : ParserLe p) (hq : ParserLe q) :
    ParserLe (palt p q) := by
  intro z a r h
  unfold palt at h
  cases h0 : p z with
  | some res =>
    simp only [h0] at h
    have : res = (a, r) := Option.some.inj h
    rw [this] at h0
    exact hp z a r h0
  | none =>
    simp only [h0] at h
    exact hq z a r h

theorem wrapws_le {α : Type} {p : Parser α} (hp : ParserLe p) :
    ParserLe (wrapws p) := by
  intro z a r h
  unfold wrapws at h
  cases h0 : p (z.dropWhile isMS) with
  | none => simp only [h0] at h; exact Option.noConfusion h
  | some res =>
    obtain ⟨a0, r0⟩ := res
    simp only [h0] at h
    have hr : r0.dropWhile isMS = r := congrArg Prod.snd (Option.some.inj h)
    rw [← hr]
    calc (r0.dropWhile isMS).length ≤ r0.length := length_dropWhile_le _ _
      _ ≤ (z.dropWhile isMS).length := hp _ _ _ h0
      _ ≤ z.length := length_dropWhile_le _ _

theorem pmap_le {α β : Type} {f : α → β} {p : Parser α} (hp : ParserLe p) :
    ParserLe (pmap f p) := by
  intro z a r h
  unfold pmap at h
  cases h0 : p z with
  | none => simp only [h0] at h; exact Option.noConfusion h
  | some res =>
    obtain ⟨a0, r0⟩ := res
    simp only [h0] at h
    have hr : r0 = r := congrArg Prod.snd (Option.some.inj h)
    rw [← hr]
    exact hp _ _ _ h0

theorem encForm_le {pre : List Char} {munch : Char → Bool}
    {dec : List Char → Option (List Nat)} : ParserLe (encForm pre munch dec) := by
  intro z a r h
  obtain ⟨body, hz, _, _⟩ := encForm_inv h
  rw [hz]
  simp only [List.length_append, List.length_cons]
  omega

theorem rawByteForm_le : ParserLe rawByteForm := by
  intro z a r h
  unfold rawByteForm at h
  cases h0 : ptag ['\''] z with
  | none => simp only [h0] at h; exact Option.noConfusion h
  | some pr =>
    obtain ⟨u1, r1⟩ := pr
    simp only [h0] at h
    cases h1 : ptag ['\''] (escTrans '\'' r1).2 with
    | none => simp only [h1] at h; exact Option.noConfusion h
    | some qr =>
      obtain ⟨u2, r2⟩ := qr
      simp only [h1] at h
      have hr : r2 = r := congrArg Prod.snd (Option.some.inj h)
      rw [← hr]
      calc r2.length ≤ (escTrans '\'' r1).2.length := ptag_le h1
        _ ≤ r1.length := escTrans_le r1.length r1 le_rfl
        _ ≤ z.length := ptag_le h0

theorem definite_bytestring_le : ParserLe definite_bytestring :=
  wrapws_le (palt_le encForm_le (palt_le encForm_le (palt_le encForm_le
    (palt_le encForm_le (palt_le encForm_le rawByteForm_le)))))

theorem manyAux_le {α : Type} {p : Parser α} :
    ∀ (f : Nat) (x : List Char) (as : List α) (r : List Char),
      manyAux p f x = some (as, r) → r.length ≤ x.length := by
  intro f
  induction f with
  | zero =>
    intro x as r h
    have hr : x = r := congrArg Prod.snd (Option.some.inj h)
    rw [hr]
  | succ f0 ih =>
    intro x as r h
    unfold manyAux at h
    cases h0 : p x with
    | none =>
      simp only [h0] at h
      have hr : x = r := congrArg Prod.snd (Option.some.inj h)
      rw [hr]
    | some ar =>
      obtain ⟨a, r1⟩ := ar
      simp only [h0] at h
      by_cases hg : r1.length < x.length
      · rw [if_pos hg] at h
        cases h1 : manyAux p f0 r1 with
        | none => simp only [h1] at h; exact Option.noConfusion h
        | some asr =>
          obtain ⟨as2, r2⟩ := asr
          simp only [h1] at h
          have hr : r2 = r := congrArg Prod.snd (Option.some.inj h)
          rw [← hr]
          exact le_trans (ih r1 as2 r2 h1) (le_of_lt hg)
      · rw [if_neg hg] at h
        exact Option.noConfusion h

theorem sepAux_le {α : Type} {sep : List Char} {p : Parser α} :
    ∀ (f : Nat) (x : List Char) (as : List α) (r : List Char),
      sepAux sep p f x = some (as, r) → r.length ≤ x.length := by
  intro f
  induction f with
  | zero =>
    intro x as r h
    have hr : x = r := congrArg Prod.snd (Option.some.inj h)
    rw [hr]
  | succ f0 ih =>
    intro x as r h
    unfold sepAux at h
    cases h0 : ptag sep x with
    | none =>
      simp only [h0] at h
      have hr : x = r := congrArg Prod.snd (Option.some.inj h)
      rw [hr]
    | some pr =>
      obtain ⟨u, r1⟩ := pr
      simp only [h0] at h
      cases h1 : p r1 with
      | none =>
        simp only [h1] at h
        have hr : x = r := congrArg Prod.snd (Option.some.inj h)
        rw [hr]
      | some ar =>
        obtain ⟨a, r2⟩ := ar
        simp only [h1] at h
        by_cases hg : r2.length < x.length
        · rw [if_pos hg] at h
          cases h2 : sepAux sep p f0 r2 with
          | none => simp only [h2] at h; exact Option.noConfusion h
          | some asr =>
            obtain ⟨as2, r3⟩ := asr
            simp only [h2] at h
            have hr : r3 = r := congrArg Prod.snd (Option.some.inj h)
            rw [← hr]
            exact le_trans (ih r2 as2 r3 h2) (le_of_lt hg)
        · rw [if_neg hg] at h
          exact Option.noConfusion h

theorem separated_list_le {α : Type} {sep : List Char} {p : Parser α} :
    ParserLe (separated_list sep p) := by
  intro z a r h
  unfold separated_list at h
  cases h0 : p z with
  | none =>
    simp only [h0] at h
    have hr : z = r := congrArg Prod.snd (Option.some.inj h)
    rw [hr]
  | some ar =>
    obtain ⟨a0, r1⟩ := ar
    simp only [h0] at h
    by_cases hg : r1.length < z.length
    · rw [if_pos hg] at h
      cases h1 : sepAux sep p (r1.length + 1) r1 with
      | none => simp only [h1] at h; exact Option.noConfusion h
      | some asr =>
        obtain ⟨as2, r2⟩ := asr
        simp only [h1] at h
        have hr : r2 = r := congrArg Prod.snd (Option.some.inj h)
        rw [← hr]
        exact le_trans (sepAux_le _ r1 as2 r2 h1) (le_of_lt hg)
    · rw [if_neg hg] at h
      exact Option.noConfusion h

theorem opt_comma_tag_le {t x u r : List Char} (h : opt_comma_tag t x = some (u, r)) :
    r.length ≤ x.length := by
  unfold opt_comma_tag at h
  cases h0 : ptag t x with
  | some res =>
    simp only [h0] at h
    have : res = (u, r) := Option.some.inj h
    rw [this] at h0
    exact ptag_le h0
  | none =>
    simp only [h0] at h
    cases h1 : ptag [','] x with
    | none => simp only [h1] at h; exact Option.noConfusion h
    | some pr =>
      obtain ⟨u1, r1⟩ := pr
      simp only [h1] at h
      calc r.length ≤ (r1.dropWhile isMS).length := ptag_le h
        _ ≤ r1.length := length_dropWhile_le _ _
        _ ≤ x.length := ptag_le h1

theorem positive_le : ParserLe positive := by
  intro z a r h
  unfold positive at h
  cases h0 : integer z with
  | none => simp only [h0] at h; exact Option.noConfusion h
  | some vr =>
    obtain ⟨vw, r1⟩ := vr
    simp only [h0] at h
    have hr : r1 = r := congrArg Prod.snd (Option.some.inj h)
    rw [← hr]
    exact integer_le h0

theorem negative_le : ParserLe negative := by
  intro z a r h
  unfold negative at h
  cases h0 : ptag ['-'] z with
  | none => simp only [h0] at h; exact Option.noConfusion h
  | some pr =>
    obtain ⟨u, r1⟩ := pr
    simp only [h0] at h
    cases h1 : integer r1 with
    | none => simp only [h1] at h; exact Option.noConfusion h
    | some vr =>
      obtain ⟨vw, r2⟩ := vr
      obtain ⟨v, w⟩ := vw
      simp only [h1] at h
      by_cases hv : 0 < v
      · rw [if_pos hv] at h
        have hr : r2 = r := congrArg Prod.snd (Option.some.inj h)
        rw [← hr]
        exact le_trans (integer_le h1) (ptag_le h0)
      · rw [if_neg hv] at h
        exact Option.noConfusion h

theorem signStep_le (x : List Char) : (signStep x).2.length ≤ x.length := by
  cases x with
  | nil => simp [signStep]
  | cons c r =>
    by_cases hg : c = '+' ∨ c = '-'
    · simp only [signStep, if_pos hg]
      simp
    · simp only [signStep, if_neg hg]
      exact le_refl _

theorem floatTail_le {sg y : List Char} {s r : List Char}
    (h : floatTail sg y = some (s, r)) : r.length ≤ y.length := by
  unfold floatTail at h
  cases h0 : pdigit1 y with
  | none => simp only [h0] at h; exact Option.noConfusion h
  | some dr =>
    obtain ⟨d1, r2⟩ := dr
    simp only [h0] at h
    cases h1 : ptag ['.'] r2 with
    | none => simp only [h1] at h; exact Option.noConfusion h
    | some pr =>
      obtain ⟨u, r3⟩ := pr
      simp only [h1] at h
      cases h2 : pdigit1 r3 with
      | none => simp only [h2] at h; exact Option.noConfusion h
      | some dr2 =>
        obtain ⟨d2, r4⟩ := dr2
        simp only [h2] at h
        have hr4 : r4.length ≤ y.length :=
          le_trans (pdigit1_le h2) (le_trans (ptag_le h1) (pdigit1_le h0))
        cases hr4c : r4 with
        | nil =>
          simp only [hr4c] at h
          have hr : ([] : List Char) = r := congrArg Prod.snd (Option.some.inj h)
          rw [← hr]
          simp
        | cons e r5 =>
          simp only [hr4c] at h
          rw [hr4c] at hr4
          by_cases hg : e = 'e' ∨ e = 'E'
          · rw [if_pos hg] at h
            cases h3 : pdigit1 (signStep r5).2 with
            | none =>
              simp only [h3] at h
              have hr : e :: r5 = r := congrArg Prod.snd (Option.some.inj h)
              rw [← hr]
              exact hr4
            | some dr3 =>
              obtain ⟨d3, r7⟩ := dr3
              simp only [h3] at h
              have hr : r7 = r := congrArg Prod.snd (Option.some.inj h)
              rw [← hr]
              have h7 : r7.length ≤ r5.length :=
                le_trans (pdigit1_le h3) (signStep_le r5)
              simp only [List.length_cons] at hr4
              omega
          · rw [if_neg hg] at h
            have hr : e :: r5 = r := congrArg Prod.snd (Option.some.inj h)
            rw [← hr]
            exact hr4

theorem recognize_float_le : ParserLe recognize_float := by
  intro z s r h
  unfold recognize_float at h
  exact le_trans (floatTail_le h) (signStep_le z)

theorem float_value_le : ParserLe float_value := by
  intro z a r h
  unfold float_value at h
  cases h0 : recognize_float z with
  | some sr =>
    obtain ⟨s, r1⟩ := sr
    simp only [h0] at h
    have hr : r1 = r := congrArg Prod.snd (Option.some.inj h)
    rw [← hr]
    exact recognize_float_le z s r1 h0
  | none =>
    simp only [h0] at h
    cases h1 : ptag ['I', 'n', 'f', 'i', 'n', 'i', 't', 'y'] z with
    | some pr =>
      obtain ⟨u, r1⟩ := pr
      simp only [h1] at h
      have hr : r1 = r := congrArg Prod.snd (Option.some.inj h)
      rw [← hr]
      exact ptag_le h1
    | none =>
      simp only [h1] at h
      cases h2 : ptag ['-', 'I', 'n', 'f', 'i', 'n', 'i', 't', 'y'] z with
      | some pr =>
        obtain ⟨u, r1⟩ := pr
        simp only [h2] at h
        have hr : r1 = r := congrArg Prod.snd (Option.some.inj h)
        rw [← hr]
        exact ptag_le h2
      | none =>
        simp only [h2] at h
        cases h3 : ptag ['N', 'a', 'N'] z with
        | some pr =>
          obtain ⟨u, r1⟩ := pr
          simp only [h3] at h
          have hr : r1 = r := congrArg Prod.snd (Option.some.inj h)
          rw [← hr]
          exact ptag_le h3
        | none => simp only [h3] at h; exact Option.noConfusion h

theorem float_le : ParserLe float := by
  intro z a r h
  unfold float at h
  cases h0 : float_value z with
  | none => simp only [h0] at h; exact Option.noConfusion h
  | some vr =>
    obtain ⟨v, r1⟩ := vr
    simp only [h0] at h
    have hr1 : r1.length ≤ z.length := float_value_le z v r1 h0
    cases h1 : encoding r1 with
    | some er =>
      obtain ⟨e, r2⟩ := er
      simp only [h1] at h
      by_cases he : 0 < e
      · rw [if_pos he] at h
        have hr : r2 = r := congrArg Prod.snd (Option.some.inj h)
        rw [← hr]
        exact le_trans (encoding_le h1) hr1
      · rw [if_neg he] at h
        have hr : r1 = r := congrArg Prod.snd (Option.some.inj h)
        rw [← hr]
        exact hr1
    | none =>
      simp only [h1] at h
      have hr : r1 = r := congrArg Prod.snd (Option.some.inj h)
      rw [← hr]
      exact hr1

theorem simple_le : ParserLe simple := by
  intro z a r h
  unfold simple at h
  cases g1 : ptag ['f', 'a', 'l', 's', 'e'] z with
  | some pr =>
    obtain ⟨u, r1⟩ := pr
    simp only [g1] at h
    have hr : r1 = r := congrArg Prod.snd (Option.some.inj h)
    rw [← hr]
    exact ptag_le g1
  | none =>
    simp only [g1] at h
    cases g2 : ptag ['t', 'r', 'u', 'e'] z with
    | some pr =>
      obtain ⟨u, r1⟩ := pr
      simp only [g2] at h
      have hr : r1 = r := congrArg Prod.snd (Option.some.inj h)
      rw [← hr]
      exact ptag_le g2
    | none =>
      simp only [g2] at h
      cases g3 : ptag ['n', 'u', 'l', 'l'] z with
      | some pr =>
        obtain ⟨u, r1⟩ := pr
        simp only [g3] at h
        have hr : r1 = r := congrArg Prod.snd (Option.some.inj h)
        rw [← hr]
        exact ptag_le g3
      | none =>
        simp only [g3] at h
        cases g4 : ptag ['u', 'n', 'd', 'e', 'f', 'i', 'n', 'e', 'd'] z with
        | some pr =>
          obtain ⟨u, r1⟩ := pr
          simp only [g4] at h
          have hr : r1 = r := congrArg Prod.snd (Option.some.inj h)
          rw [← hr]
          exact ptag_le g4
        | none =>
          simp only [g4] at h
          cases g5 : ptag ['s', 'i', 'm', 'p', 'l', 'e'] z with
          | none => simp only [g5] at h; exact Option.noConfusion h
          | some pr =>
            obtain ⟨u, r1⟩ := pr
            simp only [g5] at h
            cases g6 : ptag ['('] r1 with
            | none => simp only [g6] at h; exact Option.noConfusion h
            | some pr2 =>
              obtain ⟨u2, r2⟩ := pr2
              simp only [g6] at h
              cases g7 : pdigit1 r2 with
              | none => simp only [g7] at h; exact Option.noConfusion h
              | some dr =>
                obtain ⟨d, r3⟩ := dr
                simp only [g7] at h
                cases g8 : ptag [')'] r3 with
                | none => simp only [g8] at h; exact Option.noConfusion h
                | some pr3 =>
                  obtain ⟨u3, r4⟩ := pr3
                  simp only [g8] at h
                  cases g9 : u8OfDigits d with
                  | none => simp only [g9] at h; exact Option.noConfusion h
                  | some v =>
                    simp only [g9] at h
                    have hr : r4 = r := congrArg Prod.snd (Option.some.inj h)
                    rw [← hr]
                    exact le_trans (ptag_le g8) (le_trans (pdigit1_le g7)
                      (le_trans (ptag_le g6) (ptag_le g5)))

theorem definite_textstring_le : ParserLe definite_textstring := by
  apply wrapws_le
  intro z a r h
  cases h0 : ptag ['"'] z with
  | none => simp only [h0] at h; exact Option.noConfusion h
  | some pr =>
    obtain ⟨u1, r1⟩ := pr
    simp only [h0] at h
    cases h1 : ptag ['"'] (escTrans '"' r1).2 with
    | none => simp only [h1] at h; exact Option.noConfusion h
    | some qr =>
      obtain ⟨u2, r2⟩ := qr
      simp only [h1] at h
      have hr : r2 = r := congrArg Prod.snd (Option.some.inj h)
      rw [← hr]
      calc r2.length ≤ (escTrans '"' r1).2.length := ptag_le h1
        _ ≤ r1.length := escTrans_le r1.length r1 le_rfl
        _ ≤ z.length := ptag_le h0

theorem textPiece_le : ParserLe textPiece :=
  palt_le definite_bytestring_le (pmap_le definite_textstring_le)

theorem pmany0_le {α : Type} {p : Parser α} : ParserLe (pmany0 p) := by
  intro z a r h
  unfold pmany0 at h
  exact manyAux_le _ z a r h

theorem pmany1_le {α : Type} {p : Parser α} : ParserLe (pmany1 p) := by
  intro z a r h
  unfold pmany1 at h
  cases h0 : pmany0 p z with
  | none => simp only [h0] at h; exact Option.noConfusion h
  | some ar =>
    obtain ⟨as, r1⟩ := ar
    simp only [h0] at h
    cases as with
    | nil => simp only [] at h; exact Option.noConfusion h
    | cons a0 as0 =>
      simp only [] at h
      have hr : r1 = r := congrArg Prod.snd (Option.some.inj h)
      rw [← hr]
      exact pmany0_le z _ r1 h0

theorem concatenated_definite_textstring_le :
    ParserLe concatenated_definite_textstring := by
  intro z a r h
  unfold concatenated_definite_textstring at h
  cases h0 : definite_textstring z with
  | none => simp only [h0] at h; exact Option.noConfusion h
  | some fr =>
    obtain ⟨first, r1⟩ := fr
    simp only [h0] at h
    cases h1 : pmany0 textPiece r1 with
    | none => simp only [h1] at h; exact Option.noConfusion h
    | some pr =>
      obtain ⟨pieces, r2⟩ := pr
      simp only [h1] at h
      cases h2 : utf8Decode pieces.flatten with
      | none => simp only [h2] at h; exact Option.noConfusion h
      | some rest =>
        simp only [h2] at h
        have hr : r2 = r := congrArg Prod.snd (Option.some.inj h)
        rw [← hr]
        exact le_trans (pmany0_le r1 pieces r2 h1) (definite_textstring_le z first r1 h0)

theorem indefinite_textstring_le : ParserLe indefinite_textstring := by
  intro z a r h
  unfold indefinite_textstring at h
  cases h0 : ptag ['(', '_'] z with
  | none => simp only [h0] at h; exact Option.noConfusion h
  | some pr =>
    obtain ⟨u, r1⟩ := pr
    simp only [h0] at h
    cases h1 : separated_list [','] concatenated_definite_textstring r1 with
    | none => simp only [h1] at h; exact Option.noConfusion h
    | some cr =>
      obtain ⟨chunks, r2⟩ := cr
      simp only [h1] at h
      cases h2 : opt_comma_tag [')'] r2 with
      | none => simp only [h2] at h; exact Option.noConfusion h
      | some or3 =>
        obtain ⟨u3, r3⟩ := or3
        simp only [h2] at h
        have hr : r3 = r := congrArg Prod.snd (Option.some.inj h)
        rw [← hr]
        exact le_trans (opt_comma_tag_le h2)
          (le_trans (separated_list_le r1 chunks r2 h1) (ptag_le h0))

theorem textstring_le : ParserLe textstring :=
  palt_le (pmap_le concatenated_definite_textstring_le) indefinite_textstring_le

theorem concatenated_definite_bytestring_le :
    ParserLe concatenated_definite_bytestring :=
  pmap_le pmany1_le

theorem indefinite_bytestring_le : ParserLe indefinite_bytestring := by
  intro z a r h
  unfold indefinite_bytestring at h
  cases h0 : ptag ['(', '_'] z with
  | none => simp only [h0] at h; exact Option.noConfusion h
  | some pr =>
    obtain ⟨u, r1⟩ := pr
    simp only [h0] at h
    cases h1 : separated_list [','] concatenated_definite_bytestring r1 with
    | none => simp only [h1] at h; exact Option.noConfusion h
    | some cr =>
      obtain ⟨chunks, r2⟩ := cr
      simp only [h1] at h
      cases h2 : opt_comma_tag [')'] r2 with
      | none => simp only [h2] at h; exact Option.noConfusion h
      | some or3 =>
        obtain ⟨u3, r3⟩ := or3
        simp only [h2] at h
        have hr : r3 = r := congrArg Prod.snd (Option.some.inj h)
        rw [← hr]
        exact le_trans (opt_comma_tag_le h2)
          (le_trans (separated_list_le r1 chunks r2 h1) (ptag_le h0))

theorem bytestring_le : ParserLe bytestring :=
  palt_le (pmap_le concatenated_definite_bytestring_le) indefinite_bytestring_le

theorem tagged_le {item : Parser DataItem} (hitem : ParserLe item) :
    ParserLe (tagged item) := by
  intro z a r h
  unfold tagged at h
  cases h0 : integer z with
  | none => simp only [h0] at h; exact Option.noConfusion h
  | some vr =>
    obtain ⟨vw, r1⟩ := vr
    simp only [h0] at h
    cases h1 : ptag ['('] r1 with
    | none => simp only [h1] at h; exact Option.noConfusion h
    | some pr =>
      obtain ⟨u, r2⟩ := pr
      simp only [h1] at h
      cases h2 : item r2 with
      | none => simp only [h2] at h; exact Option.noConfusion h
      | some ir =>
        obtain ⟨v, r3⟩ := ir
        simp only [h2] at h
        cases h3 : ptag [')'] r3 with
        | none => simp only [h3] at h; exact Option.noConfusion h
        | some pr2 =>
          obtain ⟨u2, r4⟩ := pr2
          obtain ⟨tv, w⟩ := vw
          simp only [h3] at h
          have hr : r4 = r := congrArg Prod.snd (Option.some.inj h)
          rw [← hr]
          exact le_trans (ptag_le h3) (le_trans (hitem _ _ _ h2)
            (le_trans (ptag_le h1) (integer_le h0)))

theorem definite_array_le {item : Parser DataItem} : ParserLe (definite_array item) := by
  intro z a r h
  unfold definite_array at h
  cases h0 : wrapws (ptag ['[']) z with
  | none => simp only [h0] at h; exact Option.noConfusion h
  | some pr =>
    obtain ⟨u, r1⟩ := pr
    simp only [h0] at h
    cases h1 : separated_list [','] item r1 with
    | none => simp only [h1] at h; exact Option.noConfusion h
    | some er =>
      obtain ⟨elems, r2⟩ := er
      simp only [h1] at h
      cases h2 : opt_comma_tag [']'] r2 with
      | none => simp only [h2] at h; exact Option.noConfusion h
      | some or3 =>
        obtain ⟨u3, r3⟩ := or3
        simp only [h2] at h
        have hr : r3 = r := congrArg Prod.snd (Option.some.inj h)
        rw [← hr]
        exact le_trans (opt_comma_tag_le h2)
          (le_trans (separated_list_le r1 elems r2 h1)
            (wrapws_le (fun z0 a0 r0 h0 => ptag_le h0) z u r1 h0))

theorem indefinite_array_le {item : Parser DataItem} :
    ParserLe (indefinite_array item) := by
  intro z a r h
  unfold indefinite_array at h
  cases h0 : wrapws (ptag ['[', '_']) z with
  | none => simp only [h0] at h; exact Option.noConfusion h
  | some pr =>
    obtain ⟨u, r1⟩ := pr
    simp only [h0] at h
    cases h1 : separated_list [','] item r1 with
    | none => simp only [h1] at h; exact Option.noConfusion h
    | some er =>
      obtain ⟨elems, r2⟩ := er
      simp only [h1] at h
      cases h2 : opt_comma_tag [']'] r2 with
      | none => simp only [h2] at h; exact Option.noConfusion h
      | some or3 =>
        obtain ⟨u3, r3⟩ := or3
        simp only [h2] at h
        have hr : r3 = r := congrArg Prod.snd (Option.some.inj h)
        rw [← hr]
        exact le_trans (opt_comma_tag_le h2)
          (le_trans (separated_list_le r1 elems r2 h1)
            (wrapws_le (fun z0 a0 r0 h0 => ptag_le h0) z u r1 h0))

theorem array_le {item : Parser DataItem} : ParserLe (array item) :=
  palt_le definite_array_le indefinite_array_le

theorem definite_map_le {item : Parser DataItem} : ParserLe (definite_map item) := by
  intro z a r h
  unfold definite_map at h
  cases h0 : wrapws (ptag ['{']) z with
  | none => simp only [h0] at h; exact Option.noConfusion h
  | some pr =>
    obtain ⟨u, r1⟩ := pr
    simp only [h0] at h
    cases h1 : separated_list [','] (pairP item) r1 with
    | none => simp only [h1] at h; exact Option.noConfusion h
    | some er =>
      obtain ⟨entries, r2⟩ := er
      simp only [h1] at h
      cases h2 : opt_comma_tag ['}'] r2 with
      | none => simp only [h2] at h; exact Option.noConfusion h
      | some or3 =>
        obtain ⟨u3, r3⟩ := or3
        simp only [h2] at h
        have hr : r3 = r := congrArg Prod.snd (Option.some.inj h)
        rw [← hr]
        exact le_trans (opt_comma_tag_le h2)
          (le_trans (separated_list_le r1 entries r2 h1)
            (wrapws_le (fun z0 a0 r0 h0 => ptag_le h0) z u r1 h0))

theorem indefinite_map_le {item : Parser DataItem} : ParserLe (indefinite_map item) := by
  intro z a r h
  unfold indefinite_map at h
  cases h0 : wrapws (ptag ['{', '_']) z with
  | none => simp only [h0] at h; exact Option.noConfusion h
  | some pr =>
    obtain ⟨u, r1⟩ := pr
    simp only [h0] at h
    cases h1 : separated_list [','] (pairP item) r1 with
    | none => simp only [h1] at h; exact Option.noConfusion h
    | some er =>
      obtain ⟨entries, r2⟩ := er
      simp only [h1] at h
      cases h2 : opt_comma_tag ['}'] r2 with
      | none => simp only [h2] at h; exact Option.noConfusion h
      | some or3 =>
        obtain ⟨u3, r3⟩ := or3
        simp only [h2] at h
        have hr : r3 = r := congrArg Prod.snd (Option.some.inj h)
        rw [← hr]
        exact le_trans (opt_comma_tag_le h2)
          (le_trans (separated_list_le r1 entries r2 h1)
            (wrapws_le (fun z0 a0 r0 h0 => ptag_le h0) z u r1 h0))

theorem data_map_le {item : Parser DataItem} : ParserLe (data_map item) :=
  palt_le definite_map_le indefinite_map_le

theorem dataItemF_le : ∀ f : Nat, ParserLe (dataItemF f) := by
  intro f
  induction f with
  | zero => intro z a r h; exact Option.noConfusion h
  | succ f0 ih =>
    exact wrapws_le (palt_le float_le (palt_le (tagged_le ih)
      (palt_le positive_le (palt_le negative_le (palt_le bytestring_le
        (palt_le textstring_le (palt_le array_le (palt_le data_map_le simple_le))))))))

/-! ### Fuel agreement: the dispatcher is insensitive to sufficient fuel -/

theorem sepAux_congr {α : Type} {sep : List Char} {p q : Parser α} {N : Nat}
    (hpq : ∀ z : List Char, z.length ≤ N → p z = q z) :
    ∀ (f : Nat) (x : List Char), x.length ≤ N → sepAux sep p f x = sepAux sep q f x := by
  intro f
  induction f with
  | zero => intro x _; rfl
  | succ f0 ih =>
    intro x hx
    unfold sepAux
    cases h0 : ptag sep x with
    | none => rfl
    | some pr =>
      obtain ⟨u, r1⟩ := pr
      simp only [h0]
      have hr1 : r1.length ≤ N := le_trans (ptag_le h0) hx
      rw [hpq r1 hr1]
      cases h1 : q r1 with
      | none => rfl
      | some ar =>
        obtain ⟨a, r2⟩ := ar
        simp only [h1]
        by_cases hg : r2.length < x.length
        · rw [if_pos hg, if_pos hg, ih r2 (le_trans (le_of_lt hg) hx)]
        · rw [if_neg hg, if_neg hg]

theorem separated_list_congr {α : Type} {sep : List Char} {p q : Parser α} {N : Nat}
    (hpq : ∀ z : List Char, z.length ≤ N → p z = q z) :
    ∀ x : List Char, x.length ≤ N → separated_list sep p x = separated_list sep q x := by
  intro x hx
  unfold separated_list
  rw [hpq x hx]
  cases h0 : q x with
  | none => rfl
  | some ar =>
    obtain ⟨a, r1⟩ := ar
    simp only [h0]
    by_cases hg : r1.length < x.length
    · rw [if_pos hg, if_pos hg,
        sepAux_congr hpq (r1.length + 1) r1 (le_trans (le_of_lt hg) hx)]
    · rw [if_neg hg, if_neg hg]

theorem pairP_congr {p q : Parser DataItem} {N : Nat}
    (hpq : ∀ z : List Char, z.length ≤ N → p z = q z) (hple : ParserLe p) :
    ∀ x : List Char, x.length ≤ N → pairP p x = pairP q x := by
  intro x hx
  unfold pairP
  rw [hpq x hx]
  cases h0 : q x with
  | none => rfl
  | some kr =>
    obtain ⟨k, r1⟩ := kr
    simp only [h0]
    have hp1 : p x = some (k, r1) := by rw [hpq x hx, h0]
    have hr1 : r1.length ≤ x.length := hple x k r1 hp1
    cases h1 : ptag [':'] r1 with
    | none => rfl
    | some pr =>
      obtain ⟨u, r2⟩ := pr
      simp only [h1]
      have hr2 : r2.length ≤ N := le_trans (ptag_le h1) (le_trans hr1 hx)
      rw [hpq r2 hr2]

theorem tagged_congr {p q : Parser DataItem} {x : List Char}
    (hpq : ∀ z : List Char, z.length < x.length → p z = q z) :
    tagged p x = tagged q x := by
  unfold tagged
  cases h0 : integer x with
  | none => rfl
  | some vr =>
    obtain ⟨vw, r1⟩ := vr
    simp only [h0]
    cases h1 : ptag ['('] r1 with
    | none => rfl
    | some pr =>
      obtain ⟨u, r2⟩ := pr
      simp only [h1]
      have h2 := ptag_inv h1
      have hr2 : r2.length < x.length := by
        have hle := integer_le h0
        rw [h2.2] at hle
        simp only [List.length_append, List.length_cons, List.length_nil] at hle
        omega
      rw [hpq r2 hr2]

theorem wrapws_ptag_lt {t x u r1 : List Char} (ht : t ≠ [])
    (h : wrapws (ptag t) x = some (u, r1)) : r1.length < x.length := by
  unfold wrapws at h
  cases h0 : ptag t (x.dropWhile isMS) with
  | none => simp only [h0] at h; exact Option.noConfusion h
  | some pr =>
    obtain ⟨u0, r0⟩ := pr
    simp only [h0] at h
    have hr : r0.dropWhile isMS = r1 := congrArg Prod.snd (Option.some.inj h)
    obtain ⟨_, hx⟩ := ptag_inv h0
    have h1 : (x.dropWhile isMS).length = t.length + r0.length := by
      rw [hx, List.length_append]
    have h2 : 1 ≤ t.length := by
      cases t with
      | nil => exact absurd rfl ht
      | cons a s => simp
    have h3 : (x.dropWhile isMS).length ≤ x.length := length_dropWhile_le _ _
    have h4 : (r0.dropWhile isMS).length ≤ r0.length := length_dropWhile_le _ _
    rw [← hr]
    omega

theorem definite_array_congr {p q : Parser DataItem} {x : List Char}
    (hpq : ∀ z : List Char, z.length < x.length → p z = q z) :
    definite_array p x = definite_array q x := by
  unfold definite_array
  cases h0 : wrapws (ptag ['[']) x with
  | none => rfl
  | some pr =>
    obtain ⟨u, r1⟩ := pr
    simp only [h0]
    have hr1 : r1.length < x.length := wrapws_ptag_lt (by simp) h0
    rw [separated_list_congr (fun z hz => hpq z (lt_of_le_of_lt hz hr1)) r1 le_rfl]

theorem indefinite_array_congr {p q : Parser DataItem} {x : List Char}
    (hpq : ∀ z : List Char, z.length < x.length → p z = q z) :
    indefinite_array p x = indefinite_array q x := by
  unfold indefinite_array
  cases h0 : wrapws (ptag ['[', '_']) x with
  | none => rfl
  | some pr =>
    obtain ⟨u, r1⟩ := pr
    simp only [h0]
    have hr1 : r1.length < x.length := wrapws_ptag_lt (by simp) h0
    rw [separated_list_congr (fun z hz => hpq z (lt_of_le_of_lt hz hr1)) r1 le_rfl]

theorem array_congr {p q : Parser DataItem} {x : List Char}
    (hpq : ∀ z : List Char, z.length < x.length → p z = q z) :
    array p x = array q x := by
  unfold array palt
  rw [definite_array_congr hpq, indefinite_array_congr hpq]

theorem definite_map_congr {p q : Parser DataItem} {x : List Char}
    (hpq : ∀ z : List Char, z.length < x.length → p z = q z) (hple : ParserLe p) :
    definite_map p x = definite_map q x := by
  unfold definite_map
  cases h0 : wrapws (ptag ['{']) x with
  | none => rfl
  | some pr =>
    obtain ⟨u, r1⟩ := pr
    simp only [h0]
    have hr1 : r1.length < x.length := wrapws_ptag_lt (by simp) h0
    rw [separated_list_congr
      (pairP_congr (fun z hz => hpq z (lt_of_le_of_lt hz hr1)) hple) r1 le_rfl]

theorem indefinite_map_congr {p q : Parser DataItem} {x : List Char}
    (hpq : ∀ z : List Char, z.length < x.length → p z = q z) (hple : ParserLe p) :
    indefinite_map p x = indefinite_map q x := by
  unfold indefinite_map
  cases h0 : wrapws (ptag ['{', '_']) x with
  | none => rfl
  | some pr =>
    obtain ⟨u, r1⟩ := pr
    simp only [h0]
    have hr1 : r1.length < x.length := wrapws_ptag_lt (by simp) h0
    rw [separated_list_congr
      (pairP_congr (fun z hz => hpq z (lt_of_le_of_lt hz hr1)) hple) r1 le_rfl]

theorem data_map_congr {p q : Parser DataItem} {x : List Char}
    (hpq : ∀ z : List Char, z.length < x.length → p z = q z) (hple : ParserLe p) :
    data_map p x = data_map q x := by
  unfold data_map palt
  rw [definite_map_congr hpq hple, indefinite_map_congr hpq hple]

theorem dataItemF_agree : ∀ (f g : Nat) (x : List Char), x.length ≤ f → x.length ≤ g →
    dataItemF f x = dataItemF g x := by
  intro f
  induction f with
  | zero =>
    intro g x hf _
    have hx : x = [] := List.length_eq_zero.mp (Nat.le_zero.mp hf)
    subst hx
    cases g with
    | zero => rfl
    | succ g0 => rfl
  | succ f0 ih =>
    intro g x hf hg
    cases g with
    | zero =>
      have hx : x = [] := List.length_eq_zero.mp (Nat.le_zero.mp hg)
      subst hx
      rfl
    | succ g0 =>
      have hstrip : (x.dropWhile isMS).length ≤ x.length := length_dropWhile_le _ _
      have hpq : ∀ z : List Char, z.length < (x.dropWhile isMS).length →
          dataItemF f0 z = dataItemF g0 z := by
        intro z hz
        exact ih g0 z (by omega) (by omega)
      unfold dataItemF wrapws palt
      rw [tagged_congr hpq, array_congr hpq, data_map_congr hpq (dataItemF_le f0)]

/-! ### Appending a layout character or a closing parenthesis to a parse -/

/-- The characters appended in the extension arguments: layout or `)`. -/
def ExtChar (c : Char) : Prop := isMS c = true ∨ c = ')'

/-- Characters that may legitimately follow a nested item. -/
def Closer (a : Char) : Prop := a = ')' ∨ a = ']' ∨ a = '}' ∨ a = ',' ∨ a = ':'

/-- An empty rest, or one beginning with a closing character. -/
def CloserNil (r : List Char) : Prop := r = [] ∨ ∃ a t, r = a :: t ∧ Closer a

theorem extChar_cases {c : Char} (hc : ExtChar c) :
    c = ' ' ∨ c = '\t' ∨ c = '\r' ∨ c = '\n' ∨ c = ')' := by
  rcases hc with h | h
  · simp only [isMS, Bool.or_eq_true, decide_eq_true_eq] at h
    rcases h with ((h | h) | h) | h
    · exact Or.inl h
    · exact Or.inr (Or.inl h)
    · exact Or.inr (Or.inr (Or.inl h))
    · exact Or.inr (Or.inr (Or.inr (Or.inl h)))
  · exact Or.inr (Or.inr (Or.inr (Or.inr h)))

theorem extChar_facts {c : Char} (hc : ExtChar c) :
    c.isDigit = false ∧ c ≠ '_' ∧ c ≠ '(' ∧ c ≠ '\'' ∧ c ≠ '"' ∧ c ≠ '.' ∧
    c ≠ '+' ∧ c ≠ '-' ∧ c ≠ ',' ∧ c ≠ '[' ∧ c ≠ '{' := by
  rcases extChar_cases hc with rfl | rfl | rfl | rfl | rfl
  · exact (by decide)
  · exact (by decide)
  · exact (by decide)
  · exact (by decide)
  · exact (by decide)

theorem closer_cases {a : Char} (h : Closer a) : isMS a = false ∧ a ≠ 'h' ∧ a ≠ 'b' ∧
    a ≠ '\'' ∧ a ≠ '"' ∧ a ≠ '(' ∧ a ≠ '[' ∧ a ≠ '{' ∧ a.isDigit = false ∧
    a ≠ '-' ∧ a ≠ '+' ∧ a ≠ 'I' ∧ a ≠ 'N' ∧ a ≠ 'f' ∧ a ≠ 't' ∧ a ≠ 'n' ∧
    a ≠ 'u' ∧ a ≠ 's' := by
  rcases h with rfl | rfl | rfl | rfl | rfl
  · exact (by decide)
  · exact (by decide)
  · exact (by decide)
  · exact (by decide)
  · exact (by decide)

theorem isPrefixOf_append_one {c : Char} : ∀ (t x : List Char),
    t.isPrefixOf (x ++ [c]) = true → t.isPrefixOf x = true ∨ c ∈ t := by
  intro t
  induction t with
  | nil => intro x _; exact Or.inl (by simp [List.isPrefixOf])
  | cons a t' ih =>
    intro x h
    cases x with
    | nil =>
      simp only [List.nil_append, List.isPrefixOf, Bool.and_eq_true, beq_iff_eq] at h
      obtain ⟨hac, _⟩ := h
      exact Or.inr (by rw [hac]; exact List.mem_cons_self c t')
    | cons b x' =>
      simp only [List.cons_append, List.isPrefixOf, Bool.and_eq_true, beq_iff_eq] at h
      obtain ⟨hab, h2⟩ := h
      rcases ih x' h2 with h3 | h3
      · left
        simp [List.isPrefixOf, hab, h3]
      · exact Or.inr (List.mem_cons_of_mem a h3)

theorem ptag_ext {t x u r : List Char} (y : List Char) (h : ptag t x = some (u, r)) :
    ptag t (x ++ y) = some (u, r ++ y) := by
  obtain ⟨hu, hx⟩ := ptag_inv h
  subst hu
  rw [hx, List.append_assoc]
  exact ptag_run_tag u (r ++ y)

theorem ptag_fail_ext {t x : List Char} {c : Char} (hc : c ∉ t) (h : ptag t x = none) :
    ptag t (x ++ [c]) = none := by
  unfold ptag at h ⊢
  by_cases hp : t.isPrefixOf (x ++ [c]) = true
  · rcases isPrefixOf_append_one t x hp with h2 | h2
    · rw [if_pos h2] at h
      exact absurd h (by simp)
    · exact absurd h2 hc
  · rw [if_neg hp]

theorem head_dropWhile_false (p : Char → Bool) : ∀ x : List Char,
    ∀ a ∈ (x.dropWhile p).head?, p a = false := by
  intro x
  induction x with
  | nil => intro a ha; simp at ha
  | cons b t ih =>
    intro a ha
    rw [List.dropWhile_cons] at ha
    by_cases hb : p b = true
    · rw [if_pos hb] at ha
      exact ih a ha
    · rw [if_neg hb] at ha
      simp only [List.head?_cons, Option.mem_def, Option.some.injEq] at ha
      rw [← ha]
      simpa using hb

theorem notDigitStart_append_one {r : List Char} {c : Char} (hc : c.isDigit = false)
    (hr : NotDigitStart r) : NotDigitStart (r ++ [c]) := by
  intro a ha
  cases r with
  | nil =>
    simp only [List.nil_append, List.head?_cons, Option.mem_def, Option.some.injEq] at ha
    cases ha
    exact hc
  | cons b t =>
    simp only [List.cons_append, List.head?_cons, Option.mem_def, Option.some.injEq] at ha
    cases ha
    exact hr _ (by simp)

theorem pdigit1_inv {x d r : List Char} (h : pdigit1 x = some (d, r)) :
    x = d ++ r ∧ DigitRun d ∧ NotDigitStart r := by
  unfold pdigit1 at h
  by_cases h0 : x.takeWhile Char.isDigit = []
  · rw [if_pos h0] at h
    exact absurd h (by simp)
  · rw [if_neg h0] at h
    have hd : x.takeWhile Char.isDigit = d := congrArg Prod.fst (Option.some.inj h)
    have hr : x.dropWhile Char.isDigit = r := congrArg Prod.snd (Option.some.inj h)
    refine ⟨by rw [← hd, ← hr, List.takeWhile_append_dropWhile], ⟨?_, ?_⟩, ?_⟩
    · intro he
      exact h0 (hd.trans he)
    · intro a ha
      exact mem_takeWhile_pred (hd ▸ ha)
    · rw [← hr]
      exact head_dropWhile_false _ x

theorem pdigit1_ext {x d r : List Char} {c : Char} (hc : c.isDigit = false)
    (h : pdigit1 x = some (d, r)) : pdigit1 (x ++ [c]) = some (d, r ++ [c]) := by
  obtain ⟨hx, hd, hr⟩ := pdigit1_inv h
  rw [hx, List.append_assoc]
  exact pdigit1_run hd (notDigitStart_append_one hc hr)

theorem pdigit1_fail_ext {x : List Char} {c : Char} (hc : c.isDigit = false)
    (h : pdigit1 x = none) : pdigit1 (x ++ [c]) = none := by
  have hx : NotDigitStart x := by
    unfold pdigit1 at h
    by_cases h0 : x.takeWhile Char.isDigit = []
    · intro a ha
      cases x with
      | nil => simp at ha
      | cons b t =>
        simp only [List.head?_cons, Option.mem_def, Option.some.injEq] at ha
        rw [← ha]
        rw [List.takeWhile_cons] at h0
        by_cases hb : b.isDigit = true
        · rw [if_pos hb] at h0
          exact absurd h0 (by simp)
        · simpa using hb
    · rw [if_neg h0] at h
      exact absurd h (by simp)
  exact pdigit1_none (notDigitStart_append_one hc hx)

theorem signStep_ext {x : List Char} {c : Char} (hc1 : c ≠ '+') (hc2 : c ≠ '-') :
    signStep (x ++ [c]) = ((signStep x).1, (signStep x).2 ++ [c]) := by
  cases x with
  | nil =>
    simp only [List.nil_append, signStep]
    rw [if_neg (by rintro (h | h) <;> [exact hc1 h; exact hc2 h])]
  | cons b t =>
    by_cases hg : b = '+' ∨ b = '-'
    · simp only [List.cons_append, signStep, if_pos hg]
    · simp only [List.cons_append, signStep, if_neg hg]

theorem encoding_ext {x : List Char} {e : Nat} {r : List Char} {c : Char}
    (hcd : c.isDigit = false) (hcu : c ≠ '_') (h : encoding x = some (e, r)) :
    encoding (x ++ [c]) = some (e, r ++ [c]) := by
  unfold encoding at h ⊢
  cases h0 : ptag ['_'] x with
  | none => simp only [h0] at h; exact Option.noConfusion h
  | some pr =>
    obtain ⟨u, r1⟩ := pr
    simp only [h0] at h
    simp only [ptag_ext [c] h0]
    cases h1 : pdigit1 r1 with
    | none => simp only [h1] at h; exact Option.noConfusion h
    | some dr =>
      obtain ⟨d, r2⟩ := dr
      simp only [h1] at h
      simp only [pdigit1_ext hcd h1]
      cases h2 : u64OfDigits d with
      | none => simp only [h2] at h; exact Option.noConfusion h
      | some v =>
        simp only [h2] at h ⊢
        by_cases h3 : v < 4
        · rw [if_pos h3] at h ⊢
          have he : v = e := congrArg Prod.fst (Option.some.inj h)
          have hr : r2 = r := congrArg Prod.snd (Option.some.inj h)
          rw [he, hr]
        · rw [if_neg h3] at h
          exact Option.noConfusion h

theorem encoding_fail_ext {x : List Char} {c : Char} (hcd : c.isDigit = false)
    (hcu : c ≠ '_') (h : encoding x = none) : encoding (x ++ [c]) = none := by
  unfold encoding at h ⊢
  cases h0 : ptag ['_'] x with
  | none =>
    rw [ptag_fail_ext (by simpa using hcu) h0]
  | some pr =>
    obtain ⟨u, r1⟩ := pr
    simp only [h0] at h
    simp only [ptag_ext [c] h0]
    cases h1 : pdigit1 r1 with
    | none =>
      rw [pdigit1_fail_ext hcd h1]
    | some dr =>
      obtain ⟨d, r2⟩ := dr
      simp only [h1] at h
      simp only [pdigit1_ext hcd h1]
      cases h2 : u64OfDigits d with
      | none => simp only [h2]
      | some v =>
        simp only [h2] at h ⊢
        by_cases h3 : v < 4
        · rw [if_pos h3] at h
          exact absurd h (by simp)
        · rw [if_neg h3]

theorem integer_ext {x : List Char} {v : Nat × IntegerWidth} {r : List Char} {c : Char}
    (hcd : c.isDigit = false) (hcu : c ≠ '_') (h : integer x = some (v, r)) :
    integer (x ++ [c]) = some (v, r ++ [c]) := by
  unfold integer at h ⊢
  cases h0 : pdigit1 x with
  | none => simp only [h0] at h; exact Option.noConfusion h
  | some dr =>
    obtain ⟨d, r1⟩ := dr
    simp only [h0] at h
    simp only [pdigit1_ext hcd h0]
    cases h1 : u64OfDigits d with
    | none => simp only [h1] at h; exact Option.noConfusion h
    | some n =>
      simp only [h1] at h
      cases h2 : encoding r1 with
      | some er =>
        obtain ⟨e, r2⟩ := er
        simp only [h2] at h
        simp only [encoding_ext hcd hcu h2]
        have hv : (n, if e = 0 then IntegerWidth.eight else if e = 1 then
            IntegerWidth.sixteen else if e = 2 then IntegerWidth.thirtyTwo
            else IntegerWidth.sixtyFour) = v := congrArg Prod.fst (Option.some.inj h)
        have hr : r2 = r := congrArg Prod.snd (Option.some.inj h)
        rw [hv, hr]
      | none =>
        simp only [h2] at h
        simp only [encoding_fail_ext hcd hcu h2]
        have hv : (n, IntegerWidth.unknown) = v := congrArg Prod.fst (Option.some.inj h)
        have hr : r1 = r := congrArg Prod.snd (Option.some.inj h)
        rw [hv, hr]

theorem integer_fail_ext {x : List Char} {c : Char} (hcd : c.isDigit = false)
    (h : integer x = none) : integer (x ++ [c]) = none := by
  unfold integer at h ⊢
  cases h0 : pdigit1 x with
  | none => rw [pdigit1_fail_ext hcd h0]
  | some dr =>
    obtain ⟨d, r1⟩ := dr
    simp only [h0] at h
    simp only [pdigit1_ext hcd h0]
    cases h1 : u64OfDigits d with
    | none => simp only [h1]
    | some n =>
      simp only [h1] at h
      cases h2 : encoding r1 with
      | some er => simp only [h2] at h; exact Option.noConfusion h
      | none => simp only [h2] at h; exact Option.noConfusion h

theorem extChar_facts2 {c : Char} (hc : ExtChar c) :
    c ≠ 'e' ∧ c ≠ 'E' ∧ c ≠ ':' ∧ c ≠ ']' ∧ c ≠ '}' ∧ c ≠ '\\' ∧
    c ∉ (['I', 'n', 'f', 'i', 'n', 'i', 't', 'y'] : List Char) ∧
    c ∉ (['-', 'I', 'n', 'f', 'i', 'n', 'i', 't', 'y'] : List Char) ∧
    c ∉ (['N', 'a', 'N'] : List Char) ∧
    c ∉ (['f', 'a', 'l', 's', 'e'] : List Char) ∧
    c ∉ (['t', 'r', 'u', 'e'] : List Char) ∧
    c ∉ (['n', 'u', 'l', 'l'] : List Char) ∧
    c ∉ (['u', 'n', 'd', 'e', 'f', 'i', 'n', 'e', 'd'] : List Char) ∧
    c ∉ (['s', 'i', 'm', 'p', 'l', 'e'] : List Char) := by
  rcases extChar_cases hc with rfl | rfl | rfl | rfl | rfl
  · exact (by decide)
  · exact (by decide)
  · exact (by decide)
  · exact (by decide)
  · exact (by decide)

theorem floatTail_ext {sg y s r : List Char} {c : Char} (hc : ExtChar c)
    (h : floatTail sg y = some (s, r)) : floatTail sg (y ++ [c]) = some (s, r ++ [c]) := by
  obtain ⟨hcd, hcu, hcp, hcq, hcq2, hcdot, hcplus, hcminus, hccomma, hcbrk, hcbrc⟩ :=
    extChar_facts hc
  obtain ⟨hce, hcE, _⟩ := extChar_facts2 hc
  unfold floatTail at h ⊢
  cases h0 : pdigit1 y with
  | none => simp only [h0] at h; exact Option.noConfusion h
  | some dr =>
    obtain ⟨d1, r2⟩ := dr
    simp only [h0] at h
    simp only [pdigit1_ext hcd h0]
    cases h1 : ptag ['.'] r2 with
    | none => simp only [h1] at h; exact Option.noConfusion h
    | some pr =>
      obtain ⟨u, r3⟩ := pr
      simp only [h1] at h
      simp only [ptag_ext [c] h1]
      cases h2 : pdigit1 r3 with
      | none => simp only [h2] at h; exact Option.noConfusion h
      | some dr2 =>
        obtain ⟨d2, r4⟩ := dr2
        simp only [h2] at h
        simp only [pdigit1_ext hcd h2]
        cases hr4c : r4 with
        | nil =>
          simp only [hr4c] at h
          simp only [List.nil_append]
          have hs : sg ++ d1 ++ '.' :: d2 = s := congrArg Prod.fst (Option.some.inj h)
          have hr : ([] : List Char) = r := congrArg Prod.snd (Option.some.inj h)
          rw [if_neg (by rintro (he | he) <;> [exact hce he; exact hcE he])]
          rw [hs, ← hr]
          rfl
        | cons e r5 =>
          simp only [hr4c] at h
          simp only [List.cons_append]
          by_cases hg : e = 'e' ∨ e = 'E'
          · rw [if_pos hg] at h ⊢
            rw [signStep_ext hcplus hcminus]
            cases h3 : pdigit1 (signStep r5).2 with
            | none =>
              simp only [h3] at h
              simp only [pdigit1_fail_ext hcd h3]
              have hs : sg ++ d1 ++ '.' :: d2 = s := congrArg Prod.fst (Option.some.inj h)
              have hr : e :: r5 = r := congrArg Prod.snd (Option.some.inj h)
              rw [hs, ← hr]
              rfl
            | some dr3 =>
              obtain ⟨d3, r7⟩ := dr3
              simp only [h3] at h
              simp only [pdigit1_ext hcd h3]
              have hs : sg ++ d1 ++ '.' :: d2 ++ e :: ((signStep r5).1 ++ d3) = s :=
                congrArg Prod.fst (Option.some.inj h)
              have hr : r7 = r := congrArg Prod.snd (Option.some.inj h)
              rw [hs, hr]
          · rw [if_neg hg] at h ⊢
            have hs : sg ++ d1 ++ '.' :: d2 = s := congrArg Prod.fst (Option.some.inj h)
            have hr : e :: r5 = r := congrArg Prod.snd (Option.some.inj h)
            rw [hs, ← hr]
            rfl

theorem floatTail_fail_ext {sg y : List Char} {c : Char} (hc : ExtChar c)
    (h : floatTail sg y = none) : floatTail sg (y ++ [c]) = none := by
  obtain ⟨hcd, _, _, _, _, hcdot, _⟩ := extChar_facts hc
  unfold floatTail at h ⊢
  cases h0 : pdigit1 y with
  | none => rw [pdigit1_fail_ext hcd h0]
  | some dr =>
    obtain ⟨d1, r2⟩ := dr
    simp only [h0] at h
    simp only [pdigit1_ext hcd h0]
    cases h1 : ptag ['.'] r2 with
    | none =>
      rw [ptag_fail_ext (by simpa using hcdot) h1]
    | some pr =>
      obtain ⟨u, r3⟩ := pr
      simp only [h1] at h
      simp only [ptag_ext [c] h1]
      cases h2 : pdigit1 r3 with
      | none =>
        rw [pdigit1_fail_ext hcd h2]
      | some dr2 =>
        obtain ⟨d2, r4⟩ := dr2
        simp only [h2] at h
        cases hr4c : r4 with
        | nil => simp only [hr4c] at h; exact Option.noConfusion h
        | cons e r5 =>
          simp only [hr4c] at h
          by_cases hg : e = 'e' ∨ e = 'E'
          · rw [if_pos hg] at h
            cases h3 : pdigit1 (signStep r5).2 with
            | none => simp only [h3] at h; exact Option.noConfusion h
            | some dr3 =>
              obtain ⟨d3, r7⟩ := dr3
              simp only [h3] at h
              exact Option.noConfusion h
          · rw [if_neg hg] at h
            exact Option.noConfusion h

theorem recognize_float_ext {x s r : List Char} {c : Char} (hc : ExtChar c)
    (h : recognize_float x = some (s, r)) :
    recognize_float (x ++ [c]) = some (s, r ++ [c]) := by
  obtain ⟨_, _, _, _, _, _, hcplus, hcminus, _⟩ := extChar_facts hc
  unfold recognize_float at h ⊢
  rw [signStep_ext hcplus hcminus]
  exact floatTail_ext hc h

theorem recognize_float_fail_ext {x : List Char} {c : Char} (hc : ExtChar c)
    (h : recognize_float x = none) : recognize_float (x ++ [c]) = none := by
  obtain ⟨_, _, _, _, _, _, hcplus, hcminus, _⟩ := extChar_facts hc
  unfold recognize_float at h ⊢
  rw [signStep_ext hcplus hcminus]
  exact floatTail_fail_ext hc h

theorem float_value_ext {x : List Char} {v : FloatVal} {r : List Char} {c : Char}
    (hc : ExtChar c) (h : float_value x = some (v, r)) :
    float_value (x ++ [c]) = some (v, r ++ [c]) := by
  obtain ⟨_, _, _, _, _, _, hInf, hNegInf, hNaN, _⟩ := extChar_facts2 hc
  unfold float_value at h ⊢
  cases h0 : recognize_float x with
  | some sr =>
    obtain ⟨s, r1⟩ := sr
    simp only [h0] at h
    simp only [recognize_float_ext hc h0]
    have hv : FloatVal.num s = v := congrArg Prod.fst (Option.some.inj h)
    have hr : r1 = r := congrArg Prod.snd (Option.some.inj h)
    rw [hv, hr]
  | none =>
    simp only [h0] at h
    simp only [recognize_float_fail_ext hc h0]
    cases h1 : ptag ['I', 'n', 'f', 'i', 'n', 'i', 't', 'y'] x with
    | some pr =>
      obtain ⟨u, r1⟩ := pr
      simp only [h1] at h
      simp only [ptag_ext [c] h1]
      have hv : FloatVal.inf = v := congrArg Prod.fst (Option.some.inj h)
      have hr : r1 = r := congrArg Prod.snd (Option.some.inj h)
      rw [hv, hr]
    | none =>
      simp only [h1] at h
      simp only [ptag_fail_ext hInf h1]
      cases h2 : ptag ['-', 'I', 'n', 'f', 'i', 'n', 'i', 't', 'y'] x with
      | some pr =>
        obtain ⟨u, r1⟩ := pr
        simp only [h2] at h
        simp only [ptag_ext [c] h2]
        have hv : FloatVal.negInf = v := congrArg Prod.fst (Option.some.inj h)
        have hr : r1 = r := congrArg Prod.snd (Option.some.inj h)
        rw [hv, hr]
      | none =>
        simp only [h2] at h
        simp only [ptag_fail_ext hNegInf h2]
        cases h3 : ptag ['N', 'a', 'N'] x with
        | some pr =>
          obtain ⟨u, r1⟩ := pr
          simp only [h3] at h
          simp only [ptag_ext [c] h3]
          have hv : FloatVal.nan = v := congrArg Prod.fst (Option.some.inj h)
          have hr : r1 = r := congrArg Prod.snd (Option.some.inj h)
          rw [hv, hr]
        | none => simp only [h3] at h; exact Option.noConfusion h

theorem float_value_fail_ext {x : List Char} {c : Char} (hc : ExtChar c)
    (h : float_value x = none) : float_value (x ++ [c]) = none := by
  obtain ⟨_, _, _, _, _, _, hInf, hNegInf, hNaN, _⟩ := extChar_facts2 hc
  unfold float_value at h ⊢
  cases h0 : recognize_float x with
  | some sr => simp only [h0] at h; exact Option.noConfusion h
  | none =>
    simp only [h0] at h
    simp only [recognize_float_fail_ext hc h0]
    cases h1 : ptag ['I', 'n', 'f', 'i', 'n', 'i', 't', 'y'] x with
    | some pr => simp only [h1] at h; exact Option.noConfusion h
    | none =>
      simp only [h1] at h
      simp only [ptag_fail_ext hInf h1]
      cases h2 : ptag ['-', 'I', 'n', 'f', 'i', 'n', 'i', 't', 'y'] x with
      | some pr => simp only [h2] at h; exact Option.noConfusion h
      | none =>
        simp only [h2] at h
        simp only [ptag_fail_ext hNegInf h2]
        cases h3 : ptag ['N', 'a', 'N'] x with
        | some pr => simp only [h3] at h; exact Option.noConfusion h
        | none => simp only [ptag_fail_ext hNaN h3]

theorem float_ext {x : List Char} {v : DataItem} {r : List Char} {c : Char}
    (hc : ExtChar c) (h : float x = some (v, r)) :
    float (x ++ [c]) = some (v, r ++ [c]) := by
  obtain ⟨hcd, hcu, _⟩ := extChar_facts hc
  unfold float at h ⊢
  cases h0 : float_value x with
  | none => simp only [h0] at h; exact Option.noConfusion h
  | some vr =>
    obtain ⟨fv, r1⟩ := vr
    simp only [h0] at h
    simp only [float_value_ext hc h0]
    cases h1 : encoding r1 with
    | some er =>
      obtain ⟨e, r2⟩ := er
      simp only [h1] at h
      simp only [encoding_ext hcd hcu h1]
      by_cases he : 0 < e
      · rw [if_pos he] at h ⊢
        have hv : _ = v := congrArg Prod.fst (Option.some.inj h)
        have hr : r2 = r := congrArg Prod.snd (Option.some.inj h)
        rw [← hv, hr]
      · rw [if_neg he] at h ⊢
        have hv : DataItem.float fv FloatWidth.unknown = v :=
          congrArg Prod.fst (Option.some.inj h)
        have hr : r1 = r := congrArg Prod.snd (Option.some.inj h)
        rw [hv, hr]
    | none =>
      simp only [h1] at h
      simp only [encoding_fail_ext hcd hcu h1]
      have hv : DataItem.float fv FloatWidth.unknown = v :=
        congrArg Prod.fst (Option.some.inj h)
      have hr : r1 = r := congrArg Prod.snd (Option.some.inj h)
      rw [hv, hr]

theorem float_fail_ext {x : List Char} {c : Char} (hc : ExtChar c)
    (h : float x = none) : float (x ++ [c]) = none := by
  unfold float at h ⊢
  cases h0 : float_value x with
  | some vr =>
    obtain ⟨fv, r1⟩ := vr
    simp only [h0] at h
    cases h1 : encoding r1 with
    | some er =>
      obtain ⟨e, r2⟩ := er
      simp only [h1] at h
      by_cases he : 0 < e
      · rw [if_pos he] at h
        exact Option.noConfusion h
      · rw [if_neg he] at h
        exact Option.noConfusion h
    | none => simp only [h1] at h; exact Option.noConfusion h
  | none => simp only [float_value_fail_ext hc h0]

theorem positive_ext {x : List Char} {v : DataItem} {r : List Char} {c : Char}
    (hc : ExtChar c) (h : positive x = some (v, r)) :
    positive (x ++ [c]) = some (v, r ++ [c]) := by
  obtain ⟨hcd, hcu, _⟩ := extChar_facts hc
  unfold positive at h ⊢
  cases h0 : integer x with
  | none => simp only [h0] at h; exact Option.noConfusion h
  | some vr =>
    obtain ⟨vw, r1⟩ := vr
    obtain ⟨n, w⟩ := vw
    simp only [h0] at h
    simp only [integer_ext hcd hcu h0]
    have hv : _ = v := congrArg Prod.fst (Option.some.inj h)
    have hr : r1 = r := congrArg Prod.snd (Option.some.inj h)
    rw [← hv, hr]

theorem positive_fail_ext {x : List Char} {c : Char} (hc : ExtChar c)
    (h : positive x = none) : positive (x ++ [c]) = none := by
  obtain ⟨hcd, _⟩ := extChar_facts hc
  unfold positive at h ⊢
  cases h0 : integer x with
  | none => simp only [integer_fail_ext hcd h0]
  | some vr =>
    obtain ⟨vw, r1⟩ := vr
    simp only [h0] at h
    exact Option.noConfusion h

theorem negative_ext {x : List Char} {v : DataItem} {r : List Char} {c : Char}
    (hc : ExtChar c) (h : negative x = some (v, r)) :
    negative (x ++ [c]) = some (v, r ++ [c]) := by
  obtain ⟨hcd, hcu, _⟩ := extChar_facts hc
  unfold negative at h ⊢
  cases h0 : ptag ['-'] x with
  | none => simp only [h0] at h; exact Option.noConfusion h
  | some pr =>
    obtain ⟨u, r1⟩ := pr
    simp only [h0] at h
    simp only [ptag_ext [c] h0]
    cases h1 : integer r1 with
    | none => simp only [h1] at h; exact Option.noConfusion h
    | some vr =>
      obtain ⟨vw, r2⟩ := vr
      obtain ⟨n, w⟩ := vw
      simp only [h1] at h
      simp only [integer_ext hcd hcu h1]
      by_cases hv : 0 < n
      · rw [if_pos hv] at h ⊢
        have hv2 : _ = v := congrArg Prod.fst (Option.some.inj h)
        have hr : r2 = r := congrArg Prod.snd (Option.some.inj h)
        rw [← hv2, hr]
      · rw [if_neg hv] at h
        exact Option.noConfusion h

theorem negative_fail_ext {x : List Char} {c : Char} (hc : ExtChar c)
    (h : negative x = none) : negative (x ++ [c]) = none := by
  obtain ⟨hcd, hcu, _, _, _, _, _, hcminus, _⟩ := extChar_facts hc
  unfold negative at h ⊢
  cases h0 : ptag ['-'] x with
  | none => simp only [ptag_fail_ext (by simpa using hcminus) h0]
  | some pr =>
    obtain ⟨u, r1⟩ := pr
    simp only [h0] at h
    simp only [ptag_ext [c] h0]
    cases h1 : integer r1 with
    | none => simp only [integer_fail_ext hcd h1]
    | some vr =>
      obtain ⟨vw, r2⟩ := vr
      obtain ⟨n, w⟩ := vw
      simp only [h1] at h
      simp only [integer_ext hcd hcu h1]
      by_cases hv : 0 < n
      · rw [if_pos hv] at h
        exact Option.noConfusion h
      · rw [if_neg hv]

theorem simple_ext {x : List Char} {v : DataItem} {r : List Char} {c : Char}
    (hc : ExtChar c) (h : simple x = some (v, r)) :
    simple (x ++ [c]) = some (v, r ++ [c]) := by
  obtain ⟨hcd, _⟩ := extChar_facts hc
  obtain ⟨_, _, _, _, _, _, _, _, _, hF, hT, hN, hU, hS⟩ := extChar_facts2 hc
  obtain ⟨_, _, hcp, _⟩ := extChar_facts hc
  unfold simple at h ⊢
  cases g1 : ptag ['f', 'a', 'l', 's', 'e'] x with
  | some pr =>
    obtain ⟨u, r1⟩ := pr
    simp only [g1] at h
    simp only [ptag_ext [c] g1]
    have hv : DataItem.simpleItem 20 = v := congrArg Prod.fst (Option.some.inj h)
    have hr : r1 = r := congrArg Prod.snd (Option.some.inj h)
    rw [hv, hr]
  | none =>
    simp only [g1] at h
    simp only [ptag_fail_ext hF g1]
    cases g2 : ptag ['t', 'r', 'u', 'e'] x with
    | some pr =>
      obtain ⟨u, r1⟩ := pr
      simp only [g2] at h
      simp only [ptag_ext [c] g2]
      have hv : DataItem.simpleItem 21 = v := congrArg Prod.fst (Option.some.inj h)
      have hr : r1 = r := congrArg Prod.snd (Option.some.inj h)
      rw [hv, hr]
    | none =>
      simp only [g2] at h
      simp only [ptag_fail_ext hT g2]
      cases g3 : ptag ['n', 'u', 'l', 'l'] x with
      | some pr =>
        obtain ⟨u, r1⟩ := pr
        simp only [g3] at h
        simp only [ptag_ext [c] g3]
        have hv : DataItem.simpleItem 22 = v := congrArg Prod.fst (Option.some.inj h)
        have hr : r1 = r := congrArg Prod.snd (Option.some.inj h)
        rw [hv, hr]
      | none =>
        simp only [g3] at h
        simp only [ptag_fail_ext hN g3]
        cases g4 : ptag ['u', 'n', 'd', 'e', 'f', 'i', 'n', 'e', 'd'] x with
        | some pr =>
          obtain ⟨u, r1⟩ := pr
          simp only [g4] at h
          simp only [ptag_ext [c] g4]
          have hv : DataItem.simpleItem 23 = v := congrArg Prod.fst (Option.some.inj h)
          have hr : r1 = r := congrArg Prod.snd (Option.some.inj h)
          rw [hv, hr]
        | none =>
          simp only [g4] at h
          simp only [ptag_fail_ext hU g4]
          cases g5 : ptag ['s', 'i', 'm', 'p', 'l', 'e'] x with
          | none => simp only [g5] at h; exact Option.noConfusion h
          | some pr =>
            obtain ⟨u, r1⟩ := pr
            simp only [g5] at h
            simp only [ptag_ext [c] g5]
            cases g6 : ptag ['('] r1 with
            | none => simp only [g6] at h; exact Option.noConfusion h
            | some pr2 =>
              obtain ⟨u2, r2⟩ := pr2
              simp only [g6] at h
              simp only [ptag_ext [c] g6]
              cases g7 : pdigit1 r2 with
              | none => simp only [g7] at h; exact Option.noConfusion h
              | some dr =>
                obtain ⟨d, r3⟩ := dr
                simp only [g7] at h
                simp only [pdigit1_ext hcd g7]
                cases g8 : ptag [')'] r3 with
                | none => simp only [g8] at h; exact Option.noConfusion h
                | some pr3 =>
                  obtain ⟨u3, r4⟩ := pr3
                  simp only [g8] at h
                  simp only [ptag_ext [c] g8]
                  cases g9 : u8OfDigits d with
                  | none => simp only [g9] at h; exact Option.noConfusion h
                  | some n =>
                    simp only [g9] at h ⊢
                    have hv : DataItem.simpleItem n = v :=
                      congrArg Prod.fst (Option.some.inj h)
                    have hr : r4 = r := congrArg Prod.snd (Option.some.inj h)
                    rw [hv, hr]

theorem opt_comma_tag_ext {t x u r : List Char} {c : Char} (ht : t ≠ [])
    (hct : c ∉ t) (h : opt_comma_tag t x = some (u, r)) :
    opt_comma_tag t (x ++ [c]) = some (u, r ++ [c]) := by
  unfold opt_comma_tag at h ⊢
  cases h0 : ptag t x with
  | some res =>
    simp only [h0] at h
    have hres : res = (u, r) := Option.some.inj h
    rw [hres] at h0
    simp only [ptag_ext [c] h0]
  | none =>
    simp only [h0] at h
    simp only [ptag_fail_ext hct h0]
    cases h1 : ptag [','] x with
    | none => simp only [h1] at h; exact Option.noConfusion h
    | some pr =>
      obtain ⟨u1, r1⟩ := pr
      simp only [h1] at h
      simp only [ptag_ext [c] h1]
      have hne : r1.dropWhile isMS ≠ [] := by
        intro hn
        rw [hn] at h
        cases t with
        | nil => exact absurd rfl ht
        | cons a s =>
          rw [ptag_cons_nil s] at h
          exact Option.noConfusion h
      rw [dropWhile_append_of_ne_nil [c] hne]
      exact ptag_ext [c] h

theorem dataItemF_fail_head_char {f : Nat} {z : List Char} {a : Char} {t : List Char}
    (hz : z.dropWhile isMS = a :: t) (hms : isMS a = false) (hdg : a.isDigit = false)
    (h1 : a ≠ '+') (h2 : a ≠ '-') (h3 : a ≠ 'I') (h4 : a ≠ 'N') (h5 : a ≠ 'h')
    (h6 : a ≠ 'b') (h7 : a ≠ '\'') (h8 : a ≠ '"') (h9 : a ≠ '(') (h10 : a ≠ '[')
    (h11 : a ≠ '{') (h12 : a ≠ 'f') (h13 : a ≠ 't') (h14 : a ≠ 'n') (h15 : a ≠ 'u')
    (h16 : a ≠ 's') : dataItemF f z = none := by
  cases f with
  | zero => rfl
  | succ f0 =>
    apply dataItemF_none_all <;> rw [hz]
    · exact float_fail_head hdg h1 h2 h3 h4
    · exact tagged_fail_integer (integer_fail_head (notDigitStart_cons t hdg))
    · exact positive_fail_head (notDigitStart_cons t hdg)
    · exact negative_fail_head (head_cons_prop t h2)
    · exact bytestring_fail_head hms h5 h6 h7 h9
    · exact textstring_fail_head hms h8 h9
    · exact array_fail_head hms h10
    · exact map_fail_head hms h11
    · exact simple_fail_head h12 h13 h14 h15 h16

theorem dataItemF_fail_closer {f : Nat} {z : List Char} {a : Char} {t : List Char}
    (hz : z.dropWhile isMS = a :: t) (ha : Closer a ∨ a = '_') : dataItemF f z = none := by
  rcases ha with hcl | rfl
  · obtain ⟨hms, h5, h6, h7, h8, h9, h10, h11, hdg, h2, h1, h3, h4,
      h12, h13, h14, h15, h16⟩ := closer_cases hcl
    exact dataItemF_fail_head_char hz hms hdg h1 h2 h3 h4 h5 h6 h7 h8 h9 h10 h11
      h12 h13 h14 h15 h16
  · exact dataItemF_fail_head_char hz (by decide) (by decide) (by decide) (by decide)
      (by decide) (by decide) (by decide) (by decide) (by decide) (by decide)
      (by decide) (by decide) (by decide) (by decide) (by decide) (by decide)
      (by decide) (by decide)

theorem wrapws_out_stripped {α : Type} {p : Parser α} {z : List Char} {a : α}
    {r : List Char} (h : wrapws p z = some (a, r)) : r.dropWhile isMS = r := by
  unfold wrapws at h
  cases h0 : p (z.dropWhile isMS) with
  | none => simp only [h0] at h; exact Option.noConfusion h
  | some ar =>
    obtain ⟨a0, r0⟩ := ar
    simp only [h0] at h
    have hr : r0.dropWhile isMS = r := congrArg Prod.snd (Option.some.inj h)
    rw [← hr]
    exact dropWhile_idem r0

theorem dataItemF_out_stripped {f : Nat} {z : List Char} {v : DataItem} {r : List Char}
    (h : dataItemF f z = some (v, r)) : r.dropWhile isMS = r := by
  cases f with
  | zero => exact Option.noConfusion h
  | succ f0 =>
    unfold dataItemF at h
    exact wrapws_out_stripped h

theorem stripped_head_not_ms {a : Char} {t : List Char}
    (h : (a :: t).dropWhile isMS = a :: t) : isMS a = false := by
  by_cases ha : isMS a = true
  · rw [List.dropWhile_cons, if_pos ha] at h
    have := length_dropWhile_le t isMS
    have h2 := congrArg List.length h
    simp only [List.length_cons] at h2
    omega
  · simpa using ha

/-- How the rest of a parse changes when the input is extended by `c`: its
layout-stripped form is that of `r ++ [c]`, and it is exactly `r ++ [c]`
whenever `r` begins with a non-layout character. -/
def ExtRest (c : Char) (r R : List Char) : Prop :=
  R.dropWhile isMS = (r ++ [c]).dropWhile isMS ∧
  (∀ a t, r = a :: t → isMS a = false → R = r ++ [c])

theorem extRest_self {c : Char} (r : List Char) : ExtRest c r (r ++ [c]) :=
  ⟨rfl, fun _ _ _ _ => rfl⟩

theorem extRest_strip {c : Char} (r : List Char) :
    ExtRest c r ((r ++ [c]).dropWhile isMS) := by
  constructor
  · exact dropWhile_idem _
  · intro a t hr hms
    rw [hr, List.cons_append]
    exact dropWhile_cons_false _ hms

theorem extRest_exact {c : Char} {r R : List Char} {a : Char} {t : List Char}
    (h : ExtRest c r R) (hr : r = a :: t) (hms : isMS a = false) : R = r ++ [c] :=
  h.2 a t hr hms

theorem closer_not_ms {a : Char} (h : Closer a) : isMS a = false := (closer_cases h).1

theorem closerNil_strip_of_stripped {r : List Char} (hs : r.dropWhile isMS = r) :
    CloserNil r → CloserNil (r.dropWhile isMS) := by
  intro h
  rw [hs]
  exact h

theorem closerNil_ext {c : Char} {r : List Char} (hc : ExtChar c) (h : CloserNil r) :
    CloserNil ((r ++ [c]).dropWhile isMS) := by
  rcases h with rfl | ⟨a, t, rfl, ha⟩
  · simp only [List.nil_append]
    rcases hc with hms | rfl
    · left
      simp [List.dropWhile_cons, hms]
    · right
      exact ⟨')', [], by simp [List.dropWhile_cons, isMS], Or.inl rfl⟩
  · right
    rw [List.cons_append, dropWhile_cons_false _ (closer_not_ms ha)]
    exact ⟨a, t ++ [c], rfl, ha⟩

theorem manyAux_none_input {α : Type} {p : Parser α} {z : List Char}
    (h : p z = none) : ∀ f, manyAux p f z = some ([], z) := by
  intro f
  cases f with
  | zero => rfl
  | succ f0 =>
    unfold manyAux
    simp only [h]

theorem manyAux_mono {α : Type} {p : Parser α} :
    ∀ (f g : Nat) (x : List Char) (as : List α) (r : List Char), f ≤ g →
      manyAux p f x = some (as, r) → p r = none → manyAux p g x = some (as, r) := by
  intro f
  induction f with
  | zero =>
    intro g x as r _ h hr
    have has : ([] : List α) = as := congrArg Prod.fst (Option.some.inj h)
    have hx : x = r := congrArg Prod.snd (Option.some.inj h)
    rw [← has, hx]
    exact manyAux_none_input (hx ▸ hr) g
  | succ f0 ih =>
    intro g x as r hfg h hr
    cases g with
    | zero => omega
    | succ g0 =>
      unfold manyAux at h ⊢
      cases h0 : p x with
      | none => simp only [h0] at h ⊢; exact h
      | some ar =>
        obtain ⟨a, r1⟩ := ar
        simp only [h0] at h ⊢
        by_cases hg : r1.length < x.length
        · rw [if_pos hg] at h ⊢
          cases h1 : manyAux p f0 r1 with
          | none => simp only [h1] at h; exact Option.noConfusion h
          | some asr =>
            obtain ⟨as2, r2⟩ := asr
            simp only [h1] at h
            have has : a :: as2 = as := congrArg Prod.fst (Option.some.inj h)
            have hr2 : r2 = r := congrArg Prod.snd (Option.some.inj h)
            have h2 := ih g0 r1 as2 r2 (by omega) h1 (hr2 ▸ hr)
            simp only [h2]
            rw [has, hr2]
        · rw [if_neg hg] at h
          exact Option.noConfusion h

theorem sepAux_nil {α : Type} {sep : List Char} {p : Parser α} {a0 : Char} {t0 : List Char}
    (hsep : sep = a0 :: t0) : ∀ f, sepAux sep p f [] = some ([], []) := by
  intro f
  cases f with
  | zero => rfl
  | succ f0 =>
    unfold sepAux
    rw [hsep, ptag_cons_nil t0]

theorem sepAux_mono {α : Type} {sep : List Char} {p : Parser α} :
    ∀ (f g : Nat) (x : List Char) (as : List α) (r : List Char), f ≤ g →
      sepAux sep p f x = some (as, r) →
      (ptag sep r = none ∨ ∃ u r1, ptag sep r = some (u, r1) ∧ p r1 = none) →
      sepAux sep p g x = some (as, r) := by
  intro f
  induction f with
  | zero =>
    intro g x as r _ h hterm
    have has : ([] : List α) = as := congrArg Prod.fst (Option.some.inj h)
    have hx : x = r := congrArg Prod.snd (Option.some.inj h)
    subst hx
    rw [← has]
    cases g with
    | zero => rfl
    | succ g0 =>
      unfold sepAux
      rcases hterm with ht | ⟨u, r1, ht, hp⟩
      · simp only [ht]
      · simp only [ht, hp]
  | succ f0 ih =>
    intro g x as r hfg h hterm
    cases g with
    | zero => omega
    | succ g0 =>
      unfold sepAux at h ⊢
      cases h0 : ptag sep x with
      | none => simp only [h0] at h ⊢; exact h
      | some pr =>
        obtain ⟨u, r1⟩ := pr
        simp only [h0] at h ⊢
        cases h1 : p r1 with
        | none => simp only [h1] at h ⊢; exact h
        | some ar =>
          obtain ⟨a, r2⟩ := ar
          simp only [h1] at h ⊢
          by_cases hg : r2.length < x.length
          · rw [if_pos hg] at h ⊢
            cases h2 : sepAux sep p f0 r2 with
            | none => simp only [h2] at h; exact Option.noConfusion h
            | some asr =>
              obtain ⟨as2, r3⟩ := asr
              simp only [h2] at h
              have has : a :: as2 = as := congrArg Prod.fst (Option.some.inj h)
              have hr3 : r3 = r := congrArg Prod.snd (Option.some.inj h)
              have h3 := ih g0 r2 as2 r3 (by omega) h2 (hr3 ▸ hterm)
              simp only [h3]
              rw [has, hr3]
          · rw [if_neg hg] at h
            exact Option.noConfusion h

theorem manyAux_ext {α : Type} {p : Parser α} {c : Char} (hc : ExtChar c)
    (pstr : ∀ z a r, p z = some (a, r) → r.dropWhile isMS = r)
    (pcons : ∀ z a r, p z = some (a, r) → r.length < z.length)
    (pext : ∀ z a r, p z = some (a, r) →
      ∃ R, p (z ++ [c]) = some (a, R) ∧ ExtRest c r R)
    (pfc : ∀ z, CloserNil (z.dropWhile isMS) → p z = none) :
    ∀ (f : Nat) (x0 : List Char) (as : List α) (rN : List Char), x0.length < f →
      manyAux p f x0 = some (as, rN) → CloserNil (rN.dropWhile isMS) →
      ∃ R, manyAux p f (x0 ++ [c]) = some (as, R) ∧ ExtRest c rN R := by
  intro f
  induction f with
  | zero => intro x0 as rN hlen; omega
  | succ f0 ih =>
    intro x0 as rN hlen h hcl
    unfold manyAux at h ⊢
    cases h0 : p x0 with
    | none =>
      simp only [h0] at h
      have has : ([] : List α) = as := congrArg Prod.fst (Option.some.inj h)
      have hx : x0 = rN := congrArg Prod.snd (Option.some.inj h)
      subst hx
      have hfe : p (x0 ++ [c]) = none := by
        apply pfc
        rw [strip_append isMS x0 [c]]
        exact closerNil_ext hc hcl
      simp only [hfe]
      exact ⟨x0 ++ [c], by rw [← has], extRest_self x0⟩
    | some ar =>
      obtain ⟨a, r1⟩ := ar
      simp only [h0] at h
      by_cases hg : r1.length < x0.length
      · rw [if_pos hg] at h
        cases h1 : manyAux p f0 r1 with
        | none => simp only [h1] at h; exact Option.noConfusion h
        | some asr =>
          obtain ⟨as2, r2⟩ := asr
          simp only [h1] at h
          have has : a :: as2 = as := congrArg Prod.fst (Option.some.inj h)
          have hr2 : r2 = rN := congrArg Prod.snd (Option.some.inj h)
          obtain ⟨R1, hpe, hER⟩ := pext x0 a r1 h0
          have hstr1 : r1.dropWhile isMS = r1 := pstr x0 a r1 h0
          cases r1 with
          | nil =>
            have hr2nil : manyAux p f0 [] = some ([], []) :=
              manyAux_none_input (pfc [] (Or.inl rfl)) f0
            rw [hr2nil] at h1
            have has2 : ([] : List α) = as2 := congrArg Prod.fst (Option.some.inj h1)
            have hrn : ([] : List Char) = r2 := congrArg Prod.snd (Option.some.inj h1)
            have hpR1 : p R1 = none := by
              apply pfc
              have hsR1 : R1.dropWhile isMS = ([c] : List Char).dropWhile isMS := by
                have h2 := hER.1
                simpa using h2
              rw [hsR1]
              rcases extChar_cases hc with rfl | rfl | rfl | rfl | rfl
              · exact Or.inl (by decide)
              · exact Or.inl (by decide)
              · exact Or.inl (by decide)
              · exact Or.inl (by decide)
              · exact Or.inr ⟨')', [], by decide, Or.inl rfl⟩
            have hgE : R1.length < (x0 ++ [c]).length := pcons (x0 ++ [c]) a R1 hpe
            simp only [hpe]
            rw [if_pos hgE, manyAux_none_input hpR1 f0]
            refine ⟨R1, ?_, ?_⟩
            · rw [← has, ← has2]
            · rw [← hr2, ← hrn]
              exact hER
          | cons b t1 =>
            have hmsb : isMS b = false := stripped_head_not_ms hstr1
            have hR1 : R1 = (b :: t1) ++ [c] := extRest_exact hER rfl hmsb
            rw [hR1] at hpe
            have hlen1 : (b :: t1).length < f0 := by
              simp only [List.length_cons] at hg hlen ⊢
              omega
            obtain ⟨R2, hin, hER2⟩ := ih (b :: t1) as2 r2 hlen1 h1
              (by rw [hr2]; exact hcl)
            simp only [hpe]
            rw [if_pos (by simp only [List.length_append, List.length_cons] at hg ⊢; omega)]
            rw [hin]
            refine ⟨R2, ?_, ?_⟩
            · rw [← has]
            · rw [← hr2]
              exact hER2
      · rw [if_neg hg] at h
        exact Option.noConfusion h

theorem sepAux_nil_rest {α : Type} {sep : List Char} {p : Parser α} :
    ∀ {f : Nat} {x r : List Char}, sepAux sep p f x = some ([], r) → r = x := by
  intro f x r h
  cases f with
  | zero => exact (congrArg Prod.snd (Option.some.inj h)).symm
  | succ f0 =>
    unfold sepAux at h
    cases h0 : ptag sep x with
    | none =>
      simp only [h0] at h
      exact (congrArg Prod.snd (Option.some.inj h)).symm
    | some ur =>
      obtain ⟨u, r1⟩ := ur
      simp only [h0] at h
      cases h1 : p r1 with
      | none =>
        simp only [h1] at h
        exact (congrArg Prod.snd (Option.some.inj h)).symm
      | some ar =>
        obtain ⟨a, r2⟩ := ar
        simp only [h1] at h
        by_cases hg : r2.length < x.length
        · rw [if_pos hg] at h
          cases h2 : sepAux sep p f0 r2 with
          | none => simp only [h2] at h; exact Option.noConfusion h
          | some asr =>
            obtain ⟨as2, r3⟩ := asr
            simp only [h2] at h
            exact absurd (congrArg Prod.fst (Option.some.inj h)) (by simp)
        · rw [if_neg hg] at h
          exact Option.noConfusion h

theorem sepAux_cons_head {α : Type} {sep : List Char} {p : Parser α} {f : Nat}
    {x : List Char} {a : α} {as : List α} {r : List Char}
    (h : sepAux sep p f x = some (a :: as, r)) :
    ∃ u r1, ptag sep x = some (u, r1) := by
  cases f with
  | zero => exact absurd (congrArg Prod.fst (Option.some.inj h)) (by simp)
  | succ f0 =>
    unfold sepAux at h
    cases h0 : ptag sep x with
    | none =>
      simp only [h0] at h
      exact absurd (congrArg Prod.fst (Option.some.inj h)) (by simp)
    | some ur =>
      obtain ⟨u, r1⟩ := ur
      exact ⟨u, r1, rfl⟩

/-- The input a `sepAux` loop was left on, when the loop ends on a
closer-headed rest, itself begins with a closing character (either it is
that final rest, or it begins with the separator comma). -/
theorem sepAux_input_head {α : Type} {p : Parser α} {f : Nat} {x : List Char}
    {as : List α} {aN : Char} {tN : List Char}
    (h : sepAux [','] p f x = some (as, aN :: tN)) (hcl : Closer aN) :
    ∃ a0 t0, x = a0 :: t0 ∧ Closer a0 := by
  cases as with
  | nil => exact ⟨aN, tN, (sepAux_nil_rest h).symm, hcl⟩
  | cons a as2 =>
    obtain ⟨u, r1, h0⟩ := sepAux_cons_head h
    obtain ⟨hu, hx⟩ := ptag_inv h0
    exact ⟨',', r1, hx, Or.inr (Or.inr (Or.inr (Or.inl rfl)))⟩

/-- A termination witness for the comma loop survives appending an
extension character: the comma either still fails, or the element parser
still fails after it. -/
theorem sepTerm_ext {α : Type} {p : Parser α} {c : Char} (hc : ExtChar c)
    (pfc : ∀ z, CloserNil (z.dropWhile isMS) → p z = none)
    {aN : Char} {tN : List Char}
    (hterm : ptag [','] (aN :: tN) = none ∨
      ∃ u1 r1, ptag [','] (aN :: tN) = some (u1, r1) ∧ CloserNil (r1.dropWhile isMS)) :
    ptag [','] ((aN :: tN) ++ [c]) = none ∨
      ∃ u1 r1, ptag [','] ((aN :: tN) ++ [c]) = some (u1, r1) ∧ p r1 = none := by
  obtain ⟨_, _, _, _, _, _, _, _, hcomma, _, _⟩ := extChar_facts hc
  rcases hterm with ht | ⟨u1, r1, ht, hcl1⟩
  · exact Or.inl (ptag_fail_ext (by simpa using hcomma) ht)
  · refine Or.inr ⟨u1, r1 ++ [c], ptag_ext [c] ht, ?_⟩
    apply pfc
    rw [strip_append isMS r1 [c]]
    exact closerNil_ext hc hcl1

theorem sepAux_ext {α : Type} {p : Parser α} {c : Char} (hc : ExtChar c)
    (pext : ∀ z a r, p z = some (a, r) → CloserNil r →
      p (z ++ [c]) = some (a, (r ++ [c]).dropWhile isMS))
    (pfc : ∀ z, CloserNil (z.dropWhile isMS) → p z = none) :
    ∀ (f : Nat) (x0 : List Char) (as : List α) (aN : Char) (tN : List Char),
      sepAux [','] p f x0 = some (as, aN :: tN) → Closer aN →
      (ptag [','] (aN :: tN) = none ∨
        ∃ u1 r1, ptag [','] (aN :: tN) = some (u1, r1) ∧ CloserNil (r1.dropWhile isMS)) →
      sepAux [','] p f (x0 ++ [c]) = some (as, (aN :: tN) ++ [c]) := by
  intro f
  induction f with
  | zero =>
    intro x0 as aN tN h hclN hterm
    have has : ([] : List α) = as := congrArg Prod.fst (Option.some.inj h)
    have hx : x0 = aN :: tN := congrArg Prod.snd (Option.some.inj h)
    rw [← has, hx]
    rfl
  | succ f0 ih =>
    intro x0 as aN tN h hclN hterm
    obtain ⟨_, _, _, _, _, _, _, _, hcomma, _, _⟩ := extChar_facts hc
    have hcm : c ∉ ([','] : List Char) := by simpa using hcomma
    unfold sepAux at h ⊢
    cases h0 : ptag [','] x0 with
    | none =>
      simp only [h0] at h
      have has : ([] : List α) = as := congrArg Prod.fst (Option.some.inj h)
      have hx : x0 = aN :: tN := congrArg Prod.snd (Option.some.inj h)
      simp only [ptag_fail_ext hcm h0]
      rw [← has, hx]
    | some ur =>
      obtain ⟨u, r1⟩ := ur
      simp only [h0] at h
      simp only [ptag_ext [c] h0]
      cases h1 : p r1 with
      | none =>
        simp only [h1] at h
        have has : ([] : List α) = as := congrArg Prod.fst (Option.some.inj h)
        have hx : x0 = aN :: tN := congrArg Prod.snd (Option.some.inj h)
        rcases hterm with ht | ⟨u1, r1s, ht, hcl1⟩
        · rw [hx] at h0
          rw [h0] at ht
          exact Option.noConfusion ht
        · rw [hx] at h0
          rw [h0] at ht
          have hr1 : r1 = r1s := congrArg Prod.snd (Option.some.inj ht)
          have hfe : p (r1 ++ [c]) = none := by
            apply pfc
            rw [strip_append isMS r1 [c], hr1]
            exact closerNil_ext hc hcl1
          simp only [hfe]
          rw [← has, hx]
      | some ar =>
        obtain ⟨a, r2⟩ := ar
        simp only [h1] at h
        by_cases hg : r2.length < x0.length
        · rw [if_pos hg] at h
          cases h2 : sepAux [','] p f0 r2 with
          | none => simp only [h2] at h; exact Option.noConfusion h
          | some asr =>
            obtain ⟨as2, r3⟩ := asr
            simp only [h2] at h
            have has : a :: as2 = as := congrArg Prod.fst (Option.some.inj h)
            have hr3 : r3 = aN :: tN := congrArg Prod.snd (Option.some.inj h)
            rw [hr3] at h2
            obtain ⟨a0, t0, hr2, hcl0⟩ := sepAux_input_head h2 hclN
            have hpe := pext r1 a r2 h1 (Or.inr ⟨a0, t0, hr2, hcl0⟩)
            have hstr : (r2 ++ [c]).dropWhile isMS = r2 ++ [c] := by
              rw [hr2, List.cons_append]
              exact dropWhile_cons_false _ (closer_not_ms hcl0)
            rw [hstr] at hpe
            simp only [hpe]
            have hgE : (r2 ++ [c]).length < (x0 ++ [c]).length := by
              simp only [List.length_append, List.length_cons, List.length_nil]
              omega
            rw [if_pos hgE, ih r2 as2 aN tN h2 hclN hterm]
            rw [← has]
        · rw [if_neg hg] at h
          exact Option.noConfusion h

theorem separated_list_ext {α : Type} {p : Parser α} {c : Char} (hc : ExtChar c)
    (pext : ∀ z a r, p z = some (a, r) → CloserNil r →
      p (z ++ [c]) = some (a, (r ++ [c]).dropWhile isMS))
    (pfc : ∀ z, CloserNil (z.dropWhile isMS) → p z = none)
    {x : List Char} {as : List α} {aN : Char} {tN : List Char}
    (h : separated_list [','] p x = some (as, aN :: tN)) (hclN : Closer aN)
    (hterm : ptag [','] (aN :: tN) = none ∨
      ∃ u1 r1, ptag [','] (aN :: tN) = some (u1, r1) ∧ CloserNil (r1.dropWhile isMS)) :
    separated_list [','] p (x ++ [c]) = some (as, (aN :: tN) ++ [c]) := by
  unfold separated_list at h ⊢
  cases h0 : p x with
  | none =>
    simp only [h0] at h
    have has : ([] : List α) = as := congrArg Prod.fst (Option.some.inj h)
    have hx : x = aN :: tN := congrArg Prod.snd (Option.some.inj h)
    have hfe : p (x ++ [c]) = none := by
      apply pfc
      rw [strip_append isMS x [c], hx, dropWhile_cons_false tN (closer_not_ms hclN)]
      exact closerNil_ext hc (Or.inr ⟨aN, tN, rfl, hclN⟩)
    simp only [hfe]
    rw [← has, hx]
  | some ar =>
    obtain ⟨a, r1⟩ := ar
    simp only [h0] at h
    by_cases hg : r1.length < x.length
    · rw [if_pos hg] at h
      cases h2 : sepAux [','] p (r1.length + 1) r1 with
      | none => simp only [h2] at h; exact Option.noConfusion h
      | some asr =>
        obtain ⟨as2, r3⟩ := asr
        simp only [h2] at h
        have has : a :: as2 = as := congrArg Prod.fst (Option.some.inj h)
        have hr3 : r3 = aN :: tN := congrArg Prod.snd (Option.some.inj h)
        rw [hr3] at h2
        obtain ⟨a0, t0, hr1, hcl0⟩ := sepAux_input_head h2 hclN
        have hpe := pext x a r1 h0 (Or.inr ⟨a0, t0, hr1, hcl0⟩)
        have hstr : (r1 ++ [c]).dropWhile isMS = r1 ++ [c] := by
          rw [hr1, List.cons_append]
          exact dropWhile_cons_false _ (closer_not_ms hcl0)
        rw [hstr] at hpe
        simp only [hpe]
        have hgE : (r1 ++ [c]).length < (x ++ [c]).length := by
          simp only [List.length_append, List.length_cons, List.length_nil]
          omega
        rw [if_pos hgE]
        have hsx := sepAux_ext hc pext pfc (r1.length + 1) r1 as2 aN tN h2 hclN hterm
        have hsm := sepAux_mono (r1.length + 1) ((r1 ++ [c]).length + 1) (r1 ++ [c])
          as2 ((aN :: tN) ++ [c])
          (by simp only [List.length_append, List.length_cons, List.length_nil]; omega)
          hsx (sepTerm_ext hc pfc hterm)
        rw [hsm, ← has]
    · rw [if_neg hg] at h
      exact Option.noConfusion h

/-- A successful `opt_comma_tag` for a closing token shows the rest the loop
ended on is closer-headed and yields a termination witness for the loop. -/
theorem opt_comma_tag_closer {a0 : Char} {t0 x u r : List Char} (ha : Closer a0)
    (hne : a0 ≠ ',') (h : opt_comma_tag (a0 :: t0) x = some (u, r)) :
    (∃ aN tN, x = aN :: tN ∧ Closer aN) ∧
    (ptag [','] x = none ∨
      ∃ u1 r1, ptag [','] x = some (u1, r1) ∧ CloserNil (r1.dropWhile isMS)) := by
  unfold opt_comma_tag at h
  cases h0 : ptag (a0 :: t0) x with
  | some res =>
    obtain ⟨u0, r0⟩ := res
    obtain ⟨hu, hx⟩ := ptag_inv h0
    refine ⟨⟨a0, t0 ++ r0, hx.trans rfl, ha⟩, Or.inl ?_⟩
    rw [hx]
    exact ptag_ne_head [] (t0 ++ r0) (Ne.symm hne)
  | none =>
    simp only [h0] at h
    cases h1 : ptag [','] x with
    | none => simp only [h1] at h; exact Option.noConfusion h
    | some pr =>
      obtain ⟨u1, r1⟩ := pr
      simp only [h1] at h
      obtain ⟨hu1, hx⟩ := ptag_inv h1
      obtain ⟨hu2, hx2⟩ := ptag_inv h
      refine ⟨⟨',', r1, hx.trans rfl,
        Or.inr (Or.inr (Or.inr (Or.inl rfl)))⟩, Or.inr ⟨u1, r1, rfl, ?_⟩⟩
      rw [hx2]
      exact Or.inr ⟨a0, t0 ++ r, rfl, ha⟩

/-- The remainder of a successful parse is strictly shorter than the input. -/
def ParserLt {α : Type} (p : Parser α) : Prop :=
  ∀ z a r, p z = some (a, r) → r.length < z.length

theorem palt_lt {α : Type} {p q : Parser α} (hp : ParserLt p) (hq : ParserLt q) :
    ParserLt (palt p q) := by
  intro z a r h
  unfold palt at h
  cases h0 : p z with
  | some res =>
    simp only [h0] at h
    exact hp z a r (h0.trans h)
  | none =>
    simp only [h0] at h
    exact hq z a r h

theorem pmap_lt {α β : Type} {g : α → β} {p : Parser α} (hp : ParserLt p) :
    ParserLt (pmap g p) := by
  intro z a r h
  unfold pmap at h
  cases h0 : p z with
  | none => simp only [h0] at h; exact Option.noConfusion h
  | some ar =>
    obtain ⟨a0, r0⟩ := ar
    simp only [h0] at h
    have hr : r0 = r := congrArg Prod.snd (Option.some.inj h)
    rw [← hr]
    exact hp z a0 r0 h0

theorem wrapws_lt {α : Type} {p : Parser α} (hp : ParserLt p) : ParserLt (wrapws p) := by
  intro z a r h
  unfold wrapws at h
  cases h0 : p (z.dropWhile isMS) with
  | none => simp only [h0] at h; exact Option.noConfusion h
  | some ar =>
    obtain ⟨a0, r0⟩ := ar
    simp only [h0] at h
    have hr : r0.dropWhile isMS = r := congrArg Prod.snd (Option.some.inj h)
    have h1 := hp _ a0 r0 h0
    have h2 := length_dropWhile_le r0 isMS
    have h3 := length_dropWhile_le z isMS
    rw [← hr]
    omega

theorem encForm_lt {pre : List Char} {munch : Char → Bool}
    {dec : List Char → Option (List Nat)} : ParserLt (encForm pre munch dec) := by
  intro z a r h
  obtain ⟨body, hz, _, _⟩ := encForm_inv h
  rw [hz]
  simp only [List.length_append, List.length_cons]
  omega

theorem rawByteForm_lt : ParserLt rawByteForm := by
  intro z a r h
  unfold rawByteForm at h
  cases h0 : ptag ['\''] z with
  | none => simp only [h0] at h; exact Option.noConfusion h
  | some pr =>
    obtain ⟨u1, r1⟩ := pr
    simp only [h0] at h
    cases h1 : ptag ['\''] (escTrans '\'' r1).2 with
    | none => simp only [h1] at h; exact Option.noConfusion h
    | some qr =>
      obtain ⟨u2, r2⟩ := qr
      simp only [h1] at h
      have hr : r2 = r := congrArg Prod.snd (Option.some.inj h)
      obtain ⟨hu1, hz⟩ := ptag_inv h0
      have c1 : r2.length ≤ (escTrans '\'' r1).2.length := ptag_le h1
      have c2 : (escTrans '\'' r1).2.length ≤ r1.length := escTrans_le r1.length r1 le_rfl
      have c3 : z.length = r1.length + 1 := by
        rw [hz]
        simp
      rw [← hr]
      omega

theorem definite_bytestring_lt : ParserLt definite_bytestring :=
  wrapws_lt (palt_lt encForm_lt (palt_lt encForm_lt (palt_lt encForm_lt
    (palt_lt encForm_lt (palt_lt encForm_lt rawByteForm_lt)))))

theorem definite_textstring_lt : ParserLt definite_textstring := by
  apply wrapws_lt
  intro z a r h
  cases h0 : ptag ['"'] z with
  | none => simp only [h0] at h; exact Option.noConfusion h
  | some pr =>
    obtain ⟨u1, r1⟩ := pr
    simp only [h0] at h
    cases h1 : ptag ['"'] (escTrans '"' r1).2 with
    | none => simp only [h1] at h; exact Option.noConfusion h
    | some qr =>
      obtain ⟨u2, r2⟩ := qr
      simp only [h1] at h
      have hr : r2 = r := congrArg Prod.snd (Option.some.inj h)
      obtain ⟨hu1, hz⟩ := ptag_inv h0
      have c1 : r2.length ≤ (escTrans '"' r1).2.length := ptag_le h1
      have c2 : (escTrans '"' r1).2.length ≤ r1.length := escTrans_le r1.length r1 le_rfl
      have c3 : z.length = r1.length + 1 := by
        rw [hz]
        simp
      rw [← hr]
      omega

theorem textPiece_lt : ParserLt textPiece :=
  palt_lt definite_bytestring_lt (pmap_lt definite_textstring_lt)

theorem manyAux_nil_rest {α : Type} {p : Parser α} :
    ∀ {f : Nat} {x r : List Char}, manyAux p f x = some ([], r) → r = x := by
  intro f x r h
  cases f with
  | zero => exact (congrArg Prod.snd (Option.some.inj h)).symm
  | succ f0 =>
    unfold manyAux at h
    cases h0 : p x with
    | none =>
      simp only [h0] at h
      exact (congrArg Prod.snd (Option.some.inj h)).symm
    | some ar =>
      obtain ⟨a, r1⟩ := ar
      simp only [h0] at h
      by_cases hg : r1.length < x.length
      · rw [if_pos hg] at h
        cases h1 : manyAux p f0 r1 with
        | none => simp only [h1] at h; exact Option.noConfusion h
        | some asr =>
          obtain ⟨as2, r2⟩ := asr
          simp only [h1] at h
          exact absurd (congrArg Prod.fst (Option.some.inj h)) (by simp)
      · rw [if_neg hg] at h
        exact Option.noConfusion h

/-- The rest left by a `many` loop that ate at least one element is an
element parser's rest, hence layout-stripped when those are. -/
theorem manyAux_rest_stripped {α : Type} {p : Parser α}
    (pstr : ∀ z a r, p z = some (a, r) → r.dropWhile isMS = r) :
    ∀ (f : Nat) (x : List Char) (a : α) (as : List α) (r : List Char),
      manyAux p f x = some (a :: as, r) → r.dropWhile isMS = r := by
  intro f
  induction f with
  | zero =>
    intro x a as r h
    exact absurd (congrArg Prod.fst (Option.some.inj h)) (by simp)
  | succ f0 ih =>
    intro x a as r h
    unfold manyAux at h
    cases h0 : p x with
    | none =>
      simp only [h0] at h
      exact absurd (congrArg Prod.fst (Option.some.inj h)) (by simp)
    | some ar =>
      obtain ⟨a0, r1⟩ := ar
      simp only [h0] at h
      by_cases hg : r1.length < x.length
      · rw [if_pos hg] at h
        cases h1 : manyAux p f0 r1 with
        | none => simp only [h1] at h; exact Option.noConfusion h
        | some asr =>
          obtain ⟨as2, r2⟩ := asr
          simp only [h1] at h
          have hr2 : r2 = r := congrArg Prod.snd (Option.some.inj h)
          cases as2 with
          | nil =>
            have hr1 : r2 = r1 := manyAux_nil_rest h1
            rw [← hr2, hr1]
            exact pstr x a0 r1 h0
          | cons b bs =>
            rw [← hr2]
            exact ih r1 b bs r2 h1
      · rw [if_neg hg] at h
        exact Option.noConfusion h

theorem sepAux_rest_stripped {α : Type} {p : Parser α}
    (pstr : ∀ z a r, p z = some (a, r) → r.dropWhile isMS = r) :
    ∀ (f : Nat) (x : List Char) (a : α) (as : List α) (r : List Char),
      sepAux [','] p f x = some (a :: as, r) → r.dropWhile isMS = r := by
  intro f
  induction f with
  | zero =>
    intro x a as r h
    exact absurd (congrArg Prod.fst (Option.some.inj h)) (by simp)
  | succ f0 ih =>
    intro x a as r h
    unfold sepAux at h
    cases h0 : ptag [','] x with
    | none =>
      simp only [h0] at h
      exact absurd (congrArg Prod.fst (Option.some.inj h)) (by simp)
    | some ur =>
      obtain ⟨u, r1⟩ := ur
      simp only [h0] at h
      cases h1 : p r1 with
      | none =>
        simp only [h1] at h
        exact absurd (congrArg Prod.fst (Option.some.inj h)) (by simp)
      | some ar =>
        obtain ⟨a0, r2⟩ := ar
        simp only [h1] at h
        by_cases hg : r2.length < x.length
        · rw [if_pos hg] at h
          cases h2 : sepAux [','] p f0 r2 with
          | none => simp only [h2] at h; exact Option.noConfusion h
          | some asr =>
            obtain ⟨as2, r3⟩ := asr
            simp only [h2] at h
            have hr3 : r3 = r := congrArg Prod.snd (Option.some.inj h)
            cases as2 with
            | nil =>
              have hr2 : r3 = r2 := sepAux_nil_rest h2
              rw [← hr3, hr2]
              exact pstr r1 a0 r2 h1
            | cons b bs =>
              rw [← hr3]
              exact ih r2 b bs r3 h2
        · rw [if_neg hg] at h
          exact Option.noConfusion h

theorem separated_list_nil_rest {α : Type} {sep : List Char} {p : Parser α}
    {x r : List Char} (h : separated_list sep p x = some ([], r)) : r = x := by
  unfold separated_list at h
  cases h0 : p x with
  | none =>
    simp only [h0] at h
    exact (congrArg Prod.snd (Option.some.inj h)).symm
  | some ar =>
    obtain ⟨a, r1⟩ := ar
    simp only [h0] at h
    by_cases hg : r1.length < x.length
    · rw [if_pos hg] at h
      cases h1 : sepAux sep p (r1.length + 1) r1 with
      | none => simp only [h1] at h; exact Option.noConfusion h
      | some asr =>
        obtain ⟨as2, r2⟩ := asr
        simp only [h1] at h
        exact absurd (congrArg Prod.fst (Option.some.inj h)) (by simp)
    · rw [if_neg hg] at h
      exact Option.noConfusion h

theorem separated_list_rest_stripped {α : Type} {p : Parser α}
    (pstr : ∀ z a r, p z = some (a, r) → r.dropWhile isMS = r)
    {x : List Char} {a : α} {as : List α} {r : List Char}
    (h : separated_list [','] p x = some (a :: as, r)) : r.dropWhile isMS = r := by
  unfold separated_list at h
  cases h0 : p x with
  | none =>
    simp only [h0] at h
    exact absurd (congrArg Prod.fst (Option.some.inj h)) (by simp)
  | some ar =>
    obtain ⟨a0, r1⟩ := ar
    simp only [h0] at h
    by_cases hg : r1.length < x.length
    · rw [if_pos hg] at h
      cases h1 : sepAux [','] p (r1.length + 1) r1 with
      | none => simp only [h1] at h; exact Option.noConfusion h
      | some asr =>
        obtain ⟨as2, r2⟩ := asr
        simp only [h1] at h
        have hr2 : r2 = r := congrArg Prod.snd (Option.some.inj h)
        cases as2 with
        | nil =>
          have hr1 : r2 = r1 := sepAux_nil_rest h1
          rw [← hr2, hr1]
          exact pstr x a0 r1 h0
        | cons b bs =>
          rw [← hr2]
          exact sepAux_rest_stripped pstr (r1.length + 1) r1 b bs r2 h1
    · rw [if_neg hg] at h
      exact Option.noConfusion h

theorem dataItemF_nil : ∀ f : Nat, dataItemF f [] = none := by
  intro f
  cases f with
  | zero => rfl
  | succ f0 => rfl

theorem dataItemF_strip_ne_nil {f : Nat} {x : List Char} {v : DataItem} {r : List Char}
    (h : dataItemF (f + 1) x = some (v, r)) : x.dropWhile isMS ≠ [] := by
  intro hn
  rw [dataItemF_strip x, hn, dataItemF_nil] at h
  exact Option.noConfusion h

theorem dataItemF_fail_closernil {f : Nat} :
    ∀ z, CloserNil (z.dropWhile isMS) → dataItemF f z = none := by
  intro z h
  rcases h with hn | ⟨a, t, he, ha⟩
  · cases f with
    | zero => rfl
    | succ f0 =>
      rw [dataItemF_strip z, hn, dataItemF_nil]
  · exact dataItemF_fail_closer he (Or.inl ha)

theorem definite_bytestring_extend {x : List Char} (y : List Char) {b : List Nat}
    {r : List Char} (h : definite_bytestring x = some (b, r)) :
    definite_bytestring (x ++ y) = some (b, (r ++ y).dropWhile isMS) := by
  have hxy : (x ++ y).dropWhile isMS = x.dropWhile isMS ++ y :=
    dropWhile_append_of_ne_nil y (dbs_strip_ne_nil h)
  unfold definite_bytestring wrapws at h ⊢
  rw [hxy]
  cases hch : palt (encForm ['h'] isBase16Digit base16Decode)
      (palt (encForm ['b', '3', '2'] isBase32Digit base32Decode)
        (palt (encForm ['h', '3', '2'] isBase32hexDigit base32hexDecode)
          (palt (encForm ['b', '6', '4'] isBase64urlDigit base64urlDecode)
            (palt (encForm ['b', '6', '4'] isBase64Digit base64Decode)
              rawByteForm)))) (x.dropWhile isMS) with
  | none =>
    simp only [hch] at h
    exact Option.noConfusion h
  | some p =>
    obtain ⟨b0, rb⟩ := p
    simp only [hch] at h
    have hb0 : b0 = b := congrArg Prod.fst (Option.some.inj h)
    have hrb : rb.dropWhile isMS = r := congrArg Prod.snd (Option.some.inj h)
    simp only [dbs_chain_append y hch]
    rw [hb0, ← hrb, ← strip_append isMS rb y]

theorem definite_textstring_nil : definite_textstring [] = none := rfl

theorem definite_textstring_strip (x : List Char) :
    definite_textstring (x.dropWhile isMS) = definite_textstring x := by
  unfold definite_textstring wrapws
  rw [dropWhile_idem]

theorem dts_strip_ne_nil {x : List Char} {s : List Char} {r : List Char}
    (h : definite_textstring x = some (s, r)) : x.dropWhile isMS ≠ [] := by
  intro hn
  rw [← definite_textstring_strip x, hn, definite_textstring_nil] at h
  exact Option.noConfusion h

theorem definite_textstring_head {x : List Char} {s r : List Char}
    (h : definite_textstring x = some (s, r)) :
    ∃ t2, x.dropWhile isMS = '"' :: t2 := by
  unfold definite_textstring wrapws at h
  cases h0 : ptag ['"'] (x.dropWhile isMS) with
  | none => simp only [h0] at h; exact Option.noConfusion h
  | some pr =>
    obtain ⟨u1, r1⟩ := pr
    obtain ⟨hu1, hx⟩ := ptag_inv h0
    exact ⟨r1, hx⟩

theorem definite_textstring_extend {x : List Char} (y : List Char) {s r : List Char}
    (h : definite_textstring x = some (s, r)) :
    definite_textstring (x ++ y) = some (s, (r ++ y).dropWhile isMS) := by
  have hxy : (x ++ y).dropWhile isMS = x.dropWhile isMS ++ y :=
    dropWhile_append_of_ne_nil y (dts_strip_ne_nil h)
  unfold definite_textstring wrapws at h ⊢
  rw [hxy]
  cases h0 : ptag ['"'] (x.dropWhile isMS) with
  | none => simp only [h0] at h; exact Option.noConfusion h
  | some pr =>
    obtain ⟨u1, r1⟩ := pr
    simp only [h0] at h
    obtain ⟨hu1, hx1⟩ := ptag_inv h0
    cases h1 : ptag ['"'] (escTrans '"' r1).2 with
    | none => simp only [h1] at h; exact Option.noConfusion h
    | some qr =>
      obtain ⟨u2, r2⟩ := qr
      simp only [h1] at h
      obtain ⟨hu2, he2⟩ := ptag_inv h1
      have hs : (escTrans '"' r1).1 = s := congrArg Prod.fst (Option.some.inj h)
      have hr : r2.dropWhile isMS = r := congrArg Prod.snd (Option.some.inj h)
      obtain ⟨o1, rm1, hesc⟩ : ∃ o rm, escTrans '"' r1 = (o, rm) := ⟨_, _, rfl⟩
      have hrm1 : rm1 = '"' :: r2 := by
        rw [hesc] at he2
        exact he2
      have hhead : rm1.head? = some '"' := by rw [hrm1]; rfl
      have hext : escTrans '"' (r1 ++ y) = (o1, rm1 ++ y) :=
        escTrans_append y r1.length r1 o1 rm1 le_rfl hesc hhead
      have hxy2 : x.dropWhile isMS ++ y = '"' :: (r1 ++ y) := by
        rw [hx1]
        rfl
      have e2 : ptag ['"'] ('"' :: (r1 ++ y)) = some (['"'], r1 ++ y) :=
        ptag_run_tag ['"'] (r1 ++ y)
      have e4 : rm1 ++ y = '"' :: (r2 ++ y) := by rw [hrm1]; rfl
      have e5 : ptag ['"'] ('"' :: (r2 ++ y)) = some (['"'], r2 ++ y) :=
        ptag_run_tag ['"'] (r2 ++ y)
      rw [hxy2]
      simp only [e2, hext, e4, e5]
      have ho1 : o1 = s := by
        rw [hesc] at hs
        exact hs
      rw [ho1, ← hr, ← strip_append isMS r2 y]

theorem definite_bytestring_fail_closer :
    ∀ z, CloserNil (z.dropWhile isMS) → definite_bytestring z = none := by
  intro z hcl
  rw [← definite_bytestring_strip z]
  rcases hcl with hn | ⟨a, t, he, ha⟩
  · rw [hn]
    rfl
  · rw [he]
    obtain ⟨hms, h5, h6, h7, _⟩ := closer_cases ha
    exact definite_bytestring_fail_head hms h5 h6 h7

theorem definite_textstring_fail_closer :
    ∀ z, CloserNil (z.dropWhile isMS) → definite_textstring z = none := by
  intro z hcl
  rw [← definite_textstring_strip z]
  rcases hcl with hn | ⟨a, t, he, ha⟩
  · rw [hn]
    rfl
  · rw [he]
    obtain ⟨hms, _, _, _, h8, _⟩ := closer_cases ha
    exact definite_textstring_fail_head hms h8

theorem textPiece_fail_closer :
    ∀ z, CloserNil (z.dropWhile isMS) → textPiece z = none := by
  intro z hcl
  unfold textPiece palt pmap
  simp only [definite_bytestring_fail_closer z hcl, definite_textstring_fail_closer z hcl]

theorem textPiece_extend {x : List Char} (y : List Char) {b : List Nat} {r : List Char}
    (h : textPiece x = some (b, r)) :
    textPiece (x ++ y) = some (b, (r ++ y).dropWhile isMS) := by
  unfold textPiece palt pmap at h ⊢
  cases h0 : definite_bytestring x with
  | some p =>
    obtain ⟨b0, r0⟩ := p
    simp only [h0] at h
    have hb : b0 = b := congrArg Prod.fst (Option.some.inj h)
    have hr : r0 = r := congrArg Prod.snd (Option.some.inj h)
    simp only [definite_bytestring_extend y h0]
    rw [hb, hr]
  | none =>
    simp only [h0] at h
    cases h1 : definite_textstring x with
    | none => simp only [h1] at h; exact Option.noConfusion h
    | some sr =>
      obtain ⟨s0, r0⟩ := sr
      simp only [h1] at h
      obtain ⟨t2, hhd⟩ := definite_textstring_head h1
      have hne : x.dropWhile isMS ≠ [] := dts_strip_ne_nil h1
      have hdbfail : definite_bytestring (x ++ y) = none := by
        rw [← definite_bytestring_strip (x ++ y), dropWhile_append_of_ne_nil y hne, hhd]
        exact definite_bytestring_fail_head (by decide) (by decide) (by decide) (by decide)
      simp only [hdbfail, definite_textstring_extend y h1]
      have hb : (s0.map utf8Encode).flatten = b := congrArg Prod.fst (Option.some.inj h)
      have hr : r0 = r := congrArg Prod.snd (Option.some.inj h)
      rw [hb, hr]

theorem cdb_fail_head {a : Char} {t : List Char} (hms : isMS a = false)
    (h1 : a ≠ 'h') (h2 : a ≠ 'b') (h3 : a ≠ '\'') :
    concatenated_definite_bytestring (a :: t) = none := by
  have hdb : definite_bytestring (a :: t) = none :=
    definite_bytestring_fail_head hms h1 h2 h3
  unfold concatenated_definite_bytestring pmap pmany1 pmany0
  simp only [manyAux, hdb]

theorem cdb_fail_closer :
    ∀ z, CloserNil (z.dropWhile isMS) → concatenated_definite_bytestring z = none := by
  intro z hcl
  have hdb : definite_bytestring z = none := definite_bytestring_fail_closer z hcl
  unfold concatenated_definite_bytestring pmap pmany1 pmany0
  rw [manyAux_none_input hdb (z.length + 1)]

theorem ctds_fail_head {a : Char} {t : List Char} (hms : isMS a = false)
    (h1 : a ≠ '"') : concatenated_definite_textstring (a :: t) = none := by
  have hdt : definite_textstring (a :: t) = none := definite_textstring_fail_head hms h1
  unfold concatenated_definite_textstring
  simp only [hdt]

theorem ctds_fail_closer :
    ∀ z, CloserNil (z.dropWhile isMS) → concatenated_definite_textstring z = none := by
  intro z hcl
  have hdt : definite_textstring z = none := definite_textstring_fail_closer z hcl
  unfold concatenated_definite_textstring
  simp only [hdt]

theorem opt_comma_tag_ext2 {a0 : Char} {t0 x u r : List Char} {c : Char}
    (hne : a0 ≠ ',') (h : opt_comma_tag (a0 :: t0) x = some (u, r)) :
    opt_comma_tag (a0 :: t0) (x ++ [c]) = some (u, r ++ [c]) := by
  unfold opt_comma_tag at h ⊢
  cases h0 : ptag (a0 :: t0) x with
  | some res =>
    simp only [h0] at h
    have hres : res = (u, r) := Option.some.inj h
    rw [hres] at h0
    simp only [ptag_ext [c] h0]
  | none =>
    simp only [h0] at h
    cases h1 : ptag [','] x with
    | none => simp only [h1] at h; exact Option.noConfusion h
    | some pr =>
      obtain ⟨u1, r1⟩ := pr
      simp only [h1] at h
      obtain ⟨hu1, hx⟩ := ptag_inv h1
      have h0e : ptag (a0 :: t0) (x ++ [c]) = none := by
        rw [hx]
        exact ptag_ne_head t0 (r1 ++ [c]) (Ne.symm (Ne.symm hne))
      simp only [h0e, ptag_ext [c] h1]
      have hne2 : r1.dropWhile isMS ≠ [] := by
        intro hn
        rw [hn, ptag_cons_nil t0] at h
        exact Option.noConfusion h
      rw [dropWhile_append_of_ne_nil [c] hne2]
      exact ptag_ext [c] h

theorem definite_bytestring_out_stripped {z : List Char} {b : List Nat} {r : List Char}
    (h : definite_bytestring z = some (b, r)) : r.dropWhile isMS = r := by
  unfold definite_bytestring at h
  exact wrapws_out_stripped h

theorem definite_textstring_out_stripped {z : List Char} {s r : List Char}
    (h : definite_textstring z = some (s, r)) : r.dropWhile isMS = r := by
  unfold definite_textstring at h
  exact wrapws_out_stripped h

theorem textPiece_out_stripped {z : List Char} {b : List Nat} {r : List Char}
    (h : textPiece z = some (b, r)) : r.dropWhile isMS = r := by
  unfold textPiece palt pmap at h
  cases h0 : definite_bytestring z with
  | some p =>
    obtain ⟨b0, r0⟩ := p
    simp only [h0] at h
    have hr : r0 = r := congrArg Prod.snd (Option.some.inj h)
    rw [← hr]
    exact definite_bytestring_out_stripped h0
  | none =>
    simp only [h0] at h
    cases h1 : definite_textstring z with
    | none => simp only [h1] at h; exact Option.noConfusion h
    | some sr =>
      obtain ⟨s0, r0⟩ := sr
      simp only [h1] at h
      have hr : r0 = r := congrArg Prod.snd (Option.some.inj h)
      rw [← hr]
      exact definite_textstring_out_stripped h1

theorem textPiece_nil : textPiece [] = none := rfl

theorem cdb_ext {c : Char} (hc : ExtChar c) :
    ∀ (z : List Char) (b : ByteString) (r : List Char),
      concatenated_definite_bytestring z = some (b, r) → CloserNil r →
      concatenated_definite_bytestring (z ++ [c]) =
        some (b, (r ++ [c]).dropWhile isMS) := by
  intro z b r h hcl
  have pstr : ∀ z2 a2 r2, definite_bytestring z2 = some (a2, r2) →
      r2.dropWhile isMS = r2 :=
    fun z2 a2 r2 h2 => definite_bytestring_out_stripped h2
  have pext : ∀ z2 a2 r2, definite_bytestring z2 = some (a2, r2) →
      ∃ R, definite_bytestring (z2 ++ [c]) = some (a2, R) ∧ ExtRest c r2 R :=
    fun z2 a2 r2 h2 => ⟨(r2 ++ [c]).dropWhile isMS, definite_bytestring_extend [c] h2,
      extRest_strip r2⟩
  unfold concatenated_definite_bytestring pmap pmany1 pmany0 at h ⊢
  cases hm : manyAux definite_bytestring (z.length + 1) z with
  | none => simp only [hm] at h; exact Option.noConfusion h
  | some br =>
    obtain ⟨bs, rm⟩ := br
    cases bs with
    | nil => simp only [hm] at h; exact Option.noConfusion h
    | cons b0 bs2 =>
      simp only [hm] at h
      have hb : ({ data := (b0 :: bs2).flatten, bitwidth := IntegerWidth.unknown } : ByteString) = b :=
        congrArg Prod.fst (Option.some.inj h)
      have hrm : rm = r := congrArg Prod.snd (Option.some.inj h)
      rw [hrm] at hm
      have hstr_r : r.dropWhile isMS = r :=
        manyAux_rest_stripped pstr (z.length + 1) z b0 bs2 r hm
      obtain ⟨R, hmE, hER⟩ := manyAux_ext hc pstr definite_bytestring_lt pext
        definite_bytestring_fail_closer (z.length + 1) z (b0 :: bs2) r
        (by omega) hm (by rw [hstr_r]; exact hcl)
      have hRstr : R.dropWhile isMS = R :=
        manyAux_rest_stripped pstr (z.length + 1) (z ++ [c]) b0 bs2 R hmE
      have hR : R = (r ++ [c]).dropWhile isMS := hRstr.symm.trans hER.1
      have hfail : definite_bytestring R = none := by
        apply definite_bytestring_fail_closer
        rw [hRstr, hR]
        exact closerNil_ext hc hcl
      have hmono := manyAux_mono (z.length + 1) ((z ++ [c]).length + 1) (z ++ [c])
        (b0 :: bs2) R
        (by simp only [List.length_append, List.length_cons, List.length_nil]; omega)
        hmE hfail
      simp only [hmono]
      rw [← hb, ← hR]

theorem ctds_ext {c : Char} (hc : ExtChar c) :
    ∀ (z : List Char) (t : TextString) (r : List Char),
      concatenated_definite_textstring z = some (t, r) → CloserNil r →
      concatenated_definite_textstring (z ++ [c]) =
        some (t, (r ++ [c]).dropWhile isMS) := by
  intro z t r h hcl
  have pstr : ∀ z2 a2 r2, textPiece z2 = some (a2, r2) → r2.dropWhile isMS = r2 :=
    fun z2 a2 r2 h2 => textPiece_out_stripped h2
  have pext : ∀ z2 a2 r2, textPiece z2 = some (a2, r2) →
      ∃ R, textPiece (z2 ++ [c]) = some (a2, R) ∧ ExtRest c r2 R :=
    fun z2 a2 r2 h2 => ⟨(r2 ++ [c]).dropWhile isMS, textPiece_extend [c] h2,
      extRest_strip r2⟩
  unfold concatenated_definite_textstring pmany0 at h ⊢
  cases h0 : definite_textstring z with
  | none => simp only [h0] at h; exact Option.noConfusion h
  | some fr =>
    obtain ⟨first, r1⟩ := fr
    simp only [h0] at h
    have h0e := definite_textstring_extend [c] h0
    simp only [h0e]
    have hr1str : r1.dropWhile isMS = r1 := definite_textstring_out_stripped h0
    cases hm : manyAux textPiece (r1.length + 1) r1 with
    | none => simp only [hm] at h; exact Option.noConfusion h
    | some pr2 =>
      obtain ⟨pieces, r2⟩ := pr2
      simp only [hm] at h
      cases hd : utf8Decode pieces.flatten with
      | none => simp only [hd] at h; exact Option.noConfusion h
      | some rest =>
        simp only [hd] at h
        have ht : ({ data := first ++ rest, bitwidth := IntegerWidth.unknown } : TextString) = t :=
          congrArg Prod.fst (Option.some.inj h)
        have hr2 : r2 = r := congrArg Prod.snd (Option.some.inj h)
        rw [hr2] at hm
        cases r1 with
        | nil =>
          have hm0 : some (([] : List (List Nat)), ([] : List Char)) = some (pieces, r) :=
            (manyAux_none_input textPiece_nil _).symm.trans hm
          have hpieces : ([] : List (List Nat)) = pieces :=
            congrArg Prod.fst (Option.some.inj hm0)
          have hrnil : ([] : List Char) = r := congrArg Prod.snd (Option.some.inj hm0)
          have hTfail : textPiece ((([] : List Char) ++ [c]).dropWhile isMS) = none := by
            apply textPiece_fail_closer
            rw [dropWhile_idem]
            exact closerNil_ext hc (Or.inl rfl)
          rw [manyAux_none_input hTfail]
          rw [← hpieces] at hd
          simp only [hd]
          rw [ht, ← hrnil]
        | cons a1 t1 =>
          have hms1 : isMS a1 = false := stripped_head_not_ms hr1str
          have hstr1 : ((a1 :: t1) ++ [c]).dropWhile isMS = (a1 :: t1) ++ [c] := by
            rw [List.cons_append]
            exact dropWhile_cons_false _ hms1
          rw [hstr1]
          have hr2str : r.dropWhile isMS = r := by
            cases pieces with
            | nil =>
              rw [manyAux_nil_rest hm]
              exact hr1str
            | cons p ps => exact manyAux_rest_stripped pstr _ _ _ _ _ hm
          obtain ⟨R, hmE, hER⟩ := manyAux_ext hc pstr textPiece_lt pext
            textPiece_fail_closer ((a1 :: t1).length + 1) (a1 :: t1) pieces r
            (by omega) hm (by rw [hr2str]; exact hcl)
          have hRstr : R.dropWhile isMS = R := by
            cases pieces with
            | nil =>
              rw [manyAux_nil_rest hmE]
              exact hstr1
            | cons p ps => exact manyAux_rest_stripped pstr _ _ _ _ _ hmE
          have hR : R = (r ++ [c]).dropWhile isMS := hRstr.symm.trans hER.1
          have hfail : textPiece R = none := by
            apply textPiece_fail_closer
            rw [hRstr, hR]
            exact closerNil_ext hc hcl
          have hmono := manyAux_mono ((a1 :: t1).length + 1)
            (((a1 :: t1) ++ [c]).length + 1) ((a1 :: t1) ++ [c]) pieces R
            (by simp only [List.length_append, List.length_cons, List.length_nil]; omega)
            hmE hfail
          rw [hmono]
          simp only [hd]
          rw [ht, ← hR]

theorem dataItemF_via_textstring {f : Nat} {x : List Char} {v : DataItem} {r : List Char}
    (hms : x.dropWhile isMS = x) (h1 : float x = none)
    (h2 : tagged (dataItemF f) x = none) (h3 : positive x = none)
    (h4 : negative x = none) (h5 : bytestring x = none)
    (ht : textstring x = some (v, r)) :
    dataItemF (f + 1) x = some (v, r.dropWhile isMS) := by
  unfold dataItemF wrapws palt
  simp only [hms, h1, h2, h3, h4, h5, ht]

theorem dataItemF_via_array {f : Nat} {x : List Char} {v : DataItem} {r : List Char}
    (hms : x.dropWhile isMS = x) (h1 : float x = none)
    (h2 : tagged (dataItemF f) x = none) (h3 : positive x = none)
    (h4 : negative x = none) (h5 : bytestring x = none) (h6 : textstring x = none)
    (ha : array (dataItemF f) x = some (v, r)) :
    dataItemF (f + 1) x = some (v, r.dropWhile isMS) := by
  unfold dataItemF wrapws palt
  simp only [hms, h1, h2, h3, h4, h5, h6, ha]

theorem dataItemF_via_map {f : Nat} {x : List Char} {v : DataItem} {r : List Char}
    (hms : x.dropWhile isMS = x) (h1 : float x = none)
    (h2 : tagged (dataItemF f) x = none) (h3 : positive x = none)
    (h4 : negative x = none) (h5 : bytestring x = none) (h6 : textstring x = none)
    (h7 : array (dataItemF f) x = none)
    (hm : data_map (dataItemF f) x = some (v, r)) :
    dataItemF (f + 1) x = some (v, r.dropWhile isMS) := by
  unfold dataItemF wrapws palt
  simp only [hms, h1, h2, h3, h4, h5, h6, h7, hm]

theorem dataItemF_via_simple {f : Nat} {x : List Char} {v : DataItem} {r : List Char}
    (hms : x.dropWhile isMS = x) (h1 : float x = none)
    (h2 : tagged (dataItemF f) x = none) (h3 : positive x = none)
    (h4 : negative x = none) (h5 : bytestring x = none) (h6 : textstring x = none)
    (h7 : array (dataItemF f) x = none) (h8 : data_map (dataItemF f) x = none)
    (hs : simple x = some (v, r)) :
    dataItemF (f + 1) x = some (v, r.dropWhile isMS) := by
  unfold dataItemF wrapws palt
  simp only [hms, h1, h2, h3, h4, h5, h6, h7, h8, hs]

/-- Fresh failures of the four leading dispatcher branches from the head
character alone. -/
theorem first4_fail {f : Nat} {z2 : List Char} {a : Char} {t2 : List Char}
    (hz : z2 = a :: t2) (hdg : a.isDigit = false) (h1 : a ≠ '+') (h2 : a ≠ '-')
    (h3 : a ≠ 'I') (h4 : a ≠ 'N') :
    float z2 = none ∧ tagged (dataItemF f) z2 = none ∧ positive z2 = none ∧
      negative z2 = none := by
  subst hz
  exact ⟨float_fail_head hdg h1 h2 h3 h4,
    tagged_fail_integer (integer_fail_head (notDigitStart_cons t2 hdg)),
    positive_fail_head (notDigitStart_cons t2 hdg),
    negative_fail_head (head_cons_prop t2 h2)⟩

theorem positive_inv {z : List Char} {v : DataItem} {r : List Char}
    (h : positive z = some (v, r)) :
    ∃ n w, integer z = some ((n, w), r) := by
  unfold positive at h
  cases h0 : integer z with
  | none => simp only [h0] at h; exact Option.noConfusion h
  | some vr =>
    obtain ⟨nw, r1⟩ := vr
    obtain ⟨n, w⟩ := nw
    simp only [h0] at h
    have hr : r1 = r := congrArg Prod.snd (Option.some.inj h)
    exact ⟨n, w, by rw [hr]⟩

theorem negative_head {z : List Char} {v : DataItem} {r : List Char}
    (h : negative z = some (v, r)) : ∃ y, z = '-' :: y := by
  unfold negative at h
  cases h0 : ptag ['-'] z with
  | none => simp only [h0] at h; exact Option.noConfusion h
  | some pr =>
    obtain ⟨u, r1⟩ := pr
    obtain ⟨hu, hz⟩ := ptag_inv h0
    exact ⟨r1, hz⟩

/-- After a successful `integer` whose rest strips to a closer or nothing,
the `tagged` branch fails on the extended input: no `(` can follow. -/
theorem tagged_fail_after_integer {item : Parser DataItem} {z : List Char}
    {nw : Nat × IntegerWidth} {r0 : List Char} {c : Char} (hc : ExtChar c)
    (hint : integer z = some (nw, r0)) (hcl : CloserNil (r0.dropWhile isMS)) :
    tagged item (z ++ [c]) = none := by
  obtain ⟨hcd, hcu, hcp, _⟩ := extChar_facts hc
  have hie : integer (z ++ [c]) = some (nw, r0 ++ [c]) := integer_ext hcd hcu hint
  have hpt : ptag ['('] (r0 ++ [c]) = none := by
    cases r0 with
    | nil => exact ptag_ne_head [] [] (Ne.symm hcp)
    | cons a tl =>
      by_cases hms : isMS a = true
      · refine ptag_ne_head [] (tl ++ [c]) ?_
        intro he
        rw [← he] at hms
        exact absurd hms (by decide)
      · have hdw : (a :: tl).dropWhile isMS = a :: tl :=
          dropWhile_cons_false tl (by simpa using hms)
        rcases hcl with hn | ⟨a2, t2, he2, ha2⟩
        · rw [hdw] at hn
          exact absurd hn (by simp)
        · rw [hdw] at he2
          have ha : a = a2 := by
            have := congrArg List.head? he2
            simpa using this
          obtain ⟨_, _, _, _, _, hpar, _⟩ := closer_cases ha2
          refine ptag_ne_head [] (tl ++ [c]) ?_
          intro he
          rw [← he] at ha
          exact hpar ha.symm
  unfold tagged
  simp only [hie, hpt]

theorem tagged_ext {c : Char} (hc : ExtChar c) {f : Nat}
    (ih : ∀ x v r, dataItemF f x = some (v, r) → CloserNil r →
      dataItemF f (x ++ [c]) = some (v, (r ++ [c]).dropWhile isMS))
    {z : List Char} {v : DataItem} {r : List Char}
    (h : tagged (dataItemF f) z = some (v, r)) :
    tagged (dataItemF f) (z ++ [c]) = some (v, r ++ [c]) := by
  obtain ⟨hcd, hcu, _⟩ := extChar_facts hc
  unfold tagged at h ⊢
  cases h0 : integer z with
  | none => simp only [h0] at h; exact Option.noConfusion h
  | some vr =>
    obtain ⟨tw, r1⟩ := vr
    obtain ⟨tg, w⟩ := tw
    simp only [h0] at h
    simp only [integer_ext hcd hcu h0]
    cases h1 : ptag ['('] r1 with
    | none => simp only [h1] at h; exact Option.noConfusion h
    | some pr =>
      obtain ⟨u, r2⟩ := pr
      simp only [h1] at h
      simp only [ptag_ext [c] h1]
      cases h2 : dataItemF f r2 with
      | none => simp only [h2] at h; exact Option.noConfusion h
      | some vr2 =>
        obtain ⟨v0, r3⟩ := vr2
        simp only [h2] at h
        cases h3 : ptag [')'] r3 with
        | none => simp only [h3] at h; exact Option.noConfusion h
        | some pr3 =>
          obtain ⟨u2, r4⟩ := pr3
          simp only [h3] at h
          obtain ⟨hu2, hr3⟩ := ptag_inv h3
          have hr3' : r3 = ')' :: r4 := hr3.trans rfl
          have hcl3 : CloserNil r3 := Or.inr ⟨')', r4, hr3', Or.inl rfl⟩
          have h2e := ih r2 v0 r3 h2 hcl3
          have hstr3 : (r3 ++ [c]).dropWhile isMS = r3 ++ [c] := by
            rw [hr3', List.cons_append]
            exact dropWhile_cons_false _ (by decide)
          rw [hstr3] at h2e
          simp only [h2e]
          simp only [ptag_ext [c] h3]
          have hv : _ = v := congrArg Prod.fst (Option.some.inj h)
          have hr4 : r4 = r := congrArg Prod.snd (Option.some.inj h)
          rw [← hv, hr4]

theorem wrapws_ptag_inv {t z u r1 : List Char} (h : wrapws (ptag t) z = some (u, r1)) :
    ∃ rr, z.dropWhile isMS = t ++ rr ∧ u = t ∧ r1 = rr.dropWhile isMS := by
  unfold wrapws at h
  cases h0 : ptag t (z.dropWhile isMS) with
  | none => simp only [h0] at h; exact Option.noConfusion h
  | some pr =>
    obtain ⟨u0, rr⟩ := pr
    simp only [h0] at h
    obtain ⟨hu0, hz⟩ := ptag_inv h0
    have hu : u0 = u := congrArg Prod.fst (Option.some.inj h)
    have hr : rr.dropWhile isMS = r1 := congrArg Prod.snd (Option.some.inj h)
    exact ⟨rr, hz, by rw [← hu, hu0], hr.symm⟩

theorem wrapws_ptag_ext {t z u r1 : List Char} (y : List Char) (ht : t ≠ [])
    (h : wrapws (ptag t) z = some (u, r1)) :
    wrapws (ptag t) (z ++ y) = some (u, (r1 ++ y).dropWhile isMS) := by
  unfold wrapws at h ⊢
  cases h0 : ptag t (z.dropWhile isMS) with
  | none => simp only [h0] at h; exact Option.noConfusion h
  | some pr =>
    obtain ⟨u0, rr⟩ := pr
    simp only [h0] at h
    have hu : u0 = u := congrArg Prod.fst (Option.some.inj h)
    have hr : rr.dropWhile isMS = r1 := congrArg Prod.snd (Option.some.inj h)
    have hzs : z.dropWhile isMS ≠ [] := by
      intro hn
      rw [hn] at h0
      cases t with
      | nil => exact ht rfl
      | cons a tl =>
        rw [ptag_cons_nil tl] at h0
        exact Option.noConfusion h0
    rw [dropWhile_append_of_ne_nil y hzs]
    simp only [ptag_ext y h0]
    rw [hu, ← hr, ← strip_append isMS rr y]

theorem indefinite_bytestring_head {z : List Char} {v : DataItem} {r : List Char}
    (h : indefinite_bytestring z = some (v, r)) : ∃ w1, z = '(' :: '_' :: w1 := by
  unfold indefinite_bytestring at h
  cases h0 : ptag ['(', '_'] z with
  | none => simp only [h0] at h; exact Option.noConfusion h
  | some pr =>
    obtain ⟨u, r1⟩ := pr
    obtain ⟨hu, hz⟩ := ptag_inv h0
    exact ⟨r1, hz.trans rfl⟩

theorem indefinite_textstring_head {z : List Char} {v : DataItem} {r : List Char}
    (h : indefinite_textstring z = some (v, r)) : ∃ w1, z = '(' :: '_' :: w1 := by
  unfold indefinite_textstring at h
  cases h0 : ptag ['(', '_'] z with
  | none => simp only [h0] at h; exact Option.noConfusion h
  | some pr =>
    obtain ⟨u, r1⟩ := pr
    obtain ⟨hu, hz⟩ := ptag_inv h0
    exact ⟨r1, hz.trans rfl⟩

theorem cdb_out_stripped {z : List Char} {b : ByteString} {r : List Char}
    (h : concatenated_definite_bytestring z = some (b, r)) : r.dropWhile isMS = r := by
  unfold concatenated_definite_bytestring pmap pmany1 pmany0 at h
  cases hm : manyAux definite_bytestring (z.length + 1) z with
  | none => simp only [hm] at h; exact Option.noConfusion h
  | some br =>
    obtain ⟨bs, rm⟩ := br
    cases bs with
    | nil => simp only [hm] at h; exact Option.noConfusion h
    | cons b0 bs2 =>
      simp only [hm] at h
      have hrm : rm = r := congrArg Prod.snd (Option.some.inj h)
      rw [← hrm]
      exact manyAux_rest_stripped
        (fun z2 a2 r2 h2 => definite_bytestring_out_stripped h2) _ _ _ _ _ hm

theorem cdb_head {z : List Char} {b : ByteString} {r : List Char}
    (h : concatenated_definite_bytestring z = some (b, r)) :
    ∃ t2, z.dropWhile isMS = 'h' :: t2 ∨ z.dropWhile isMS = 'b' :: t2 ∨
      z.dropWhile isMS = '\'' :: t2 := by
  unfold concatenated_definite_bytestring pmap pmany1 pmany0 at h
  cases hm : manyAux definite_bytestring (z.length + 1) z with
  | none => simp only [hm] at h; exact Option.noConfusion h
  | some br =>
    obtain ⟨bs, rm⟩ := br
    cases bs with
    | nil => simp only [hm] at h; exact Option.noConfusion h
    | cons b0 bs2 =>
      cases hz : z.length + 1 with
      | zero => exact absurd hz (by omega)
      | succ f0 =>
        rw [hz] at hm
        unfold manyAux at hm
        cases h0 : definite_bytestring z with
        | none =>
          simp only [h0] at hm
          exact absurd (congrArg Prod.fst (Option.some.inj hm)) (by simp)
        | some p0 =>
          exact definite_bytestring_head h0

theorem ctds_out_stripped {z : List Char} {t : TextString} {r : List Char}
    (h : concatenated_definite_textstring z = some (t, r)) : r.dropWhile isMS = r := by
  unfold concatenated_definite_textstring pmany0 at h
  cases h0 : definite_textstring z with
  | none => simp only [h0] at h; exact Option.noConfusion h
  | some fr =>
    obtain ⟨first, r1⟩ := fr
    simp only [h0] at h
    cases hm : manyAux textPiece (r1.length + 1) r1 with
    | none => simp only [hm] at h; exact Option.noConfusion h
    | some pr2 =>
      obtain ⟨pieces, r2⟩ := pr2
      simp only [hm] at h
      cases hd : utf8Decode pieces.flatten with
      | none => simp only [hd] at h; exact Option.noConfusion h
      | some rest =>
        simp only [hd] at h
        have hr2 : r2 = r := congrArg Prod.snd (Option.some.inj h)
        rw [← hr2]
        cases pieces with
        | nil =>
          rw [manyAux_nil_rest hm]
          exact definite_textstring_out_stripped h0
        | cons p ps =>
          exact manyAux_rest_stripped
            (fun z2 a2 r2' h2 => textPiece_out_stripped h2) _ _ _ _ _ hm

theorem ctds_head {z : List Char} {t : TextString} {r : List Char}
    (h : concatenated_definite_textstring z = some (t, r)) :
    ∃ t2, z.dropWhile isMS = '"' :: t2 := by
  unfold concatenated_definite_textstring at h
  cases h0 : definite_textstring z with
  | none => simp only [h0] at h; exact Option.noConfusion h
  | some fr =>
    exact definite_textstring_head h0

theorem simple_head {z : List Char} {v : DataItem} {r : List Char}
    (h : simple z = some (v, r)) :
    ∃ t2, z = 'f' :: t2 ∨ z = 't' :: t2 ∨ z = 'n' :: t2 ∨ z = 'u' :: t2 ∨
      z = 's' :: t2 := by
  unfold simple at h
  cases g1 : ptag ['f', 'a', 'l', 's', 'e'] z with
  | some pr =>
    obtain ⟨u, r1⟩ := pr
    obtain ⟨hu, hz⟩ := ptag_inv g1
    exact ⟨_, Or.inl (hz.trans rfl)⟩
  | none =>
    simp only [g1] at h
    cases g2 : ptag ['t', 'r', 'u', 'e'] z with
    | some pr =>
      obtain ⟨u, r1⟩ := pr
      obtain ⟨hu, hz⟩ := ptag_inv g2
      exact ⟨_, Or.inr (Or.inl (hz.trans rfl))⟩
    | none =>
      simp only [g2] at h
      cases g3 : ptag ['n', 'u', 'l', 'l'] z with
      | some pr =>
        obtain ⟨u, r1⟩ := pr
        obtain ⟨hu, hz⟩ := ptag_inv g3
        exact ⟨_, Or.inr (Or.inr (Or.inl (hz.trans rfl)))⟩
      | none =>
        simp only [g3] at h
        cases g4 : ptag ['u', 'n', 'd', 'e', 'f', 'i', 'n', 'e', 'd'] z with
        | some pr =>
          obtain ⟨u, r1⟩ := pr
          obtain ⟨hu, hz⟩ := ptag_inv g4
          exact ⟨_, Or.inr (Or.inr (Or.inr (Or.inl (hz.trans rfl))))⟩
        | none =>
          simp only [g4] at h
          cases g5 : ptag ['s', 'i', 'm', 'p', 'l', 'e'] z with
          | none => simp only [g5] at h; exact Option.noConfusion h
          | some pr =>
            obtain ⟨u, r1⟩ := pr
            obtain ⟨hu, hz⟩ := ptag_inv g5
            exact ⟨_, Or.inr (Or.inr (Or.inr (Or.inr (hz.trans rfl))))⟩

theorem array_head {item : Parser DataItem} {z : List Char} {v : DataItem} {r : List Char}
    (h : array item z = some (v, r)) : ∃ t2, z.dropWhile isMS = '[' :: t2 := by
  unfold array palt definite_array indefinite_array at h
  cases h0 : wrapws (ptag ['[']) z with
  | some pr =>
    obtain ⟨u, r1⟩ := pr
    obtain ⟨rr, hz, _, _⟩ := wrapws_ptag_inv h0
    exact ⟨rr, hz.trans rfl⟩
  | none =>
    simp only [h0] at h
    cases h1 : wrapws (ptag ['[', '_']) z with
    | none => simp only [h1] at h; exact Option.noConfusion h
    | some pr =>
      obtain ⟨u, r1⟩ := pr
      obtain ⟨rr, hz, _, _⟩ := wrapws_ptag_inv h1
      exact ⟨'_' :: rr, hz.trans rfl⟩

theorem map_head {item : Parser DataItem} {z : List Char} {v : DataItem} {r : List Char}
    (h : data_map item z = some (v, r)) : ∃ t2, z.dropWhile isMS = '{' :: t2 := by
  unfold data_map palt definite_map indefinite_map at h
  cases h0 : wrapws (ptag ['{']) z with
  | some pr =>
    obtain ⟨u, r1⟩ := pr
    obtain ⟨rr, hz, _, _⟩ := wrapws_ptag_inv h0
    exact ⟨rr, hz.trans rfl⟩
  | none =>
    simp only [h0] at h
    cases h1 : wrapws (ptag ['{', '_']) z with
    | none => simp only [h1] at h; exact Option.noConfusion h
    | some pr =>
      obtain ⟨u, r1⟩ := pr
      obtain ⟨rr, hz, _, _⟩ := wrapws_ptag_inv h1
      exact ⟨'_' :: rr, hz.trans rfl⟩

theorem pairP_fail_closer {f : Nat} :
    ∀ z, CloserNil (z.dropWhile isMS) → pairP (dataItemF f) z = none := by
  intro z h
  unfold pairP
  simp only [dataItemF_fail_closernil z h]

theorem pairP_ext {c : Char} {f : Nat}
    (ih : ∀ x v r, dataItemF f x = some (v, r) → CloserNil r →
      dataItemF f (x ++ [c]) = some (v, (r ++ [c]).dropWhile isMS)) :
    ∀ (z : List Char) (kv : DataItem × DataItem) (r : List Char),
      pairP (dataItemF f) z = some (kv, r) → CloserNil r →
      pairP (dataItemF f) (z ++ [c]) = some (kv, (r ++ [c]).dropWhile isMS) := by
  intro z kv r h hcl
  unfold pairP at h ⊢
  cases h0 : dataItemF f z with
  | none => simp only [h0] at h; exact Option.noConfusion h
  | some kr =>
    obtain ⟨k, r1⟩ := kr
    simp only [h0] at h
    cases h1 : ptag [':'] r1 with
    | none => simp only [h1] at h; exact Option.noConfusion h
    | some pr =>
      obtain ⟨u, r2⟩ := pr
      simp only [h1] at h
      obtain ⟨hu, hr1⟩ := ptag_inv h1
      have hr1' : r1 = ':' :: r2 := hr1.trans rfl
      have hcl1 : CloserNil r1 :=
        Or.inr ⟨':', r2, hr1', Or.inr (Or.inr (Or.inr (Or.inr rfl)))⟩
      have h0e := ih z k r1 h0 hcl1
      have hstr1 : (r1 ++ [c]).dropWhile isMS = r1 ++ [c] := by
        rw [hr1', List.cons_append]
        exact dropWhile_cons_false _ (by decide)
      rw [hstr1] at h0e
      simp only [h0e, ptag_ext [c] h1]
      cases h2 : dataItemF f r2 with
      | none => simp only [h2] at h; exact Option.noConfusion h
      | some vr2 =>
        obtain ⟨v2, r3⟩ := vr2
        simp only [h2] at h
        have hkv : (k, v2) = kv := congrArg Prod.fst (Option.some.inj h)
        have hr3 : r3 = r := congrArg Prod.snd (Option.some.inj h)
        have h2e := ih r2 v2 r3 h2 (by rw [hr3]; exact hcl)
        simp only [h2e]
        rw [hkv, hr3]

theorem cdb_fail_strip {x : List Char} {a : Char} {t2 : List Char}
    (hx : x.dropWhile isMS = a :: t2) (h1 : a ≠ 'h') (h2 : a ≠ 'b') (h3 : a ≠ '\'') :
    concatenated_definite_bytestring x = none := by
  have hms : isMS a = false := stripped_head_not_ms (by rw [← hx, dropWhile_idem, hx])
  have hdb : definite_bytestring x = none := by
    rw [← definite_bytestring_strip x, hx]
    exact definite_bytestring_fail_head hms h1 h2 h3
  unfold concatenated_definite_bytestring pmap pmany1 pmany0
  rw [manyAux_none_input hdb]

theorem definite_array_fail_underscore {f : Nat} {z2 w1 : List Char}
    (hz : z2.dropWhile isMS = '[' :: '_' :: w1) :
    definite_array (dataItemF f) z2 = none := by
  have hw : wrapws (ptag ['[']) z2 = some (['['], '_' :: w1) := by
    unfold wrapws
    rw [hz]
    have e1 : ptag ['['] ('[' :: '_' :: w1) = some (['['], '_' :: w1) :=
      ptag_run_tag ['['] ('_' :: w1)
    simp only [e1]
    rw [dropWhile_cons_false w1 (by decide)]
  have hif : dataItemF f ('_' :: w1) = none :=
    dataItemF_fail_closer (dropWhile_cons_false w1 (by decide)) (Or.inr rfl)
  have hsl : separated_list [','] (dataItemF f) ('_' :: w1) = some ([], '_' :: w1) := by
    unfold separated_list
    simp only [hif]
  have g1 : ptag [']'] ('_' :: w1) = none := ptag_ne_head _ _ (by decide)
  have g2 : ptag [','] ('_' :: w1) = none := ptag_ne_head _ _ (by decide)
  unfold definite_array opt_comma_tag
  simp only [hw, hsl, g1, g2]

theorem definite_map_fail_underscore {f : Nat} {z2 w1 : List Char}
    (hz : z2.dropWhile isMS = '{' :: '_' :: w1) :
    definite_map (dataItemF f) z2 = none := by
  have hw : wrapws (ptag ['{']) z2 = some (['{'], '_' :: w1) := by
    unfold wrapws
    rw [hz]
    have e1 : ptag ['{'] ('{' :: '_' :: w1) = some (['{'], '_' :: w1) :=
      ptag_run_tag ['{'] ('_' :: w1)
    simp only [e1]
    rw [dropWhile_cons_false w1 (by decide)]
  have hif : pairP (dataItemF f) ('_' :: w1) = none := by
    unfold pairP
    simp only [dataItemF_fail_closer (dropWhile_cons_false w1 (by decide)) (Or.inr rfl)]
  have hsl : separated_list [','] (pairP (dataItemF f)) ('_' :: w1) =
      some ([], '_' :: w1) := by
    unfold separated_list
    simp only [hif]
  have g1 : ptag ['}'] ('_' :: w1) = none := ptag_ne_head _ _ (by decide)
  have g2 : ptag [','] ('_' :: w1) = none := ptag_ne_head _ _ (by decide)
  unfold definite_map opt_comma_tag
  simp only [hw, hsl, g1, g2]

theorem indefinite_bytestring_ext {c : Char} (hc : ExtChar c) {z : List Char}
    {v : DataItem} {r : List Char} (h : indefinite_bytestring z = some (v, r)) :
    indefinite_bytestring (z ++ [c]) = some (v, r ++ [c]) := by
  unfold indefinite_bytestring at h ⊢
  cases h0 : ptag ['(', '_'] z with
  | none => simp only [h0] at h; exact Option.noConfusion h
  | some pr =>
    obtain ⟨u, r1⟩ := pr
    simp only [h0] at h
    simp only [ptag_ext [c] h0]
    cases h1 : separated_list [','] concatenated_definite_bytestring r1 with
    | none => simp only [h1] at h; exact Option.noConfusion h
    | some cr =>
      obtain ⟨chunks, r2⟩ := cr
      simp only [h1] at h
      cases h2 : opt_comma_tag [')'] r2 with
      | none => simp only [h2] at h; exact Option.noConfusion h
      | some ur3 =>
        obtain ⟨u2, r3⟩ := ur3
        simp only [h2] at h
        obtain ⟨⟨aN, tN, hr2c, hclN⟩, hterm⟩ :=
          opt_comma_tag_closer (Or.inl rfl) (by decide) h2
        subst hr2c
        have h1e := separated_list_ext hc (cdb_ext hc) cdb_fail_closer h1 hclN hterm
        simp only [h1e]
        have h2e := @opt_comma_tag_ext2 ')' [] (aN :: tN) u2 r3 c (by decide) h2
        simp only [h2e]
        have hv : _ = v := congrArg Prod.fst (Option.some.inj h)
        have hr3 : r3 = r := congrArg Prod.snd (Option.some.inj h)
        rw [← hv, hr3]

theorem indefinite_textstring_ext {c : Char} (hc : ExtChar c) {z : List Char}
    {v : DataItem} {r : List Char} (h : indefinite_textstring z = some (v, r)) :
    indefinite_textstring (z ++ [c]) = some (v, r ++ [c]) := by
  unfold indefinite_textstring at h ⊢
  cases h0 : ptag ['(', '_'] z with
  | none => simp only [h0] at h; exact Option.noConfusion h
  | some pr =>
    obtain ⟨u, r1⟩ := pr
    simp only [h0] at h
    simp only [ptag_ext [c] h0]
    cases h1 : separated_list [','] concatenated_definite_textstring r1 with
    | none => simp only [h1] at h; exact Option.noConfusion h
    | some cr =>
      obtain ⟨chunks, r2⟩ := cr
      simp only [h1] at h
      cases h2 : opt_comma_tag [')'] r2 with
      | none => simp only [h2] at h; exact Option.noConfusion h
      | some ur3 =>
        obtain ⟨u2, r3⟩ := ur3
        simp only [h2] at h
        obtain ⟨⟨aN, tN, hr2c, hclN⟩, hterm⟩ :=
          opt_comma_tag_closer (Or.inl rfl) (by decide) h2
        subst hr2c
        have h1e := separated_list_ext hc (ctds_ext hc) ctds_fail_closer h1 hclN hterm
        simp only [h1e]
        have h2e := @opt_comma_tag_ext2 ')' [] (aN :: tN) u2 r3 c (by decide) h2
        simp only [h2e]
        have hv : _ = v := congrArg Prod.fst (Option.some.inj h)
        have hr3 : r3 = r := congrArg Prod.snd (Option.some.inj h)
        rw [← hv, hr3]

/-- Extending the body of a bracketed list: the element loop and the closing
token both survive an appended extension character. -/
theorem bracket_body_ext {α : Type} {p : Parser α} {c : Char} (hc : ExtChar c)
    (pext : ∀ z a r, p z = some (a, r) → CloserNil r →
      p (z ++ [c]) = some (a, (r ++ [c]).dropWhile isMS))
    (pfc : ∀ z, CloserNil (z.dropWhile isMS) → p z = none)
    {cl : Char} (hclne : cl ≠ ',') (hclcl : Closer cl)
    {r1 : List Char} {elems : List α} {r2 u2 r3 : List Char}
    (h1 : separated_list [','] p r1 = some (elems, r2))
    (h2 : opt_comma_tag [cl] r2 = some (u2, r3)) :
    separated_list [','] p (r1 ++ [c]) = some (elems, r2 ++ [c]) ∧
      opt_comma_tag [cl] (r2 ++ [c]) = some (u2, r3 ++ [c]) ∧ r2 ≠ [] := by
  obtain ⟨⟨aN, tN, hr2c, hclN⟩, hterm⟩ := opt_comma_tag_closer hclcl hclne h2
  subst hr2c
  exact ⟨separated_list_ext hc pext pfc h1 hclN hterm,
    @opt_comma_tag_ext2 cl [] (aN :: tN) u2 r3 c hclne h2, by simp⟩

/-- A separated list over a parser that rejects the empty input returns the
empty input unchanged. -/
theorem separated_list_nil_input {α : Type} {p : Parser α} (hp : p [] = none) :
    separated_list [','] p ([] : List Char) = some ([], []) := by
  unfold separated_list
  simp only [hp]

theorem definite_array_ext {c : Char} (hc : ExtChar c) {f : Nat}
    (ih : ∀ x v r, dataItemF f x = some (v, r) → CloserNil r →
      dataItemF f (x ++ [c]) = some (v, (r ++ [c]).dropWhile isMS))
    {z : List Char} {v : DataItem} {r : List Char}
    (h : definite_array (dataItemF f) z = some (v, r)) :
    definite_array (dataItemF f) (z ++ [c]) = some (v, r ++ [c]) := by
  unfold definite_array at h ⊢
  cases h0 : wrapws (ptag ['[']) z with
  | none => simp only [h0] at h; exact Option.noConfusion h
  | some pr =>
    obtain ⟨u, r1⟩ := pr
    simp only [h0] at h
    cases h1 : separated_list [','] (dataItemF f) r1 with
    | none => simp only [h1] at h; exact Option.noConfusion h
    | some er =>
      obtain ⟨elems, r2⟩ := er
      simp only [h1] at h
      cases h2 : opt_comma_tag [']'] r2 with
      | none => simp only [h2] at h; exact Option.noConfusion h
      | some ur3 =>
        obtain ⟨u2, r3⟩ := ur3
        simp only [h2] at h
        obtain ⟨h1e, h2e, hr2ne⟩ := bracket_body_ext hc ih (@dataItemF_fail_closernil f)
          (by decide) (Or.inr (Or.inl rfl)) h1 h2
        have hr1ne : r1 ≠ [] := by
          intro hn
          rw [hn, separated_list_nil_input (dataItemF_nil f)] at h1
          exact hr2ne (congrArg Prod.snd (Option.some.inj h1)).symm
        have hr1str : r1.dropWhile isMS = r1 := wrapws_out_stripped h0
        have h0e := wrapws_ptag_ext [c] (by decide) h0
        have hstr1 : (r1 ++ [c]).dropWhile isMS = r1 ++ [c] := by
          cases r1 with
          | nil => exact absurd rfl hr1ne
          | cons a1 t1 =>
            rw [List.cons_append]
            exact dropWhile_cons_false _ (stripped_head_not_ms hr1str)
        rw [hstr1] at h0e
        simp only [h0e, h1e, h2e]
        have hv2 : _ = v := congrArg Prod.fst (Option.some.inj h)
        have hr3 : r3 = r := congrArg Prod.snd (Option.some.inj h)
        rw [← hv2, hr3]

theorem indefinite_array_ext {c : Char} (hc : ExtChar c) {f : Nat}
    (ih : ∀ x v r, dataItemF f x = some (v, r) → CloserNil r →
      dataItemF f (x ++ [c]) = some (v, (r ++ [c]).dropWhile isMS))
    {z : List Char} {v : DataItem} {r : List Char}
    (h : indefinite_array (dataItemF f) z = some (v, r)) :
    indefinite_array (dataItemF f) (z ++ [c]) = some (v, r ++ [c]) := by
  unfold indefinite_array at h ⊢
  cases h0 : wrapws (ptag ['[', '_']) z with
  | none => simp only [h0] at h; exact Option.noConfusion h
  | some pr =>
    obtain ⟨u, r1⟩ := pr
    simp only [h0] at h
    cases h1 : separated_list [','] (dataItemF f) r1 with
    | none => simp only [h1] at h; exact Option.noConfusion h
    | some er =>
      obtain ⟨elems, r2⟩ := er
      simp only [h1] at h
      cases h2 : opt_comma_tag [']'] r2 with
      | none => simp only [h2] at h; exact Option.noConfusion h
      | some ur3 =>
        obtain ⟨u2, r3⟩ := ur3
        simp only [h2] at h
        obtain ⟨h1e, h2e, hr2ne⟩ := bracket_body_ext hc ih (@dataItemF_fail_closernil f)
          (by decide) (Or.inr (Or.inl rfl)) h1 h2
        have hr1ne : r1 ≠ [] := by
          intro hn
          rw [hn, separated_list_nil_input (dataItemF_nil f)] at h1
          exact hr2ne (congrArg Prod.snd (Option.some.inj h1)).symm
        have hr1str : r1.dropWhile isMS = r1 := wrapws_out_stripped h0
        have h0e := wrapws_ptag_ext [c] (by decide) h0
        have hstr1 : (r1 ++ [c]).dropWhile isMS = r1 ++ [c] := by
          cases r1 with
          | nil => exact absurd rfl hr1ne
          | cons a1 t1 =>
            rw [List.cons_append]
            exact dropWhile_cons_false _ (stripped_head_not_ms hr1str)
        rw [hstr1] at h0e
        simp only [h0e, h1e, h2e]
        have hv2 : _ = v := congrArg Prod.fst (Option.some.inj h)
        have hr3 : r3 = r := congrArg Prod.snd (Option.some.inj h)
        rw [← hv2, hr3]

theorem array_ext {c : Char} (hc : ExtChar c) {f : Nat}
    (ih : ∀ x v r, dataItemF f x = some (v, r) → CloserNil r →
      dataItemF f (x ++ [c]) = some (v, (r ++ [c]).dropWhile isMS))
    {z : List Char} {v : DataItem} {r : List Char}
    (h : array (dataItemF f) z = some (v, r)) :
    array (dataItemF f) (z ++ [c]) = some (v, r ++ [c]) := by
  unfold array palt at h ⊢
  cases hD : definite_array (dataItemF f) z with
  | some vr =>
    obtain ⟨v0, r0⟩ := vr
    simp only [hD] at h
    have hv : v0 = v := congrArg Prod.fst (Option.some.inj h)
    have hr : r0 = r := congrArg Prod.snd (Option.some.inj h)
    rw [hv, hr] at hD
    simp only [definite_array_ext hc ih hD]
  | none =>
    simp only [hD] at h
    obtain ⟨u, r1, hw⟩ :
        ∃ u r1, wrapws (ptag ['[', '_']) z = some (u, r1) := by
      unfold indefinite_array at h
      cases h0 : wrapws (ptag ['[', '_']) z with
      | none => simp only [h0] at h; exact Option.noConfusion h
      | some pr =>
        obtain ⟨u, r1⟩ := pr
        exact ⟨u, r1, rfl⟩
    obtain ⟨rr, hz, _, _⟩ := wrapws_ptag_inv hw
    have hzs : z.dropWhile isMS ≠ [] := by
      rw [hz]
      simp
    have hz2 : (z ++ [c]).dropWhile isMS = '[' :: '_' :: (rr ++ [c]) := by
      rw [dropWhile_append_of_ne_nil [c] hzs, hz]
      rfl
    have hDe : definite_array (dataItemF f) (z ++ [c]) = none :=
      definite_array_fail_underscore hz2
    simp only [hDe, indefinite_array_ext hc ih h]

theorem definite_map_ext {c : Char} (hc : ExtChar c) {f : Nat}
    (ih : ∀ x v r, dataItemF f x = some (v, r) → CloserNil r →
      dataItemF f (x ++ [c]) = some (v, (r ++ [c]).dropWhile isMS))
    {z : List Char} {v : DataItem} {r : List Char}
    (h : definite_map (dataItemF f) z = some (v, r)) :
    definite_map (dataItemF f) (z ++ [c]) = some (v, r ++ [c]) := by
  unfold definite_map at h ⊢
  cases h0 : wrapws (ptag ['{']) z with
  | none => simp only [h0] at h; exact Option.noConfusion h
  | some pr =>
    obtain ⟨u, r1⟩ := pr
    simp only [h0] at h
    cases h1 : separated_list [','] (pairP (dataItemF f)) r1 with
    | none => simp only [h1] at h; exact Option.noConfusion h
    | some er =>
      obtain ⟨entries, r2⟩ := er
      simp only [h1] at h
      cases h2 : opt_comma_tag ['}'] r2 with
      | none => simp only [h2] at h; exact Option.noConfusion h
      | some ur3 =>
        obtain ⟨u2, r3⟩ := ur3
        simp only [h2] at h
        obtain ⟨h1e, h2e, hr2ne⟩ := bracket_body_ext hc (pairP_ext ih)
          (@pairP_fail_closer f) (by decide) (Or.inr (Or.inr (Or.inl rfl))) h1 h2
        have hpnil : pairP (dataItemF f) ([] : List Char) = none := by
          unfold pairP
          simp only [dataItemF_nil f]
        have hr1ne : r1 ≠ [] := by
          intro hn
          rw [hn, separated_list_nil_input hpnil] at h1
          exact hr2ne (congrArg Prod.snd (Option.some.inj h1)).symm
        have hr1str : r1.dropWhile isMS = r1 := wrapws_out_stripped h0
        have h0e := wrapws_ptag_ext [c] (by decide) h0
        have hstr1 : (r1 ++ [c]).dropWhile isMS = r1 ++ [c] := by
          cases r1 with
          | nil => exact absurd rfl hr1ne
          | cons a1 t1 =>
            rw [List.cons_append]
            exact dropWhile_cons_false _ (stripped_head_not_ms hr1str)
        rw [hstr1] at h0e
        simp only [h0e, h1e, h2e]
        have hv2 : _ = v := congrArg Prod.fst (Option.some.inj h)
        have hr3 : r3 = r := congrArg Prod.snd (Option.some.inj h)
        rw [← hv2, hr3]

theorem indefinite_map_ext {c : Char} (hc : ExtChar c) {f : Nat}
    (ih : ∀ x v r, dataItemF f x = some (v, r) → CloserNil r →
      dataItemF f (x ++ [c]) = some (v, (r ++ [c]).dropWhile isMS))
    {z : List Char} {v : DataItem} {r : List Char}
    (h : indefinite_map (dataItemF f) z = some (v, r)) :
    indefinite_map (dataItemF f) (z ++ [c]) = some (v, r ++ [c]) := by
  unfold indefinite_map at h ⊢
  cases h0 : wrapws (ptag ['{', '_']) z with
  | none => simp only [h0] at h; exact Option.noConfusion h
  | some pr =>
    obtain ⟨u, r1⟩ := pr
    simp only [h0] at h
    cases h1 : separated_list [','] (pairP (dataItemF f)) r1 with
    | none => simp only [h1] at h; exact Option.noConfusion h
    | some er =>
      obtain ⟨entries, r2⟩ := er
      simp only [h1] at h
      cases h2 : opt_comma_tag ['}'] r2 with
      | none => simp only [h2] at h; exact Option.noConfusion h
      | some ur3 =>
        obtain ⟨u2, r3⟩ := ur3
        simp only [h2] at h
        obtain ⟨h1e, h2e, hr2ne⟩ := bracket_body_ext hc (pairP_ext ih)
          (@pairP_fail_closer f) (by decide) (Or.inr (Or.inr (Or.inl rfl))) h1 h2
        have hpnil : pairP (dataItemF f) ([] : List Char) = none := by
          unfold pairP
          simp only [dataItemF_nil f]
        have hr1ne : r1 ≠ [] := by
          intro hn
          rw [hn, separated_list_nil_input hpnil] at h1
          exact hr2ne (congrArg Prod.snd (Option.some.inj h1)).symm
        have hr1str : r1.dropWhile isMS = r1 := wrapws_out_stripped h0
        have h0e := wrapws_ptag_ext [c] (by decide) h0
        have hstr1 : (r1 ++ [c]).dropWhile isMS = r1 ++ [c] := by
          cases r1 with
          | nil => exact absurd rfl hr1ne
          | cons a1 t1 =>
            rw [List.cons_append]
            exact dropWhile_cons_false _ (stripped_head_not_ms hr1str)
        rw [hstr1] at h0e
        simp only [h0e, h1e, h2e]
        have hv2 : _ = v := congrArg Prod.fst (Option.some.inj h)
        have hr3 : r3 = r := congrArg Prod.snd (Option.some.inj h)
        rw [← hv2, hr3]

theorem map_ext {c : Char} (hc : ExtChar c) {f : Nat}
    (ih : ∀ x v r, dataItemF f x = some (v, r) → CloserNil r →
      dataItemF f (x ++ [c]) = some (v, (r ++ [c]).dropWhile isMS))
    {z : List Char} {v : DataItem} {r : List Char}
    (h : data_map (dataItemF f) z = some (v, r)) :
    data_map (dataItemF f) (z ++ [c]) = some (v, r ++ [c]) := by
  unfold data_map palt at h ⊢
  cases hD : definite_map (dataItemF f) z with
  | some vr =>
    obtain ⟨v0, r0⟩ := vr
    simp only [hD] at h
    have hv : v0 = v := congrArg Prod.fst (Option.some.inj h)
    have hr : r0 = r := congrArg Prod.snd (Option.some.inj h)
    rw [hv, hr] at hD
    simp only [definite_map_ext hc ih hD]
  | none =>
    simp only [hD] at h
    obtain ⟨u, r1, hw⟩ :
        ∃ u r1, wrapws (ptag ['{', '_']) z = some (u, r1) := by
      unfold indefinite_map at h
      cases h0 : wrapws (ptag ['{', '_']) z with
      | none => simp only [h0] at h; exact Option.noConfusion h
      | some pr =>
        obtain ⟨u, r1⟩ := pr
        exact ⟨u, r1, rfl⟩
    obtain ⟨rr, hz, _, _⟩ := wrapws_ptag_inv hw
    have hzs : z.dropWhile isMS ≠ [] := by
      rw [hz]
      simp
    have hz2 : (z ++ [c]).dropWhile isMS = '{' :: '_' :: (rr ++ [c]) := by
      rw [dropWhile_append_of_ne_nil [c] hzs, hz]
      rfl
    have hDe : definite_map (dataItemF f) (z ++ [c]) = none :=
      definite_map_fail_underscore hz2
    simp only [hDe, indefinite_map_ext hc ih h]

theorem separated_list_cons_first {α : Type} {sep : List Char} {p : Parser α}
    {x : List Char} {a : α} {as : List α} {r : List Char}
    (h : separated_list sep p x = some (a :: as, r)) :
    ∃ r1, p x = some (a, r1) := by
  unfold separated_list at h
  cases h0 : p x with
  | none =>
    simp only [h0] at h
    exact absurd (congrArg Prod.fst (Option.some.inj h)) (by simp)
  | some ar =>
    obtain ⟨a0, r1⟩ := ar
    simp only [h0] at h
    by_cases hg : r1.length < x.length
    · rw [if_pos hg] at h
      cases h1 : sepAux sep p (r1.length + 1) r1 with
      | none => simp only [h1] at h; exact Option.noConfusion h
      | some asr =>
        obtain ⟨as2, r2⟩ := asr
        simp only [h1] at h
        have hfst : a0 :: as2 = a :: as := congrArg Prod.fst (Option.some.inj h)
        have ha0 : a0 = a := (List.cons.injEq a0 as2 a as).mp hfst |>.1
        exact ⟨r1, by rw [← ha0]⟩
    · rw [if_neg hg] at h
      exact Option.noConfusion h

theorem bytestring_ext {c : Char} (hc : ExtChar c) {z : List Char} {v : DataItem}
    {r : List Char} (h : bytestring z = some (v, r))
    (hcl : CloserNil (r.dropWhile isMS)) :
    ∃ R, bytestring (z ++ [c]) = some (v, R) ∧
      R.dropWhile isMS = (r ++ [c]).dropWhile isMS := by
  unfold bytestring palt pmap at h ⊢
  cases h0 : concatenated_definite_bytestring z with
  | some br =>
    obtain ⟨b0, r0⟩ := br
    simp only [h0] at h
    have hv : DataItem.byteString b0 = v := congrArg Prod.fst (Option.some.inj h)
    have hr : r0 = r := congrArg Prod.snd (Option.some.inj h)
    have hstr : r.dropWhile isMS = r := by
      rw [← hr]
      exact cdb_out_stripped h0
    have hclr0 : CloserNil r0 := by
      rw [hr]
      exact hstr ▸ hcl
    have hce := cdb_ext hc z b0 r0 h0 hclr0
    simp only [hce]
    refine ⟨(r0 ++ [c]).dropWhile isMS, by rw [hv], ?_⟩
    rw [dropWhile_idem, hr]
  | none =>
    simp only [h0] at h
    obtain ⟨w1, hz⟩ := indefinite_bytestring_head h
    have hcdbE : concatenated_definite_bytestring (z ++ [c]) = none := by
      rw [hz, List.cons_append]
      exact cdb_fail_head (by decide) (by decide) (by decide) (by decide)
    simp only [hcdbE, indefinite_bytestring_ext hc h]
    exact ⟨r ++ [c], rfl, rfl⟩

theorem ctds_fail_paren {z : List Char} {w1 : List Char} (hz : z = '(' :: w1) :
    concatenated_definite_textstring z = none := by
  rw [hz]
  exact ctds_fail_head (by decide) (by decide)

theorem textstring_ext {c : Char} (hc : ExtChar c) {z : List Char} {v : DataItem}
    {r : List Char} (h : textstring z = some (v, r))
    (hcl : CloserNil (r.dropWhile isMS)) :
    ∃ R, textstring (z ++ [c]) = some (v, R) ∧
      R.dropWhile isMS = (r ++ [c]).dropWhile isMS := by
  unfold textstring palt pmap at h ⊢
  cases h0 : concatenated_definite_textstring z with
  | some tr =>
    obtain ⟨t0, r0⟩ := tr
    simp only [h0] at h
    have hv : DataItem.textString t0 = v := congrArg Prod.fst (Option.some.inj h)
    have hr : r0 = r := congrArg Prod.snd (Option.some.inj h)
    have hstr : r.dropWhile isMS = r := by
      rw [← hr]
      exact ctds_out_stripped h0
    have hclr0 : CloserNil r0 := by
      rw [hr]
      exact hstr ▸ hcl
    have hce := ctds_ext hc z t0 r0 h0 hclr0
    simp only [hce]
    refine ⟨(r0 ++ [c]).dropWhile isMS, by rw [hv], ?_⟩
    rw [dropWhile_idem, hr]
  | none =>
    simp only [h0] at h
    obtain ⟨w1, hz⟩ := indefinite_textstring_head h
    have hctdsE : concatenated_definite_textstring (z ++ [c]) = none := by
      apply ctds_fail_paren
      rw [hz, List.cons_append]
    simp only [hctdsE, indefinite_textstring_ext hc h]
    exact ⟨r ++ [c], rfl, rfl⟩

/-- If the text-string branch took an input the byte-string branch refused,
the byte-string branch also refuses the extended input. -/
theorem bytestring_fail_ext_of_textstring {c : Char} (hc : ExtChar c) {z : List Char}
    {v : DataItem} {r : List Char} (hstr : z.dropWhile isMS = z)
    (ht : textstring z = some (v, r)) (hb : bytestring z = none) :
    bytestring (z ++ [c]) = none := by
  unfold textstring palt pmap at ht
  cases h0 : concatenated_definite_textstring z with
  | some tr =>
    obtain ⟨t2, hhd⟩ := ctds_head h0
    rw [hstr] at hhd
    rw [hhd, List.cons_append]
    exact bytestring_fail_head (by decide) (by decide) (by decide) (by decide) (by decide)
  | none =>
    simp only [h0] at ht
    unfold bytestring palt pmap at hb ⊢
    cases hb0 : concatenated_definite_bytestring z with
    | some br =>
      simp only [hb0] at hb
      exact Option.noConfusion hb
    | none =>
      simp only [hb0] at hb
      obtain ⟨w1, hz⟩ := indefinite_textstring_head ht
      have hcdbE : concatenated_definite_bytestring (z ++ [c]) = none := by
        rw [hz, List.cons_append]
        exact cdb_fail_head (by decide) (by decide) (by decide) (by decide)
      simp only [hcdbE]
      unfold indefinite_textstring at ht
      unfold indefinite_bytestring at hb ⊢
      cases h1 : ptag ['(', '_'] z with
      | none => simp only [h1] at ht; exact Option.noConfusion ht
      | some pr =>
        obtain ⟨u, r1⟩ := pr
        simp only [h1] at ht hb
        simp only [ptag_ext [c] h1]
        cases h2 : separated_list [','] concatenated_definite_textstring r1 with
        | none => simp only [h2] at ht; exact Option.noConfusion ht
        | some cr =>
          obtain ⟨chT, r2⟩ := cr
          simp only [h2] at ht
          cases h3 : opt_comma_tag [')'] r2 with
          | none => simp only [h3] at ht; exact Option.noConfusion ht
          | some ur3 =>
            obtain ⟨u2, r3⟩ := ur3
            cases chT with
            | nil =>
              exfalso
              have hr21 : r2 = r1 := separated_list_nil_rest h2
              subst hr21
              obtain ⟨⟨aN, tN, hr2c, hclN⟩, hterm2⟩ :=
                opt_comma_tag_closer (Or.inl rfl) (by decide) h3
              have hcdb1 : concatenated_definite_bytestring r2 = none := by
                apply cdb_fail_closer
                rw [hr2c, dropWhile_cons_false tN (closer_not_ms hclN)]
                exact Or.inr ⟨aN, tN, rfl, hclN⟩
              have hslB : separated_list [','] concatenated_definite_bytestring r2 =
                  some ([], r2) := by
                unfold separated_list
                simp only [hcdb1]
              simp only [hslB, h3] at hb
              exact Option.noConfusion hb
            | cons t1 chT2 =>
              obtain ⟨rT, hT1⟩ := separated_list_cons_first h2
              obtain ⟨s2, hdr⟩ := ctds_head hT1
              have hr1ne : r1.dropWhile isMS ≠ [] := by
                rw [hdr]
                simp
              have hxs : (r1 ++ [c]).dropWhile isMS = '"' :: (s2 ++ [c]) := by
                rw [dropWhile_append_of_ne_nil [c] hr1ne, hdr]
                rfl
              have hcdbE1 : concatenated_definite_bytestring (r1 ++ [c]) = none :=
                @cdb_fail_strip (r1 ++ [c]) '"' (s2 ++ [c]) hxs (by decide) (by decide)
                  (by decide)
              have hslB : separated_list [','] concatenated_definite_bytestring
                  (r1 ++ [c]) = some ([], r1 ++ [c]) := by
                unfold separated_list
                simp only [hcdbE1]
              simp only [hslB]
              have hr1nenil : r1 ≠ [] := by
                intro hn
                rw [hn] at hdr
                simp at hdr
              obtain ⟨a1, t1', ha1⟩ : ∃ a1 t1', r1 = a1 :: t1' := by
                cases r1 with
                | nil => exact absurd rfl hr1nenil
                | cons a1 t1' => exact ⟨a1, t1', rfl⟩
              have hne1 : a1 ≠ ')' ∧ a1 ≠ ',' := by
                by_cases hms1 : isMS a1 = true
                · constructor <;> (intro he; rw [he] at hms1; exact absurd hms1 (by decide))
                · have hr1s : r1.dropWhile isMS = r1 := by
                    rw [ha1]
                    exact dropWhile_cons_false _ (by simpa using hms1)
                  rw [hr1s, ha1] at hdr
                  have ha1q : a1 = '"' := ((List.cons.injEq a1 t1' '"' s2).mp hdr).1
                  constructor <;> (rw [ha1q]; decide)
              have g1 : ptag [')'] ((a1 :: t1') ++ [c]) = none :=
                ptag_ne_head _ _ (Ne.symm hne1.1)
              have g2 : ptag [','] ((a1 :: t1') ++ [c]) = none :=
                ptag_ne_head _ _ (Ne.symm hne1.2)
              rw [ha1]
              unfold opt_comma_tag
              simp only [g1, g2]

/-- One step of the extension induction, on an input already stripped of
leading layout: a parse whose rest is empty or closer-headed survives an
appended layout character or closing parenthesis, with the new rest being
the old rest plus that character, re-stripped. -/
theorem dataItemF_ext_core {c : Char} (hc : ExtChar c) {f0 : Nat}
    (ih : ∀ x v r, dataItemF f0 x = some (v, r) → CloserNil r →
      dataItemF f0 (x ++ [c]) = some (v, (r ++ [c]).dropWhile isMS))
    {z : List Char} (hzs : z.dropWhile isMS = z) {v : DataItem} {r : List Char}
    (h : dataItemF (f0 + 1) z = some (v, r)) (hcl : CloserNil r) :
    dataItemF (f0 + 1) (z ++ [c]) = some (v, (r ++ [c]).dropWhile isMS) := by
  have hzne : z ≠ [] := by
    intro hn
    rw [hn, dataItemF_nil] at h
    exact Option.noConfusion h
  have hms2 : (z ++ [c]).dropWhile isMS = z ++ [c] := by
    cases z with
    | nil => exact absurd rfl hzne
    | cons a t =>
      rw [List.cons_append]
      exact dropWhile_cons_false _ (stripped_head_not_ms hzs)
  unfold dataItemF wrapws palt at h
  simp only [hzs] at h
  cases hF : float z with
  | some vr =>
    obtain ⟨v0, r0⟩ := vr
    simp only [hF] at h
    have hv : v0 = v := congrArg Prod.fst (Option.some.inj h)
    have hr0 : r0.dropWhile isMS = r := congrArg Prod.snd (Option.some.inj h)
    have hFe := float_ext hc hF
    rw [dataItemF_via_floatF f0 hms2 hFe, hv, ← hr0, ← strip_append isMS r0 [c]]
  | none =>
    simp only [hF] at h
    cases hT : tagged (dataItemF f0) z with
    | some vr =>
      obtain ⟨v0, r0⟩ := vr
      simp only [hT] at h
      have hv : v0 = v := congrArg Prod.fst (Option.some.inj h)
      have hr0 : r0.dropWhile isMS = r := congrArg Prod.snd (Option.some.inj h)
      have hFe := float_fail_ext hc hF
      have hTe := tagged_ext hc ih hT
      rw [dataItemF_via_tagged hms2 hFe hTe, hv, ← hr0, ← strip_append isMS r0 [c]]
    | none =>
      simp only [hT] at h
      cases hP : positive z with
      | some vr =>
        obtain ⟨v0, r0⟩ := vr
        simp only [hP] at h
        have hv : v0 = v := congrArg Prod.fst (Option.some.inj h)
        have hr0 : r0.dropWhile isMS = r := congrArg Prod.snd (Option.some.inj h)
        have hFe := float_fail_ext hc hF
        obtain ⟨n, w, hint⟩ := positive_inv hP
        have hTe : tagged (dataItemF f0) (z ++ [c]) = none :=
          tagged_fail_after_integer hc hint (by rw [hr0]; exact hcl)
        have hPe := positive_ext hc hP
        rw [dataItemF_via_positive hms2 hFe hTe hPe, hv, ← hr0,
          ← strip_append isMS r0 [c]]
      | none =>
        simp only [hP] at h
        cases hN : negative z with
        | some vr =>
          obtain ⟨v0, r0⟩ := vr
          simp only [hN] at h
          have hv : v0 = v := congrArg Prod.fst (Option.some.inj h)
          have hr0 : r0.dropWhile isMS = r := congrArg Prod.snd (Option.some.inj h)
          obtain ⟨y, hzy⟩ := negative_head hN
          have hzy2 : z ++ [c] = '-' :: (y ++ [c]) := by
            rw [hzy, List.cons_append]
          have hFe := float_fail_ext hc hF
          have hTe : tagged (dataItemF f0) (z ++ [c]) = none := by
            rw [hzy2]
            exact tagged_fail_integer (integer_fail_head (notDigitStart_cons _ (by decide)))
          have hPe : positive (z ++ [c]) = none := by
            rw [hzy2]
            exact positive_fail_head (notDigitStart_cons _ (by decide))
          have hNe := negative_ext hc hN
          rw [dataItemF_via_negative hms2 hFe hTe hPe hNe, hv, ← hr0,
            ← strip_append isMS r0 [c]]
        | none =>
          simp only [hN] at h
          cases hB : bytestring z with
          | some vr =>
            obtain ⟨v0, r0⟩ := vr
            simp only [hB] at h
            have hv : v0 = v := congrArg Prod.fst (Option.some.inj h)
            have hr0 : r0.dropWhile isMS = r := congrArg Prod.snd (Option.some.inj h)
            obtain ⟨a, t2, hzc, hasel⟩ :
                ∃ a t2, z = a :: t2 ∧ (a = 'h' ∨ a = 'b' ∨ a = '\'' ∨ a = '(') := by
              unfold bytestring palt pmap at hB
              cases hc0 : concatenated_definite_bytestring z with
              | some br =>
                obtain ⟨t3, hh⟩ := cdb_head hc0
                rw [hzs] at hh
                rcases hh with he | he | he
                · exact ⟨'h', t3, he, Or.inl rfl⟩
                · exact ⟨'b', t3, he, Or.inr (Or.inl rfl)⟩
                · exact ⟨'\'', t3, he, Or.inr (Or.inr (Or.inl rfl))⟩
              | none =>
                simp only [hc0] at hB
                obtain ⟨w1, hzp⟩ := indefinite_bytestring_head hB
                exact ⟨'(', '_' :: w1, hzp, Or.inr (Or.inr (Or.inr rfl))⟩
            have hzc2 : z ++ [c] = a :: (t2 ++ [c]) := by
              rw [hzc, List.cons_append]
            have hfacts : a.isDigit = false ∧ a ≠ '+' ∧ a ≠ '-' ∧ a ≠ 'I' ∧ a ≠ 'N' := by
              rcases hasel with rfl | rfl | rfl | rfl
              · exact (by decide)
              · exact (by decide)
              · exact (by decide)
              · exact (by decide)
            obtain ⟨hdg, hp1, hp2, hp3, hp4⟩ := hfacts
            obtain ⟨hFe, hTe, hPe, hNe⟩ :=
              @first4_fail f0 (z ++ [c]) a (t2 ++ [c]) hzc2 hdg hp1 hp2 hp3 hp4
            obtain ⟨R, hBe, hRe⟩ := bytestring_ext hc hB (by rw [hr0]; exact hcl)
            rw [dataItemF_via_bytestring hms2 hFe hTe hPe hNe hBe, hv, hRe, ← hr0,
              ← strip_append isMS r0 [c]]
          | none =>
            simp only [hB] at h
            cases hX : textstring z with
            | some vr =>
              obtain ⟨v0, r0⟩ := vr
              simp only [hX] at h
              have hv : v0 = v := congrArg Prod.fst (Option.some.inj h)
              have hr0 : r0.dropWhile isMS = r := congrArg Prod.snd (Option.some.inj h)
              obtain ⟨a, t2, hzc, hasel⟩ :
                  ∃ a t2, z = a :: t2 ∧ (a = '"' ∨ a = '(') := by
                unfold textstring palt pmap at hX
                cases hc0 : concatenated_definite_textstring z with
                | some tr =>
                  obtain ⟨t3, hh⟩ := ctds_head hc0
                  rw [hzs] at hh
                  exact ⟨'"', t3, hh, Or.inl rfl⟩
                | none =>
                  simp only [hc0] at hX
                  obtain ⟨w1, hzp⟩ := indefinite_textstring_head hX
                  exact ⟨'(', '_' :: w1, hzp, Or.inr rfl⟩
              have hzc2 : z ++ [c] = a :: (t2 ++ [c]) := by
                rw [hzc, List.cons_append]
              have hfacts : a.isDigit = false ∧ a ≠ '+' ∧ a ≠ '-' ∧ a ≠ 'I' ∧ a ≠ 'N' := by
                rcases hasel with rfl | rfl
                · exact (by decide)
                · exact (by decide)
              obtain ⟨hdg, hp1, hp2, hp3, hp4⟩ := hfacts
              obtain ⟨hFe, hTe, hPe, hNe⟩ :=
                @first4_fail f0 (z ++ [c]) a (t2 ++ [c]) hzc2 hdg hp1 hp2 hp3 hp4
              have hBe : bytestring (z ++ [c]) = none :=
                bytestring_fail_ext_of_textstring hc hzs hX hB
              obtain ⟨R, hXe, hRe⟩ := textstring_ext hc hX (by rw [hr0]; exact hcl)
              rw [dataItemF_via_textstring hms2 hFe hTe hPe hNe hBe hXe, hv, hRe,
                ← hr0, ← strip_append isMS r0 [c]]
            | none =>
              simp only [hX] at h
              cases hA : array (dataItemF f0) z with
              | some vr =>
                obtain ⟨v0, r0⟩ := vr
                simp only [hA] at h
                have hv : v0 = v := congrArg Prod.fst (Option.some.inj h)
                have hr0 : r0.dropWhile isMS = r := congrArg Prod.snd (Option.some.inj h)
                obtain ⟨t2, hzc⟩ := array_head hA
                rw [hzs] at hzc
                have hzc2 : z ++ [c] = '[' :: (t2 ++ [c]) := by
                  rw [hzc, List.cons_append]
                obtain ⟨hFe, hTe, hPe, hNe⟩ :=
                  @first4_fail f0 (z ++ [c]) '[' (t2 ++ [c]) hzc2 (by decide)
                    (by decide) (by decide) (by decide) (by decide)
                have hBe : bytestring (z ++ [c]) = none := by
                  rw [hzc2]
                  exact bytestring_fail_head (by decide) (by decide) (by decide)
                    (by decide) (by decide)
                have hXe : textstring (z ++ [c]) = none := by
                  rw [hzc2]
                  exact textstring_fail_head (by decide) (by decide) (by decide)
                have hAe := array_ext hc ih hA
                rw [dataItemF_via_array hms2 hFe hTe hPe hNe hBe hXe hAe, hv, ← hr0,
                  ← strip_append isMS r0 [c]]
              | none =>
                simp only [hA] at h
                cases hM : data_map (dataItemF f0) z with
                | some vr =>
                  obtain ⟨v0, r0⟩ := vr
                  simp only [hM] at h
                  have hv : v0 = v := congrArg Prod.fst (Option.some.inj h)
                  have hr0 : r0.dropWhile isMS = r := congrArg Prod.snd (Option.some.inj h)
                  obtain ⟨t2, hzc⟩ := map_head hM
                  rw [hzs] at hzc
                  have hzc2 : z ++ [c] = '{' :: (t2 ++ [c]) := by
                    rw [hzc, List.cons_append]
                  obtain ⟨hFe, hTe, hPe, hNe⟩ :=
                    @first4_fail f0 (z ++ [c]) '{' (t2 ++ [c]) hzc2 (by decide)
                      (by decide) (by decide) (by decide) (by decide)
                  have hBe : bytestring (z ++ [c]) = none := by
                    rw [hzc2]
                    exact bytestring_fail_head (by decide) (by decide) (by decide)
                      (by decide) (by decide)
                  have hXe : textstring (z ++ [c]) = none := by
                    rw [hzc2]
                    exact textstring_fail_head (by decide) (by decide) (by decide)
                  have hAe2 : array (dataItemF f0) (z ++ [c]) = none := by
                    rw [hzc2]
                    exact array_fail_head (by decide) (by decide)
                  have hMe := map_ext hc ih hM
                  rw [dataItemF_via_map hms2 hFe hTe hPe hNe hBe hXe hAe2 hMe, hv,
                    ← hr0, ← strip_append isMS r0 [c]]
                | none =>
                  simp only [hM] at h
                  cases hS : simple z with
                  | none =>
                    simp only [hS] at h
                    exact Option.noConfusion h
                  | some vr =>
                    obtain ⟨v0, r0⟩ := vr
                    simp only [hS] at h
                    have hv : v0 = v := congrArg Prod.fst (Option.some.inj h)
                    have hr0 : r0.dropWhile isMS = r := congrArg Prod.snd (Option.some.inj h)
                    obtain ⟨a, t2, hzc, hprops⟩ :
                        ∃ a t2, z = a :: t2 ∧ (a.isDigit = false ∧ a ≠ '+' ∧
                          a ≠ '-' ∧ a ≠ 'I' ∧ a ≠ 'N' ∧ isMS a = false ∧ a ≠ 'h' ∧
                          a ≠ 'b' ∧ a ≠ '\'' ∧ a ≠ '"' ∧ a ≠ '(' ∧ a ≠ '[' ∧
                          a ≠ '{') := by
                      obtain ⟨t2, hsel⟩ := simple_head hS
                      rcases hsel with he | he | he | he | he
                      · exact ⟨'f', t2, he, by decide⟩
                      · exact ⟨'t', t2, he, by decide⟩
                      · exact ⟨'n', t2, he, by decide⟩
                      · exact ⟨'u', t2, he, by decide⟩
                      · exact ⟨'s', t2, he, by decide⟩
                    obtain ⟨hdg, hp1, hp2, hp3, hp4, hmsa, hh1, hh2, hh3, hh4,
                      hh5, hh6, hh7⟩ := hprops
                    have hzc2 : z ++ [c] = a :: (t2 ++ [c]) := by
                      rw [hzc, List.cons_append]
                    obtain ⟨hFe, hTe, hPe, hNe⟩ :=
                      @first4_fail f0 (z ++ [c]) a (t2 ++ [c]) hzc2 hdg hp1 hp2 hp3 hp4
                    have hBe : bytestring (z ++ [c]) = none := by
                      rw [hzc2]
                      exact bytestring_fail_head hmsa hh1 hh2 hh3 hh5
                    have hXe : textstring (z ++ [c]) = none := by
                      rw [hzc2]
                      exact textstring_fail_head hmsa hh4 hh5
                    have hAe2 : array (dataItemF f0) (z ++ [c]) = none := by
                      rw [hzc2]
                      exact array_fail_head hmsa hh6
                    have hMe2 : data_map (dataItemF f0) (z ++ [c]) = none := by
                      rw [hzc2]
                      exact map_fail_head hmsa hh7
                    have hSe := simple_ext hc hS
                    rw [dataItemF_via_simple hms2 hFe hTe hPe hNe hBe hXe hAe2
                      hMe2 hSe, hv, ← hr0, ← strip_append isMS r0 [c]]

/-- Appending a layout character or a closing parenthesis to an input whose
parse leaves an empty or closer-headed rest: the same item is produced and
the rest gains the appended character, then sheds leading layout. -/
theorem dataItemF_ext {c : Char} (hc : ExtChar c) :
    ∀ (f : Nat) (x : List Char) (v : DataItem) (r : List Char),
      dataItemF f x = some (v, r) → CloserNil r →
      dataItemF f (x ++ [c]) = some (v, (r ++ [c]).dropWhile isMS) := by
  intro f
  induction f with
  | zero =>
    intro x v r h _
    have h0 : dataItemF 0 x = none := rfl
    rw [h0] at h
    exact Option.noConfusion h
  | succ f0 ih =>
    intro x v r h hcl
    have hzne : x.dropWhile isMS ≠ [] := dataItemF_strip_ne_nil h
    have h2 := h
    rw [dataItemF_strip x] at h2
    have hcore := dataItemF_ext_core hc ih (dropWhile_idem x) h2 hcl
    rw [dataItemF_strip (x ++ [c]), dropWhile_append_of_ne_nil [c] hzne]
    exact hcore

theorem parse_diag_ok_inv {s : List Char} {v : DataItem} (h : parse_diag s = .ok v) :
    data_item s = some (v, []) := by
  unfold parse_diag at h
  cases h0 : data_item s with
  | none =>
    simp only [h0] at h
    exact Except.noConfusion h
  | some vr =>
    obtain ⟨v0, r0⟩ := vr
    simp only [h0] at h
    cases r0 with
    | nil =>
      have hv : v0 = v := Except.ok.inj h
      rw [hv]
    | cons a t => exact Except.noConfusion h

theorem parse_diag_prepend_ms {ch : Char} {s : List Char} {v : DataItem}
    (hms : isMS ch = true) (h : parse_diag s = .ok v) :
    parse_diag (ch :: s) = .ok v := by
  have hd := parse_diag_ok_inv h
  unfold data_item at hd
  apply parse_diag_ok
  unfold data_item
  have hstrip : (ch :: s).dropWhile isMS = s.dropWhile isMS := by
    rw [List.dropWhile_cons, if_pos hms]
  rw [dataItemF_strip (ch :: s), hstrip, ← dataItemF_strip s,
    dataItemF_agree ((ch :: s).length + 1) (s.length + 1) s
      (by simp only [List.length_cons]; omega) (by omega)]
  exact hd

theorem parse_diag_append_ms {ch : Char} {s : List Char} {v : DataItem}
    (hms : isMS ch = true) (h : parse_diag s = .ok v) :
    parse_diag (s ++ [ch]) = .ok v := by
  have hd := parse_diag_ok_inv h
  unfold data_item at hd
  have he := dataItemF_ext (Or.inl hms) (s.length + 1) s v [] hd (Or.inl rfl)
  have hrest : (([] : List Char) ++ [ch]).dropWhile isMS = [] := by
    rw [List.nil_append, List.dropWhile_cons, if_pos hms]
    rfl
  rw [hrest] at he
  apply parse_diag_ok
  unfold data_item
  rw [dataItemF_agree ((s ++ [ch]).length + 1) (s.length + 1) (s ++ [ch])
    (by simp only [List.length_append, List.length_cons, List.length_nil]; omega)
    (by simp only [List.length_append, List.length_cons, List.length_nil]; omega)]
  exact he

/-- Counterexample to C7 as stated: vertical tab (U+000B) is in the
WHITESPACE set used inside encoded byte-string bodies, but the layout
skipper `ws` (nom `multispace0`) does not consume it, so a parse preceded
or followed by a vertical tab no longer succeeds. -/
theorem claim_C7_counterexample :
    isWS5 (Char.ofNat 11) = true ∧
    isMS (Char.ofNat 11) = false ∧
    parse_diag ['1'] = Except.ok (DataItem.integer 1 IntegerWidth.zero) ∧
    parse_diag [Char.ofNat 11, '1'] = Except.error ParseErr.parseFailure ∧
    parse_diag ['1', Char.ofNat 11] =
      Except.error (ParseErr.remainingText [Char.ofNat 11]) := by
  exact ⟨by decide, by decide, rfl, rfl, rfl⟩

/-- C7 (corrected): the layout skipper `ws` always succeeds, consuming the
maximal leading run of exactly the FOUR characters space, tab, CR and LF —
vertical tab is not among them — and for every input that parses to a data
item, prepending or appending one of those four characters preserves the
parse and its result. -/
theorem claim_C7 :
    (∀ x : List Char, ws x = some ((), x.dropWhile isMS)) ∧
    (∀ a : Char, isMS a = true ↔ (a = '\t' ∨ a = '\n' ∨ a = '\r' ∨ a = ' ')) ∧
    (∀ (ch : Char) (s : List Char) (v : DataItem), isMS ch = true →
      parse_diag s = Except.ok v → parse_diag (ch :: s) = Except.ok v) ∧
    (∀ (ch : Char) (s : List Char) (v : DataItem), isMS ch = true →
      parse_diag s = Except.ok v → parse_diag (s ++ [ch]) = Except.ok v) := by
  refine ⟨fun x => rfl, ?_, fun ch s v hms h => parse_diag_prepend_ms hms h,
    fun ch s v hms h => parse_diag_append_ms hms h⟩
  intro a
  simp only [isMS, Bool.or_eq_true, decide_eq_true_eq]
  tauto

/-- C7 at a concrete input: `" 1\n"` parses to the same integer as `"1"`. -/
theorem claim_C7_witness :
    parse_diag [' ', '1', '\n'] = Except.ok (DataItem.integer 1 IntegerWidth.zero) :=
  claim_C7.2.2.2 '\n' [' ', '1'] (DataItem.integer 1 IntegerWidth.zero) (by decide)
    (claim_C7.2.2.1 ' ' ['1'] (DataItem.integer 1 IntegerWidth.zero) (by decide) rfl)

theorem parse_decimal_float {d1 d2 : List Char} (h1 : DigitRun d1) (h2 : DigitRun d2) :
    parse_diag (d1 ++ '.' :: d2) =
      Except.ok (DataItem.float (FloatVal.num (d1 ++ '.' :: d2)) FloatWidth.unknown) := by
  have hfl : floatLit [] d1 d2 [] = d1 ++ '.' :: d2 := by
    simp [floatLit]
  have hfv0 := float_value_decimal (Or.inl rfl) h1 h2 (Or.inl rfl)
    head_none_nil (fun a ha => absurd ha (by simp))
  rw [hfl, List.append_nil] at hfv0
  have hfloat : float (d1 ++ '.' :: d2) =
      some (.float (.num (d1 ++ '.' :: d2)) .unknown, []) := by
    unfold float
    simp only [hfv0, encoding_head_ne head_none_nil]
  have hstrip : (d1 ++ '.' :: d2).dropWhile isMS = d1 ++ '.' :: d2 := strip_digitrun h1
  exact parse_diag_ok (dataItemF_via_floatF (d1 ++ '.' :: d2).length hstrip hfloat)

theorem parse_tagged_digits {d x : List Char} {v : DataItem} (hd : DigitRun d)
    (hv : digitsVal d < 2 ^ 64) (hx : data_item x = some (v, [])) :
    parse_diag (d ++ '(' :: (x ++ [')'])) =
      Except.ok (DataItem.tagItem (digitsVal d)
        (if digitsVal d ≤ 23 then IntegerWidth.zero else IntegerWidth.unknown) v) := by
  have hnd : NotDigitStart ('(' :: (x ++ [')'])) := notDigitStart_cons _ (by decide)
  have hdot : ∀ a ∈ ('(' :: (x ++ [')'])).head?, a ≠ '.' := by
    intro a ha
    simp only [List.head?_cons, Option.mem_def, Option.some.injEq] at ha
    rw [← ha]
    decide
  have hu : ∀ a ∈ ('(' :: (x ++ [')'])).head?, a ≠ '_' := by
    intro a ha
    simp only [List.head?_cons, Option.mem_def, Option.some.injEq] at ha
    rw [← ha]
    decide
  have hflt : float (d ++ '(' :: (x ++ [')'])) = none := float_fail_digits hd hnd hdot
  have hint := integer_run_nosuffix hd hnd hu hv
  unfold data_item at hx
  have hxe := dataItemF_ext (Or.inr rfl) (x.length + 1) x v [] hx (Or.inl rfl)
  have hrp : (([] : List Char) ++ [')']).dropWhile isMS = [')'] := rfl
  rw [hrp] at hxe
  have hdpos : 0 < d.length := List.length_pos.mpr hd.1
  have hfuel : dataItemF ((d ++ '(' :: (x ++ [')'])).length) (x ++ [')']) =
      some (v, [')']) := by
    rw [dataItemF_agree ((d ++ '(' :: (x ++ [')'])).length) (x.length + 1) (x ++ [')'])
      (by simp only [List.length_append, List.length_cons, List.length_nil]; omega)
      (by simp only [List.length_append, List.length_cons, List.length_nil]; omega)]
    exact hxe
  have hpo : ptag ['('] ('(' :: (x ++ [')'])) = some (['('], x ++ [')']) :=
    ptag_run_tag ['('] (x ++ [')'])
  have hpc : ptag [')'] ([')'] : List Char) = some ([')'], []) :=
    ptag_run_tag [')'] []
  have htag : tagged (dataItemF (d ++ '(' :: (x ++ [')'])).length)
      (d ++ '(' :: (x ++ [')'])) =
      some (.tagItem (digitsVal d)
        (if IntegerWidth.unknown = IntegerWidth.unknown ∧ digitsVal d ≤ 23
          then IntegerWidth.zero else IntegerWidth.unknown) v, []) := by
    unfold tagged
    simp only [hint, hpo, hfuel, hpc]
  have hms : (d ++ '(' :: (x ++ [')'])).dropWhile isMS = d ++ '(' :: (x ++ [')']) :=
    strip_digitrun hd
  have hdisp := dataItemF_via_tagged hms hflt htag
  have hw : (if IntegerWidth.unknown = IntegerWidth.unknown ∧ digitsVal d ≤ 23
      then IntegerWidth.zero else IntegerWidth.unknown) =
      (if digitsVal d ≤ 23 then IntegerWidth.zero else IntegerWidth.unknown) := by
    by_cases h : digitsVal d ≤ 23
    · simp [h]
    · simp [h]
  rw [hw] at hdisp
  exact parse_diag_ok hdisp

/-- C8: the dispatcher's branch order resolves the two grammatical
ambiguities in favour of the longer reading: a digit run with a decimal
point and digits parses as a Float (never an Integer), and a digit run
immediately followed by a parenthesized item parses as a Tag wrapping that
item (never a bare Integer). -/
theorem claim_C8 :
    (∀ d1 d2 : List Char, DigitRun d1 → DigitRun d2 →
      parse_diag (d1 ++ '.' :: d2) =
        Except.ok (DataItem.float (FloatVal.num (d1 ++ '.' :: d2))
          FloatWidth.unknown)) ∧
    (∀ (d x : List Char) (v : DataItem), DigitRun d → digitsVal d < 2 ^ 64 →
      data_item x = some (v, []) →
      parse_diag (d ++ '(' :: (x ++ [')'])) =
        Except.ok (DataItem.tagItem (digitsVal d)
          (if digitsVal d ≤ 23 then IntegerWidth.zero else IntegerWidth.unknown) v)) :=
  ⟨fun d1 d2 h1 h2 => parse_decimal_float h1 h2,
    fun d x v hd hv hx => parse_tagged_digits hd hv hx⟩

/-- C8 at the spec's two shapes: `1.5` is a float, not an integer or a tag,
and `1(2)` is tag 1 wrapping the integer 2, not a bare integer. -/
theorem claim_C8_witness :
    parse_diag ['1', '.', '5'] =
      Except.ok (DataItem.float (FloatVal.num ['1', '.', '5']) FloatWidth.unknown) ∧
    parse_diag ['1', '(', '2', ')'] =
      Except.ok (DataItem.tagItem 1 IntegerWidth.zero
        (DataItem.integer 2 IntegerWidth.zero)) :=
  ⟨claim_C8.1 ['1'] ['5'] ⟨by decide, by decide⟩ ⟨by decide, by decide⟩,
    claim_C8.2 ['1'] ['2'] (DataItem.integer 2 IntegerWidth.zero)
      ⟨by decide, by decide⟩ (by decide) rfl⟩

/-- C9 at the spec's example: the adjacent literals of `'ab' 'cd'` parse as
one byte string with data `abcd` and unknown width. -/
theorem claim_C9_witness :
    parse_diag ['\'', 'a', 'b', '\'', ' ', '\'', 'c', 'd', '\''] =
      .ok (.byteString { data := [97, 98, 99, 100], bitwidth := IntegerWidth.unknown }) :=
  @claim_C9 [['\'', 'a', 'b', '\''], [' ', '\'', 'c', 'd', '\'']] [[97, 98], [99, 100]]
    (by decide) (List.Forall₂.cons rfl (List.Forall₂.cons rfl List.Forall₂.nil))

end CD
